import Mathlib

/-! Fog of war and minimap of flare-engine.

A shallow embedding of `src/src/FogOfWar.cpp` (namespace `FogOfWar`) and of the marker
collector and the terrain rasteriser of `src/src/MenuMiniMap.cpp` (namespace
`MenuMiniMap`).

* The fog layer `mapr->layers[layer_id]` is a list of columns, `layer[x][y]`, and every
  access goes through a lookup that fails outside the allocated array, so that the
  update is a function into `Option`.
* The observer position `pc->stats.pos`, the sight radius `pc->sight` and the other
  `float` values of the program are IEEE 754 binary32 numbers (the type `F32`): every
  operation rounds its exact result to nearest, ties to even, as the compiled code does
  when each `float` operation is carried out in single precision.
* `menu->mini->update(&mapr->collider, &bounds)` is an external call; the model records
  the rectangle of every call in a trace.
* The rasterisers and the entity renderers are modelled by the list of their `drawPixel`
  calls; the pixel batches, the clipping of the surfaces and their allocation belong to
  the render device and are not modelled. Arithmetic on `int` is exact: signed overflow
  is undefined behaviour in C++.
-/

set_option maxRecDepth 100000

namespace F32

/-- The binary digits of `n` counted one by one; `fuel` bounds the recursion. -/
def bitLengthAux : Nat → Nat → Nat
  | 0, _ => 0
  | fuel + 1, n => cond (Nat.beq n 0) 0 (Nat.succ (bitLengthAux fuel (Nat.shiftRight n 1)))

/-- One step of the count of the binary digits: `k` digits are taken off `n` at once
when `n` has more than `k` of them; `b` counts the digits taken off so far. -/
def bitStep (k : Nat) (n b : Nat) (f : Nat → Nat → Nat) : Nat :=
  cond (Nat.ble (Nat.pow 2 k) n) (f (Nat.shiftRight n k) (Nat.add b k)) (f n b)

/-- The number of binary digits of `n`: 0 for 0, and `k + 1` when `2 ^ k <= n < 2 ^ (k + 1)`. -/
def bitLength (n : Nat) : Nat :=
  bitStep 512 n 0 fun n b => bitStep 256 n b fun n b => bitStep 128 n b fun n b =>
  bitStep 64 n b fun n b => bitStep 32 n b fun n b => bitStep 16 n b fun n b =>
  bitStep 8 n b fun n b => bitStep 4 n b fun n b => bitStep 2 n b fun n b =>
  bitStep 1 n b fun n b => Nat.add b (bitLengthAux n n)

/-- Newton iteration for the integer square root of `n` from the guess `g`. -/
def isqrtIter : Nat → Nat → Nat → Nat
  | 0, _, g => g
  | fuel + 1, n, g =>
    cond (Nat.blt (Nat.shiftRight (Nat.add g (Nat.div n g)) 1) g)
      (isqrtIter fuel n (Nat.shiftRight (Nat.add g (Nat.div n g)) 1)) g

/-- The integer square root: the largest `r` with `r * r <= n`. -/
def isqrt (n : Nat) : Nat :=
  isqrtIter (Nat.pow 2 (Nat.shiftRight (Nat.succ (bitLength n)) 1)) n
    (Nat.pow 2 (Nat.shiftRight (Nat.succ (bitLength n)) 1))

/-- Rounding to nearest, ties to even: `q` is the quotient, `r` the remainder and `h` half
the divisor. -/
def roundUp (q r h : Nat) : Nat :=
  cond (Nat.blt r h) q (cond (Nat.blt h r) (Nat.succ q) (Nat.add q (Nat.mod q 2)))

/-- The integer nearest to `a / 2 ^ t`, ties to even. -/
def roundShift (a t : Nat) : Nat :=
  cond (Nat.beq t 0) a
    (roundUp (Nat.shiftRight a t) (Nat.mod a (Nat.pow 2 t)) (Nat.pow 2 (Nat.pred t)))

/-- The number of low digits of `a` that a significand of 24 digits cannot hold, and at
least `s`: the digits below the unit of the format. -/
def dropCount (a s : Nat) : Nat :=
  cond (Nat.ble (Nat.sub (bitLength a) 24) s) s (Nat.sub (bitLength a) 24)

/-- The significand `m` and the exponent `e` are those of a finite binary32 number of
magnitude `m * 2 ^ e * 2 ^ (-149)`: 24 digits, the largest exponent 253, and a
significand of full length except on the least exponent (subnormal numbers). -/
def valid (m e : Nat) : Bool :=
  Nat.blt m (Nat.pow 2 24) && Nat.ble e 253 && (Nat.beq e 0 || Nat.ble (Nat.pow 2 23) m)

end F32

/-- The values of the C++ type `float` (IEEE 754 binary32): the finite numbers, sign and
magnitude `m * 2 ^ e` in the unit `2 ^ (-149)`, the two infinities, and not-a-number. -/
inductive F32 where
  | fin (neg : Bool) (m e : Nat) (h : F32.valid m e = true)
  | inf (neg : Bool)
  | nan
  deriving DecidableEq

namespace F32

/-- The number `+0`. -/
def zero : F32 := .fin false 0 0 (by decide)

/-- The finite number of significand `m` and exponent `e`, after the carry of a
significand of 25 digits, or the infinity when the exponent exceeds the format. -/
def pack (neg : Bool) (m e : Nat) : F32 :=
  if h : valid m e = true then .fin neg m e h
  else if h1 : valid (Nat.shiftRight m 1) (Nat.succ e) = true then
    .fin neg (Nat.shiftRight m 1) (Nat.succ e) h1
  else .inf neg

/-- The binary32 number nearest to the magnitude `a / 2 ^ s` (in the unit `2 ^ (-149)`),
ties to even, with the sign `neg`: the rounding of every operation. -/
def round (neg : Bool) (a s : Nat) : F32 :=
  pack neg (roundShift a (dropCount a s)) (Nat.sub (dropCount a s) s)

/-- The magnitude `m * 2 ^ e`. -/
def mag (m e : Nat) : Nat := Nat.mul m (Nat.pow 2 e)

/-- The conversion of an `int` to `float`. -/
def ofInt (i : Int) : F32 := round (decide (i < 0)) (mag i.natAbs 149) 0

instance (n : Nat) : OfNat F32 n := ⟨ofInt n⟩

/-- The binary32 number nearest to `n / 2 ^ k`. -/
def ofDyadic (n : Int) (k : Nat) : F32 := round (decide (n < 0)) (mag n.natAbs 149) k

/-- The negation `-a`. -/
def neg : F32 → F32
  | .fin s m e h => .fin (!s) m e h
  | .inf b => .inf (!b)
  | .nan => .nan

/-- The sum of two finite numbers given by sign and magnitude. -/
def addMag (s1 : Bool) (a : Nat) (s2 : Bool) (b : Nat) : F32 :=
  cond (s1 == s2) (round s1 (Nat.add a b) 0)
    (cond (Nat.blt b a) (round s1 (Nat.sub a b) 0)
      (cond (Nat.blt a b) (round s2 (Nat.sub b a) 0) zero))

/-- The sum `a + b` in `float`. -/
def add : F32 → F32 → F32
  | .fin s1 m1 e1 _, .fin s2 m2 e2 _ => addMag s1 (mag m1 e1) s2 (mag m2 e2)
  | .fin _ _ _ _, .inf b => .inf b
  | .inf b, .fin _ _ _ _ => .inf b
  | .inf a, .inf b => if a = b then .inf a else .nan
  | _, _ => .nan

/-- The difference `a - b` in `float`. -/
def sub (a b : F32) : F32 := a.add b.neg

/-- The product `a * b` in `float`. -/
def mul : F32 → F32 → F32
  | .fin s1 m1 e1 _, .fin s2 m2 e2 _ => round (s1 != s2) (mag (Nat.mul m1 m2) (Nat.add e1 e2)) 149
  | .fin s m _ _, .inf b => if m = 0 then .nan else .inf (s != b)
  | .inf b, .fin s m _ _ => if m = 0 then .nan else .inf (s != b)
  | .inf a, .inf b => .inf (a != b)
  | _, _ => .nan

/-- The digits dropped from the square root of `a`, which has half the digits of `a`. -/
def sqrtDrop (a : Nat) : Nat := Nat.sub (Nat.shiftRight (Nat.succ (bitLength a)) 1) 24

/-- Rounding of a square root to nearest, ties to even: `k` is the root rounded down and
`mid` the midpoint above it. -/
def sqrtRound (a k mid : Nat) : Nat :=
  cond (Nat.blt a (Nat.mul mid mid)) k
    (cond (Nat.blt (Nat.mul mid mid) a) (Nat.succ k) (Nat.add k (Nat.mod k 2)))

/-- The integer nearest to `sqrt a / 2 ^ t`, for `t >= 1`. -/
def sqrtMant (a t : Nat) : Nat :=
  sqrtRound a (isqrt (Nat.shiftRight a (Nat.mul 2 t)))
    (Nat.mul (Nat.succ (Nat.mul 2 (isqrt (Nat.shiftRight a (Nat.mul 2 t))))) (Nat.pow 2 (Nat.pred t)))

/-- The binary32 number nearest to `sqrt (n * 2 ^ (-149))` for a magnitude `n > 0`: in
the unit `2 ^ (-149)` it is the square root of `n * 2 ^ 149`. -/
def sqrtMag (n : Nat) : F32 :=
  pack false (sqrtMant (mag n 149) (sqrtDrop (mag n 149))) (sqrtDrop (mag n 149))

/-- The function `sqrtf`. -/
def sqrt : F32 → F32
  | .fin s m e h =>
    if m = 0 then .fin s m e h
    else if s then .nan
    else sqrtMag (mag m e)
  | .inf b => if b then .nan else .inf false
  | .nan => .nan

/-- The position of a number on the line of the integers: its value in the unit
`2 ^ (-149)`, the infinities beyond every finite number. -/
def ord : F32 → Int
  | .fin s m e _ => cond s (Int.negOfNat (mag m e)) (Int.ofNat (mag m e))
  | .inf b => cond b (Int.negOfNat (Nat.pow 2 277)) (Int.ofNat (Nat.pow 2 277))
  | .nan => 0

/-- The test for not-a-number. -/
def isNaN : F32 → Bool
  | .nan => true
  | _ => false

/-- The test for a finite number. -/
def isFinite : F32 → Bool
  | .fin _ _ _ _ => true
  | _ => false

/-- The comparison `a < b` in `float`: false when an operand is not a number. -/
def lt (a b : F32) : Bool := !a.isNaN && !b.isNaN && decide (a.ord < b.ord)

/-- The comparison `a <= b` in `float`: false when an operand is not a number. -/
def le (a b : F32) : Bool := !a.isNaN && !b.isNaN && decide (a.ord ≤ b.ord)

/-- The value of a finite number as a rational; 0 for the others. -/
def toRat : F32 → ℚ
  | .fin s m e _ => mkRat (cond s (Int.negOfNat (mag m e)) (Int.ofNat (mag m e))) (Nat.pow 2 149)
  | _ => 0

/-- Truncation toward zero, the value of a conversion to an integer type; 0 for the
infinities and not-a-number. -/
def trunc : F32 → Int
  | .fin s m e _ => cond s (Int.negOfNat (Nat.shiftRight (mag m e) 149))
      (Int.ofNat (Nat.shiftRight (mag m e) 149))
  | _ => 0

/-- The magnitude of `round neg a s` before the test for overflow. -/
def roundTo (a s : Nat) : Nat := roundShift a (dropCount a s) * 2 ^ (dropCount a s - s)

/-- The integer of sign `neg` and magnitude `n`. -/
def signed (neg : Bool) (n : Nat) : Int := if neg then -(n : Int) else (n : Int)

/-- The rounding of the integer `z / 2 ^ s` (in the unit `2 ^ (-149)`), the overflow
stopped at the position of the infinities. -/
def rInt (z : Int) (s : Nat) : Int :=
  signed (decide (z < 0)) (min (roundTo z.natAbs s) (2 ^ 277))

-- END DEFS F32
end F32

/-- The class `FPoint` of the engine: a point with `float` coordinates. -/
structure FPoint where
  x : F32
  y : F32
  deriving DecidableEq

namespace Utils

/-- Modelled from the spec: `Utils::calcDist` is not among the sources; by the spec it is
the Euclidean distance between two points. Its arguments are `FPoint` values and its
result is stored in a `float` (line 96 of `FogOfWar.cpp`, lines 567 and 596 of
`MenuMiniMap.cpp`), so it is computed here in `float`: the differences of the
coordinates, their squares, their sum and the square root, each rounded to binary32. -/
def calcDist (p1 p2 : FPoint) : F32 :=
  (((p2.x.sub p1.x).mul (p2.x.sub p1.x)).add ((p2.y.sub p1.y).mul (p2.y.sub p1.y))).sqrt

end Utils

namespace FogOfWar

/-- Modelled from the spec: the tile states `TILE_SIGHT`, `TILE_VISITED`, `TILE_HIDDEN`,
`TILE_HIDDEN_BOUNDARY` are constants of `FogOfWar.h`, which is not among the sources; the
spec lists exactly these four states (Sighted, Visited, Hidden, HiddenBoundary). -/
inductive Tile where
  | TILE_SIGHT
  | TILE_VISITED
  | TILE_HIDDEN
  | TILE_HIDDEN_BOUNDARY
  deriving DecidableEq, Repr

/-- Modelled from the spec: the fog modes of `eset->misc.fogofwar` (constants of
`FogOfWar.h`, not among the sources): off, standard, overlay with soft edge. Only the
comparison with `TYPE_OVERLAY` occurs in `FogOfWar.cpp`. -/
inductive FogType where
  | TYPE_NONE
  | TYPE_STANDARD
  | TYPE_OVERLAY
  deriving DecidableEq, Repr

open Tile FogType

/-- One map layer, `mapr->layers[layer_id]`, indexed `[x][y]`. -/
abbrev Layer := List (List Tile)

/-- The class `Rect` of the engine: `w` and `h` are used by `FogOfWar` as the exclusive
upper corner of the window. -/
structure Rect where
  x : Int
  y : Int
  w : Int
  h : Int
  deriving DecidableEq, Repr

/-- Everything `FogOfWar.cpp` reads or writes. -/
structure State where
  /-- the array `mapr->layers[layer_id]` -/
  layer : Layer
  /-- the map width `mapr->w` (an unsigned short) -/
  w : Nat
  /-- the map height `mapr->h` (an unsigned short) -/
  h : Nat
  /-- the observer position `pc->stats.pos.x` -/
  pos_x : F32
  /-- the observer position `pc->stats.pos.y` -/
  pos_y : F32
  /-- the sight radius `pc->sight` -/
  sight : F32
  /-- the fog mode `eset->misc.fogofwar` -/
  fogofwar : FogType
  /-- the member `bounds` -/
  bounds : Rect
  /-- the member `update_minimap` -/
  update_minimap : Bool
  /-- the rectangles passed to `menu->mini->update`, latest first -/
  mini_updates : List Rect
  deriving DecidableEq

/-- The read `mapr->layers[layer_id][x][y]`; `none` when the index is outside the array. -/
def getTile (l : Layer) (x y : Int) : Option Tile :=
  if 0 ≤ x ∧ 0 ≤ y then
    match l[x.toNat]? with
    | some col => col[y.toNat]?
    | none => none
  else none

/-- The write `mapr->layers[layer_id][x][y] = t`; `none` when the index is outside the
array. -/
def setTile (l : Layer) (x y : Int) (t : Tile) : Option Layer :=
  if 0 ≤ x ∧ 0 ≤ y then
    match l[x.toNat]? with
    | some col => if y.toNat < col.length then some (l.set x.toNat (col.set y.toNat t)) else none
    | none => none
  else none

/-- The range of `short`. -/
def inShort (n : Int) : Prop := -32768 ≤ n ∧ n ≤ 32767

instance (n : Int) : Decidable (inShort n) := by unfold inShort; infer_instance

/-- The conversion `static_cast<short>(f)`: truncation toward zero. A value outside the
range of `short` is undefined behaviour in C++; the model wraps it to 16 bits, which is
what the usual targets compute for a value in the range of `int` (and takes 0 for the
infinities and not-a-number). The general results on the window assume that the
conversions are defined (`CastsInRange`). -/
def toShort (f : F32) : Int := (f.trunc + 32768) % 65536 - 32768

/-- The value `delta` of line 96 of `updateTiles` at the tile `(x, y)`:
`Utils::calcDist(FPoint(tile), FPoint(pc->stats.pos))`, the coordinates of the tile
converted to `float`. -/
def delta (s : State) (x y : Int) : F32 :=
  Utils.calcDist ⟨F32.ofInt x, F32.ofInt y⟩ ⟨s.pos_x, s.pos_y⟩

/-- The test `delta < pc->sight` of line 98 of `updateTiles`, a comparison of two
`float` values. -/
def deltaLtSight (s : State) (x y : Int) : Bool := (delta s x y).lt s.sight

/-- The function `FogOfWar::calcBoundaries`: the sums are `float` operations, the
constant 2 converted to `float`. -/
def calcBoundaries (s : State) : State :=
  let x := toShort ((s.pos_x.sub s.sight).sub (F32.ofInt 2))
  let y := toShort ((s.pos_y.sub s.sight).sub (F32.ofInt 2))
  let w := toShort ((s.pos_x.add s.sight).add (F32.ofInt 2))
  let h := toShort ((s.pos_y.add s.sight).add (F32.ofInt 2))
  let x := if x < 0 then 0 else x
  let y := if y < 0 then 0 else y
  let w := if w > (s.w : Int) then (s.w : Int) else w
  let h := if h > (s.h : Int) then (s.h : Int) else h
  { s with bounds := ⟨x, y, w, h⟩ }

/-- The values of a loop `for (int i = lo; i < hi; i++)`, in order. -/
def loopRange (lo hi : Int) : List Int :=
  (List.range (hi - lo).toNat).map (fun (k : Nat) => lo + (k : Int))

/-- The conditional of lines 98 to 103 of `updateTiles`, at tile `(x, y)`: the write of
`sight_tile` when the tile is in range, the demotion of a `TILE_SIGHT` tile otherwise. -/
def distanceWrite (sight_tile : Tile) (x y : Int) (s : State) : Option Layer :=
  if deltaLtSight s x y then setTile s.layer x y sight_tile
  else do
    let cur ← getTile s.layer x y
    if cur = TILE_SIGHT then setTile s.layer x y TILE_VISITED else pure s.layer

/-- The body of the first pair of loops of `updateTiles`, at tile `(x, y)`. -/
def distanceStep (sight_tile : Tile) (x y : Int) (s : State) : Option State := do
  let prev_tile ← getTile s.layer x y
  let l1 ← distanceWrite sight_tile x y s
  let now ← getTile l1 x y
  let um :=
    if (prev_tile = TILE_HIDDEN ∨ prev_tile = TILE_HIDDEN_BOUNDARY) ∧ prev_tile ≠ now then true
    else s.update_minimap
  pure { s with layer := l1, update_minimap := um }

/-- The first pair of loops of `updateTiles` (lines 93 to 108): the distance pass. -/
def distancePass (sight_tile : Tile) (s : State) : Option State :=
  (loopRange s.bounds.x s.bounds.w).foldlM
    (fun s1 x => (loopRange s.bounds.y s.bounds.h).foldlM
      (fun s2 y => distanceStep sight_tile x y s2) s1) s

/-- The body of the innermost loops of the second pass: neighbour `(i, j)` of the
tile `(x, y)`. -/
def neighbourStep (x y i j : Int) (s : State) : Option State :=
  if 0 ≤ i ∧ 0 ≤ j ∧ i < (s.w : Int) ∧ j < (s.h : Int) then do
    let n ← getTile s.layer i j
    if n = TILE_SIGHT ∨ n = TILE_VISITED then do
      let l1 ← setTile s.layer x y TILE_HIDDEN_BOUNDARY
      pure { s with layer := l1 }
    else pure s
  else pure s

/-- The body of the second pair of loops of `updateTiles`, at tile `(x, y)`. -/
def boundaryStep (x y : Int) (s : State) : Option State := do
  let cur ← getTile s.layer x y
  if cur = TILE_HIDDEN then
    (loopRange (x - 1) (x + 2)).foldlM
      (fun s1 i => (loopRange (y - 1) (y + 2)).foldlM
        (fun s2 j => neighbourStep x y i j s2) s1) s
  else pure s

/-- The second pair of loops of `updateTiles` (lines 110 to 127): the boundary pass. -/
def boundaryPass (s : State) : Option State :=
  if s.fogofwar = TYPE_OVERLAY then
    (loopRange s.bounds.x s.bounds.w).foldlM
      (fun s1 x => (loopRange s.bounds.y s.bounds.h).foldlM
        (fun s2 y => boundaryStep x y s2) s1) s
  else pure s

/-- The function `FogOfWar::updateTiles`. -/
def updateTiles (sight_tile : Tile) (s : State) : Option State :=
  distancePass sight_tile s >>= boundaryPass

/-- The tail shared by `logic` and `handleIntramapTeleport`: the call of
`menu->mini->update` and the reset of the flag. -/
def flushMinimap (s : State) : State :=
  if s.update_minimap then
    { s with mini_updates := s.bounds :: s.mini_updates, update_minimap := false }
  else s

/-- The function `FogOfWar::logic`. -/
def logic (s : State) : Option State :=
  (updateTiles TILE_SIGHT (calcBoundaries s)).map flushMinimap

/-- The function `FogOfWar::handleIntramapTeleport`. -/
def handleIntramapTeleport (s : State) : Option State :=
  (updateTiles TILE_VISITED (calcBoundaries s)).map flushMinimap

/-- A layer of `w` columns filled with one tile. -/
def fillLayer (w h : Nat) (t : Tile) : Layer := List.replicate w (List.replicate h t)

/-- The layer `l` is an array of `w` columns of `h` tiles. -/
def LayerDims (l : Layer) (w h : Nat) : Prop :=
  l.length = w ∧ ∀ col ∈ l, col.length = h

instance (l : Layer) (w h : Nat) : Decidable (LayerDims l w h) := by
  unfold LayerDims; infer_instance

/-- The layer has the dimensions of the map: `w` columns of `h` tiles. -/
def WellFormed (s : State) : Prop := LayerDims s.layer s.w s.h

instance (s : State) : Decidable (WellFormed s) := by unfold WellFormed; infer_instance

/-- The window `bounds` lies inside the map, as `calcBoundaries` leaves it. -/
def BoundsInMap (s : State) : Prop :=
  0 ≤ s.bounds.x ∧ 0 ≤ s.bounds.y ∧ s.bounds.w ≤ (s.w : Int) ∧ s.bounds.h ≤ (s.h : Int)

instance (s : State) : Decidable (BoundsInMap s) := by unfold BoundsInMap; infer_instance

/-- The tile `(x, y)` lies in the window `[bounds.x, bounds.w) x [bounds.y, bounds.h)`. -/
def inWindow (b : Rect) (x y : Int) : Prop := b.x ≤ x ∧ x < b.w ∧ b.y ≤ y ∧ y < b.h

instance (b : Rect) (x y : Int) : Decidable (inWindow b x y) := by
  unfold inWindow; infer_instance

/-- The tile `(x, y)` is a tile of the map. -/
def inMap (s : State) (x y : Int) : Prop := 0 ≤ x ∧ x < (s.w : Int) ∧ 0 ≤ y ∧ y < (s.h : Int)

instance (s : State) (x y : Int) : Decidable (inMap s x y) := by unfold inMap; infer_instance

/-- A tile the observer has seen: `TILE_SIGHT` or `TILE_VISITED`. -/
def Tile.seen (t : Tile) : Bool := t = TILE_SIGHT ∨ t = TILE_VISITED

/-- A fresh map of size `w x h`, every tile hidden, observer at `(px, py)`. -/
def freshState (w h : Nat) (px py r : F32) (f : FogType) : State :=
  { layer := fillLayer w h TILE_HIDDEN, w := w, h := h, pos_x := px, pos_y := py, sight := r,
    fogofwar := f, bounds := ⟨0, 0, 0, 0⟩, update_minimap := true, mini_updates := [] }

/-- The conversion of `f` to `short` is defined: `f` is a finite number whose truncation
lies in the range of `short`. -/
def castOK (f : F32) : Prop := f.isFinite = true ∧ inShort f.trunc

instance (f : F32) : Decidable (castOK f) := by unfold castOK; infer_instance

/-- The four conversions to `short` of `calcBoundaries` are defined. -/
def CastsInRange (s : State) : Prop :=
  castOK ((s.pos_x.sub s.sight).sub (F32.ofInt 2)) ∧
  castOK ((s.pos_y.sub s.sight).sub (F32.ofInt 2)) ∧
  castOK ((s.pos_x.add s.sight).add (F32.ofInt 2)) ∧
  castOK ((s.pos_y.add s.sight).add (F32.ofInt 2))

instance (s : State) : Decidable (CastsInRange s) := by unfold CastsInRange; infer_instance

/-- The Euclidean distance from the tile `(x, y)` to the observer position, over the
reals, is strictly below the sight radius (position and radius finite numbers). -/
def EuclidLt (s : State) (x y : Int) : Prop :=
  Real.sqrt (((x : ℝ) - (s.pos_x.toRat : ℝ)) ^ 2 + ((y : ℝ) - (s.pos_y.toRat : ℝ)) ^ 2)
    < (s.sight.toRat : ℝ)

/-- The test of `EuclidLt` on the rationals: over the reals `sqrt d < r` holds exactly
when `0 < r` and `d < r * r`. -/
def euclidLt (s : State) (x y : Int) : Bool :=
  decide (0 < s.sight.toRat ∧
    ((x : ℚ) - s.pos_x.toRat) * ((x : ℚ) - s.pos_x.toRat) +
      ((y : ℚ) - s.pos_y.toRat) * ((y : ℚ) - s.pos_y.toRat) < s.sight.toRat * s.sight.toRat)

/-- The tile `(i, j)` is the tile `(x, y)` or one of its eight neighbours. -/
def Adjacent (x y i j : Int) : Prop := x - 1 ≤ i ∧ i ≤ x + 1 ∧ y - 1 ≤ j ∧ j ≤ y + 1

instance (x y i j : Int) : Decidable (Adjacent x y i j) := by unfold Adjacent; infer_instance

/-- Some tile of the map among `(x, y)` and its eight neighbours is `TILE_SIGHT` or
`TILE_VISITED` in the layer `l`. -/
def SeenNeighbour (s : State) (l : Layer) (x y : Int) : Prop :=
  ∃ i j t, Adjacent x y i j ∧ inMap s i j ∧ getTile l i j = some t ∧ t.seen = true

/-- The tile written by the distance pass over a tile `t`, where `d` is the outcome of
the distance test. -/
def distanceTile (d : Bool) (sight_tile t : Tile) : Tile :=
  if d then sight_tile else if t = TILE_SIGHT then TILE_VISITED else t

/-- The condition under which the distance pass raises `update_minimap`. -/
def raisesFlag (prev now : Tile) : Bool :=
  (prev = TILE_HIDDEN ∨ prev = TILE_HIDDEN_BOUNDARY) ∧ prev ≠ now

/-- The tiles visited by a pair of nested loops, in the order of the visit. -/
def loopCells (x0 x1 y0 y1 : Int) : List (Int × Int) :=
  List.product (loopRange x0 x1) (loopRange y0 y1)

/-- The state `s1` differs from `s` at most in the layer and in `update_minimap`. -/
def Frame (s s1 : State) : Prop :=
  s1.w = s.w ∧ s1.h = s.h ∧ s1.pos_x = s.pos_x ∧ s1.pos_y = s.pos_y ∧ s1.sight = s.sight ∧
  s1.fogofwar = s.fogofwar ∧ s1.bounds = s.bounds ∧ s1.mini_updates = s.mini_updates

/-- The tile `p` is a tile of the map and is `TILE_SIGHT` or `TILE_VISITED` in `l`: the
test of lines 116 and 117. -/
def seenAt (s : State) (l : Layer) (p : Int × Int) : Bool :=
  decide (inMap s p.1 p.2) &&
    match getTile l p.1 p.2 with
    | some t => t.seen
    | none => false

/-- Some tile among `(x, y)` and its eight neighbours passes `seenAt`. -/
def hasSeenNeighbour (s : State) (l : Layer) (x y : Int) : Bool :=
  (loopCells (x - 1) (x + 2) (y - 1) (y + 2)).any (seenAt s l)

/-- The tile left by the boundary pass over a tile `t`, where `b` tells whether a
neighbour has been seen. -/
def boundaryTile (b : Bool) (t : Tile) : Tile :=
  if t = TILE_HIDDEN ∧ b = true then TILE_HIDDEN_BOUNDARY else t

/-- The state after `logic`; the state itself should an access fall outside the layer. -/
def afterLogic (s : State) : State := (logic s).getD s

/-- Every tile of the window is a fixed point of both passes of the ordinary update. -/
def Settled (s : State) : Prop :=
  ∀ x y c, inWindow (calcBoundaries s).bounds x y → getTile s.layer x y = some c →
    distanceTile (deltaLtSight s x y) TILE_SIGHT c = c ∧
    (s.fogofwar = TYPE_OVERLAY → boundaryTile (hasSeenNeighbour s s.layer x y) c = c)

/-- The class `Color` of the engine: red, green, blue and alpha channels. -/
structure Color where
  r : Nat
  g : Nat
  b : Nat
  a : Nat
  deriving DecidableEq, Repr

/-- The colour members `color_sight`, `color_visited` and `color_hidden` of `FogOfWar`. -/
structure FogColors where
  color_sight : Color
  color_visited : Color
  color_hidden : Color
  deriving DecidableEq, Repr

/-- The function `FogOfWar::getTileColorMod`; `none` when the tile is outside the layer. -/
def getTileColorMod (c : FogColors) (s : State) (x y : Int) : Option Color := do
  let t ← getTile s.layer x y
  if t = TILE_VISITED ∨ t = TILE_HIDDEN_BOUNDARY then pure c.color_visited
  else if t = TILE_HIDDEN then pure c.color_hidden
  else pure c.color_sight

/-- The state with the observer moved to `p`, as the frame loop leaves it before the
next call of `logic`. -/
def moveTo (s : State) (p : F32 × F32) : State := { s with pos_x := p.1, pos_y := p.2 }

/-- One call of `logic` per observer position of the list, in order. -/
def track (s : State) (ps : List (F32 × F32)) : Option State :=
  ps.foldlM (fun s1 p => logic (moveTo s1 p)) s

/-- The position `q` differs from `p` by at most one tile along each axis: the exact
difference of the two coordinates, in the unit `2 ^ (-149)`. -/
def Near (p q : F32 × F32) : Prop :=
  |q.1.ord - p.1.ord| ≤ 2 ^ 149 ∧ |q.2.ord - p.2.ord| ≤ 2 ^ 149

instance (p q : F32 × F32) : Decidable (Near p q) := by unfold Near; infer_instance

/-- One update requested by the game: through `logic` (`teleport = false`) or through
`handleIntramapTeleport` (`teleport = true`), with the observer at `(pos_x, pos_y)` and
the sight radius `sight`. -/
structure Update where
  teleport : Bool
  pos_x : F32
  pos_y : F32
  sight : F32
  deriving DecidableEq

/-- The state on which the update `u` is run. -/
def Update.place (u : Update) (s : State) : State :=
  { s with pos_x := u.pos_x, pos_y := u.pos_y, sight := u.sight }

/-- The update `u` run on the state `s`. -/
def applyUpdate (s : State) (u : Update) : Option State :=
  if u.teleport then handleIntramapTeleport (u.place s) else logic (u.place s)

/-- The updates of the list run in order. -/
def runUpdates (s : State) (us : List Update) : Option State :=
  us.foldlM applyUpdate s

/-- The tiles `(x, y)` and `(i, j)` are distinct and touch by a side or a corner. -/
def Neighbour8 (x y i j : Int) : Prop := Adjacent x y i j ∧ (i, j) ≠ (x, y)

/-- No `TILE_HIDDEN` tile of the map has, among its eight neighbours inside the map, a
tile that is `TILE_SIGHT` or `TILE_VISITED`. -/
def NoExposedHidden (s : State) : Prop :=
  ∀ x y, inMap s x y → getTile s.layer x y = some TILE_HIDDEN →
    ¬ ∃ i j t, Neighbour8 x y i j ∧ inMap s i j ∧ getTile s.layer i j = some t ∧
      (t = TILE_SIGHT ∨ t = TILE_VISITED)

-- END DEFS FogOfWar
end FogOfWar

namespace MenuMiniMap

open FogOfWar FogOfWar.Tile FogOfWar.FogType

/-- The class `Point` of the engine: integer coordinates. -/
structure Point where
  x : Int
  y : Int
  deriving DecidableEq, Repr

/-- The conversion `static_cast<int>(f)`: truncation toward zero. A value outside the
range of `int` is undefined behaviour in C++; the model wraps it to 32 bits (and takes 0
for the infinities and not-a-number). -/
def toInt (f : F32) : Int := (f.trunc + 2147483648) % 4294967296 - 2147483648

/-- The constructor `Point(const FPoint&)` of the engine, declared outside the sources:
each coordinate converted to `int`. -/
def Point.ofFPoint (p : FPoint) : Point := ⟨toInt p.x, toInt p.y⟩

/-- The constructor `FPoint(x, y)` on integer arguments. -/
def FPoint.ofInts (x y : Int) : FPoint := ⟨F32.ofInt x, F32.ofInt y⟩

/-- The colour member of `MenuMiniMap` a marker points to (`&color_hero`, ...). -/
inductive MarkerColor where
  | color_hero
  | color_enemy
  | color_ally
  | color_npc
  | color_teleport
  deriving DecidableEq, Repr

open MarkerColor

/-- The class `PixelEntity`: one marker of the minimap. -/
structure PixelEntity where
  x : Int
  y : Int
  color : MarkerColor
  deriving DecidableEq, Repr

/-- Modelled from the spec: the activation kinds of an event (constants of `Event`,
declared outside the sources); `fillEntities` tells apart on trigger, on interact, and
every other kind. -/
inductive ActivateType where
  | ACTIVATE_ON_TRIGGER
  | ACTIVATE_ON_INTERACT
  | ACTIVATE_OTHER
  deriving DecidableEq, Repr

open ActivateType

/-- What `fillEntities` reads of one element of `mapr->events`. -/
structure Event where
  /-- the value `data[0].Int` of the component `SHOW_ON_MINIMAP`, `none` without one -/
  show_on_minimap : Option Int
  /-- the event has a component `NPC_HOTSPOT` -/
  npc_hotspot : Bool
  /-- the event has a component `INTERMAP` -/
  intermap : Bool
  /-- the answer of `EventManager::isActive` -/
  active : Bool
  activate_type : ActivateType
  location : Rect
  center : FPoint

/-- What `fillEntities` reads of one element of `entitym->entities`. -/
structure Entity where
  /-- the field `stats.hp` -/
  hp : Int
  /-- the field `stats.hero_ally` -/
  hero_ally : Bool
  /-- the field `stats.in_combat` -/
  in_combat : Bool
  /-- the field `stats.pos` -/
  pos : FPoint

/-- Everything the functions of `MenuMiniMap.cpp` modelled here read. -/
structure MiniMap where
  /-- the observer position `pc->stats.pos` -/
  hero_pos : FPoint
  /-- the member `map_size` -/
  map_size : Point
  /-- the list `mapr->events` -/
  events : List Event
  /-- the list `entitym->entities` -/
  entities : List Entity
  /-- the flag `mapr->fogofwar`, true when non-zero -/
  map_fogofwar : Bool
  /-- the setting `eset->misc.fogofwar` -/
  fogofwar : FogType
  /-- the member `fow->mask_radius` -/
  mask_radius : Int
  /-- the member `visible_radius`, a `float` -/
  visible_radius : F32
  /-- the array `mapr->layers[fow->dark_layer_id]` -/
  dark : Layer
  /-- the number stored in the layer for each tile state: the values of the `TILE_*`
  constants of `FogOfWar.h`, which is not among the sources -/
  tile_value : Tile → Nat
  /-- the array `collider->colmap` -/
  colmap : List (List Int)
  /-- the member `color_wall` -/
  color_wall : Color
  /-- the member `color_obst` -/
  color_obst : Color
  /-- the member `pos`, the rectangle of the minimap in the menu -/
  pos : Rect
  /-- the test `eset->tileset.orientation == TILESET_ISOMETRIC` -/
  isometric : Bool

/-- The test `Utils::calcDist(a, b) <= r` of lines 572, 584, 602 and 607, a comparison
of two `float` values. -/
def calcDistLe (a b : FPoint) (r : F32) : Bool := (Utils.calcDist a b).le r

/-- The test `delta > static_cast<float>(fow->mask_radius)` of lines 568 and 597, where
`delta = Utils::calcDist(a, b)`. -/
def calcDistGt (a b : FPoint) (mask_radius : Int) : Bool :=
  (F32.ofInt mask_radius).lt (Utils.calcDist a b)

/-- The Euclidean distance between `a` and `b`, over the reals, is at most `r` (the
coordinates finite numbers). -/
def DistLe (a b : FPoint) (r : ℚ) : Prop :=
  Real.sqrt (((b.x.toRat : ℝ) - (a.x.toRat : ℝ)) ^ 2 + ((b.y.toRat : ℝ) - (a.y.toRat : ℝ)) ^ 2)
    ≤ (r : ℝ)

/-- The test of `DistLe` on the rationals: over the reals `sqrt d <= r` holds exactly
when `0 <= r` and `d <= r * r`. -/
def distLe (a b : FPoint) (r : ℚ) : Bool :=
  decide (0 ≤ r ∧ (b.x.toRat - a.x.toRat) * (b.x.toRat - a.x.toRat) +
    (b.y.toRat - a.y.toRat) * (b.y.toRat - a.y.toRat) ≤ r * r)

/-- Lines 554 to 558 of `fillEntities`: the marker of the observer. -/
def heroStep (g : MiniMap) (entities : List PixelEntity) : List PixelEntity :=
  let hero := Point.ofFPoint g.hero_pos
  if 0 ≤ hero.x ∧ 0 ≤ hero.y ∧ hero.x < g.map_size.x ∧ hero.y < g.map_size.y then
    entities ++ [⟨hero.x, hero.y, color_hero⟩]
  else entities

/-- The test of lines 581 and 582, for the zone of `ev`: under `mapr->fogofwar`, whether
the tile `[event_pos.x][event_pos.y]` of the layer is `TILE_HIDDEN`; `none` when that
tile is outside the layer. -/
def originHidden (g : MiniMap) (ev : Event) : Option Bool :=
  if g.map_fogofwar then do
    let t ← getTile g.dark ev.location.x ev.location.y
    pure (decide (t = TILE_HIDDEN))
  else pure false

/-- The body of the loops of lines 579 to 588, at the tile `(j, k)` of the zone of `ev`. -/
def teleportTileStep (g : MiniMap) (ev : Event) (j k : Int) (entities : List PixelEntity) :
    Option (List PixelEntity) := do
  let hidden ← originHidden g ev
  if hidden then pure entities
  else if calcDistLe g.hero_pos (FPoint.ofInts j k) g.visible_radius then
    pure (entities ++ [⟨j, k, color_teleport⟩])
  else pure entities

/-- The guard of line 562: the event has a component `SHOW_ON_MINIMAP` whose value is 0. -/
def Event.hiddenFromMinimap (ev : Event) : Bool :=
  match ev.show_on_minimap with
  | some v => decide (v = 0)
  | none => false

/-- The condition of line 576: an active intermap event activated on trigger or on
interact. -/
def Event.isTeleport (ev : Event) : Bool :=
  (ev.activate_type = ACTIVATE_ON_TRIGGER ∨ ev.activate_type = ACTIVATE_ON_INTERACT) ∧
    ev.intermap = true ∧ ev.active = true

/-- The body of the loop over `mapr->events` (lines 560 to 590). -/
def eventStep (g : MiniMap) (entities : List PixelEntity) (ev : Event) :
    Option (List PixelEntity) :=
  if ev.hiddenFromMinimap then pure entities
  else if ev.npc_hotspot ∧ ev.active then
    if g.map_fogofwar ∧ calcDistGt g.hero_pos ev.center g.mask_radius then
      pure entities
    else if calcDistLe g.hero_pos (FPoint.ofInts ev.location.x ev.location.y)
        g.visible_radius then
      pure (entities ++ [⟨ev.location.x, ev.location.y, color_npc⟩])
    else pure entities
  else if ev.isTeleport then
    (loopRange ev.location.x (ev.location.x + ev.location.w)).foldlM
      (fun e1 j => (loopRange ev.location.y (ev.location.y + ev.location.h)).foldlM
        (fun e2 k => teleportTileStep g ev j k e2) e1) entities
  else pure entities

/-- The body of the loop over `entitym->entities` (lines 592 to 612). -/
def entityStep (g : MiniMap) (entities : List PixelEntity) (e : Entity) : List PixelEntity :=
  if e.hp > 0 then
    if g.map_fogofwar ∧ calcDistGt g.hero_pos e.pos g.mask_radius then entities
    else if e.hero_ally then
      if calcDistLe g.hero_pos e.pos g.visible_radius then
        entities ++ [⟨toInt e.pos.x, toInt e.pos.y, color_ally⟩]
      else entities
    else if e.in_combat then
      if calcDistLe g.hero_pos e.pos g.visible_radius then
        entities ++ [⟨toInt e.pos.x, toInt e.pos.y, color_enemy⟩]
      else entities
    else entities
  else entities

/-- The function `MenuMiniMap::fillEntities`, from the vector `entities` it finds. -/
def fillEntities (g : MiniMap) (entities : List PixelEntity) : Option (List PixelEntity) := do
  let e1 := heroStep g entities
  let e2 ← g.events.foldlM (eventStep g) e1
  pure (g.entities.foldl (entityStep g) e2)

/-- The function `MenuMiniMap::clearEntities`. -/
def clearEntities : List PixelEntity := []

/-- The coordinates of the `drawPixel` calls of `updateOrtho` for the tile `(i, j)`
(lines 402 to 406). -/
def orthoTileBlock (zoom i j : Int) : List (Int × Int) :=
  (loopRange 0 zoom).flatMap fun l =>
    (loopRange 0 zoom).map fun k => (zoom * i + k - 1, zoom * j + l - 1)

/-- The coordinates of the `drawPixel` calls of `updateIso` for the tile `(i, j)`
(lines 476 to 484). -/
def isoTileBlock (g : MiniMap) (zoom i j : Int) : List (Int × Int) :=
  let ent_pos_x := zoom * (i - j + max g.map_size.x g.map_size.y)
  let ent_pos_y := zoom * (i + j) - 1
  (loopRange 0 zoom).flatMap fun l =>
    (loopRange 0 zoom).flatMap fun k =>
      [(ent_pos_x + k, ent_pos_y + l), (ent_pos_x + k - zoom, ent_pos_y + l)]

/-- The read `collider->colmap[i][j]`; `none` when the index is outside the array. -/
def getCol (colmap : List (List Int)) (i j : Int) : Option Int :=
  if 0 ≤ i ∧ 0 ≤ j then
    match colmap[i.toNat]? with
    | some col => col[j.toNat]?
    | none => none
  else none

/-- Lines 392 to 394 (and 465 to 467): the draw colour of a collision class, `none` when
`draw_tile` is set to false. -/
def drawColor (g : MiniMap) (tile_type : Int) : Option Color :=
  if tile_type = 1 ∨ tile_type = 5 then some g.color_wall
  else if tile_type = 2 ∨ tile_type = 6 then some g.color_obst
  else none

/-- Lines 396 to 399 (and 470 to 473): false when the fog of war resets `draw_tile`,
that is when `eset->misc.fogofwar > 0` and the value stored for the tile is not 0. -/
def fogAllows (g : MiniMap) (i j : Int) : Option Bool :=
  if g.fogofwar ≠ TYPE_NONE then do
    let t ← getTile g.dark i j
    pure (decide (g.tile_value t = 0))
  else pure true

/-- One pixel written by `drawPixel`: coordinates and colour. -/
abbrev Pixel := (Int × Int) × Color

/-- The body of the loops of `updateOrtho` at the tile `(i, j)` (lines 389 to 407): the
pixels it writes. -/
def orthoCell (g : MiniMap) (zoom i j : Int) : Option (List Pixel) := do
  let tile_type ← getCol g.colmap i j
  let draw := drawColor g tile_type
  let visible ← fogAllows g i j
  match draw with
  | some draw_color =>
    if visible = true ∧ draw_color.a ≠ 0 then
      pure ((orthoTileBlock zoom i j).map fun p => (p, draw_color))
    else pure []
  | none => pure []

/-- The body of the loops of `updateIso` at the tile `(i, j)` (lines 462 to 485): the
pixels it writes. -/
def isoCell (g : MiniMap) (zoom i j : Int) : Option (List Pixel) := do
  let tile_type ← getCol g.colmap i j
  let draw := drawColor g tile_type
  let visible ← fogAllows g i j
  match draw with
  | some draw_color =>
    if visible = true then
      pure ((isoTileBlock g zoom i j).map fun p => (p, draw_color))
    else pure []
  | none => pure []

/-- The loops of `updateOrtho` over the window `bounds` (lines 387 to 409): the pixels
written, in order. -/
def updateOrtho (g : MiniMap) (zoom : Int) (bounds : Rect) : Option (List Pixel) :=
  (loopRange bounds.x bounds.w).foldlM
    (fun acc i => (loopRange bounds.y bounds.h).foldlM
      (fun acc1 j => (orthoCell g zoom i j).map fun ps => acc1 ++ ps) acc) []

/-- The loops of `updateIso` over the window `bounds` (lines 460 to 487): the pixels
written, in order. -/
def updateIso (g : MiniMap) (zoom : Int) (bounds : Rect) : Option (List Pixel) :=
  (loopRange bounds.x bounds.w).foldlM
    (fun acc i => (loopRange bounds.y bounds.h).foldlM
      (fun acc1 j => (isoCell g zoom i j).map fun ps => acc1 ++ ps) acc) []

/-- The side `surface_size` of the surface allocated by `prerenderOrtho` (line 347). -/
def orthoSurfaceSize (g : MiniMap) (zoom : Int) : Int :=
  max (g.map_size.x + zoom) (g.map_size.y + zoom) * zoom

/-- The side `surface_size` of the surface allocated by `prerenderIso` (line 415). -/
def isoSurfaceSize (g : MiniMap) (zoom : Int) : Int :=
  max (g.map_size.x + zoom) (g.map_size.y + zoom) * 2 * zoom

/-- The redraw of the whole map run by `prerenderOrtho` (lines 354 and 355). -/
def prerenderOrtho (g : MiniMap) (zoom : Int) : Option (List Pixel) :=
  updateOrtho g zoom ⟨0, 0, g.map_size.x, g.map_size.y⟩

/-- The redraw of the whole map run by `prerenderIso` (lines 422 and 423). -/
def prerenderIso (g : MiniMap) (zoom : Int) : Option (List Pixel) :=
  updateIso g zoom ⟨0, 0, g.map_size.x, g.map_size.y⟩

/-- The markers pushed by the iteration of the event loop for `ev`: the loop body run
on an empty vector. -/
def eventMarkers (g : MiniMap) (ev : Event) : List PixelEntity :=
  (eventStep g [] ev).getD []

/-- The markers pushed by the iteration of the entity loop for `e`: the loop body run on
an empty vector. -/
def entityMarkers (g : MiniMap) (e : Entity) : List PixelEntity := entityStep g [] e

/-- The markers of the tiles of a teleport zone, `hidden` being the outcome of the fog
test of the zone. -/
def teleportMarkers (g : MiniMap) (ev : Event) (hidden : Bool) : List PixelEntity :=
  (loopCells ev.location.x (ev.location.x + ev.location.w)
      ev.location.y (ev.location.y + ev.location.h)).flatMap fun p =>
    if hidden then []
    else if calcDistLe g.hero_pos (FPoint.ofInts p.1 p.2) g.visible_radius then
      [⟨p.1, p.2, color_teleport⟩]
    else []

/-- Every event of the list that reaches the loops of the teleport zones has its tile
`[event_pos.x][event_pos.y]` inside the layer when the fog of war is on. -/
def EventsReadable (g : MiniMap) : Prop :=
  ∀ ev ∈ g.events, ev.hiddenFromMinimap = false → ¬ (ev.npc_hotspot = true ∧ ev.active = true) →
    ev.isTeleport = true → (originHidden g ev).isSome = true

/-- The tile of the observer, `Point(pc->stats.pos)`, is a tile of the map. -/
def HeroInMap (g : MiniMap) : Prop :=
  0 ≤ (Point.ofFPoint g.hero_pos).x ∧ 0 ≤ (Point.ofFPoint g.hero_pos).y ∧
  (Point.ofFPoint g.hero_pos).x < g.map_size.x ∧ (Point.ofFPoint g.hero_pos).y < g.map_size.y

instance (g : MiniMap) : Decidable (HeroInMap g) := by unfold HeroInMap; infer_instance

/-- A numbering of the tile states for the examples: the enumerators in the order in
which `FogOfWar.cpp` uses them, from 0. -/
def sampleTileValue : Tile → Nat
  | TILE_SIGHT => 0
  | TILE_VISITED => 1
  | TILE_HIDDEN => 2
  | TILE_HIDDEN_BOUNDARY => 3

/-- An example state: a 10 x 10 map of walls, the observer at (5, 5), the fog layer left
by one update with radius 3, mask radius 3, a minimap of 64 x 64 pixels, one ally at
(6, 5) and one enemy in combat at (9, 9), no event. -/
def sampleMiniMap : MiniMap :=
  { hero_pos := ⟨5, 5⟩, map_size := ⟨10, 10⟩, events := [],
    entities := [⟨10, true, false, ⟨6, 5⟩⟩, ⟨10, false, true, ⟨9, 9⟩⟩],
    map_fogofwar := true, fogofwar := TYPE_OVERLAY, mask_radius := 3, visible_radius := 45,
    dark := (afterLogic (freshState 10 10 5 5 3 TYPE_OVERLAY)).layer,
    tile_value := sampleTileValue,
    colmap := List.replicate 10 (List.replicate 10 1),
    color_wall := ⟨128, 128, 128, 255⟩, color_obst := ⟨64, 64, 64, 255⟩,
    pos := ⟨0, 0, 64, 64⟩, isometric := false }

/-- The tile `(j, k)` is covered by the location rectangle of `ev`. -/
def Event.covers (ev : Event) (j k : Int) : Prop :=
  ev.location.x ≤ j ∧ j < ev.location.x + ev.location.w ∧
  ev.location.y ≤ k ∧ k < ev.location.y + ev.location.h

instance (ev : Event) (j k : Int) : Decidable (ev.covers j k) := by
  unfold Event.covers; infer_instance

/-- An example teleport zone: an active intermap event activated on trigger, covering
the tiles `(x, y)` to `(x + w - 1, y + h - 1)`, without a component `SHOW_ON_MINIMAP`. -/
def sampleZone (x y w h : Int) : Event :=
  ⟨none, false, true, true, ACTIVATE_ON_TRIGGER, ⟨x, y, w, h⟩, ⟨F32.ofInt x, F32.ofInt y⟩⟩

/-- An example NPC hotspot: an active event with a component `NPC_HOTSPOT` at `(x, y)`. -/
def sampleNpc (x y : Int) : Event :=
  ⟨none, true, false, true, ACTIVATE_OTHER, ⟨x, y, 1, 1⟩, ⟨F32.ofInt x, F32.ofInt y⟩⟩

-- END DEFS MenuMiniMap
end MenuMiniMap

namespace F32

/-! ## Binary32 arithmetic -/

theorem shr_eq (n k : Nat) : Nat.shiftRight n k = n / 2 ^ k := Nat.shiftRight_eq_div_pow n k

theorem size_div_pow (n k : Nat) : Nat.size (n / 2 ^ k) = Nat.size n - k := by
  apply le_antisymm
  · rw [Nat.size_le, Nat.div_lt_iff_lt_mul (by positivity), ← pow_add]
    calc n < 2 ^ Nat.size n := Nat.lt_size_self n
      _ ≤ 2 ^ (Nat.size n - k + k) := Nat.pow_le_pow_right (by norm_num) (by omega)
  · have h : Nat.size n ≤ Nat.size (n / 2 ^ k) + k := by
      rw [Nat.size_le, pow_add, ← Nat.div_lt_iff_lt_mul (by positivity)]
      exact Nat.lt_size_self _
    omega

theorem bitLengthAux_eq (fuel n : Nat) (h : n ≤ fuel) : bitLengthAux fuel n = Nat.size n := by
  induction fuel generalizing n with
  | zero =>
    have : n = 0 := by omega
    subst this; simp [bitLengthAux]
  | succ f ih =>
    unfold bitLengthAux
    by_cases h0 : n = 0
    · subst h0; simp
    · have hb : Nat.beq n 0 = false := by
        cases hbb : Nat.beq n 0
        · rfl
        · exact absurd (Nat.eq_of_beq_eq_true hbb) h0
      rw [hb, cond_false, shr_eq, ih _ (by
        have : n / 2 ^ 1 < n := Nat.div_lt_self (by omega) (by norm_num)
        omega)]
      have := size_div_pow n 1
      have hp : 0 < Nat.size n := Nat.size_pos.mpr (Nat.pos_of_ne_zero h0)
      omega

theorem bitStep_eq (k n b : Nat) (f : Nat → Nat → Nat)
    (hf : ∀ n b, f n b = b + Nat.size n) : bitStep k n b f = b + Nat.size n := by
  unfold bitStep
  by_cases h : 2 ^ k ≤ n
  · have hb : Nat.ble (Nat.pow 2 k) n = true := Nat.ble_eq_true_of_le h
    rw [hb, cond_true, hf, shr_eq, Nat.add_eq]
    have := size_div_pow n k
    have h1 : k + 1 ≤ Nat.size n := Nat.lt_size.mpr h
    omega
  · have hb : Nat.ble (Nat.pow 2 k) n = false := by
      cases hbb : Nat.ble (Nat.pow 2 k) n
      · rfl
      · exact absurd (Nat.le_of_ble_eq_true hbb) h
    rw [hb, cond_false, hf]

theorem bitLength_eq (n : Nat) : bitLength n = Nat.size n := by
  unfold bitLength
  rw [bitStep_eq]
  · simp
  intro n b
  iterate 9 (rw [bitStep_eq]; intro n b)
  rw [Nat.add_eq, bitLengthAux_eq _ _ le_rfl]

theorem lt_pow_bitLength (n : Nat) : n < 2 ^ bitLength n := by
  rw [bitLength_eq]; exact Nat.lt_size_self n

theorem pow_bitLength_le (n : Nat) (h : n ≠ 0) : 2 ^ (bitLength n - 1) ≤ n := by
  rw [bitLength_eq, ← Nat.lt_size]
  have : 0 < Nat.size n := Nat.size_pos.mpr (Nat.pos_of_ne_zero h)
  omega

theorem bitLength_le_iff (n k : Nat) : bitLength n ≤ k ↔ n < 2 ^ k := by
  rw [bitLength_eq]; exact Nat.size_le

theorem lt_bitLength_iff (n k : Nat) : k < bitLength n ↔ 2 ^ k ≤ n := by
  rw [bitLength_eq]; exact Nat.lt_size

theorem bitLength_mono {a b : Nat} (h : a ≤ b) : bitLength a ≤ bitLength b := by
  rw [bitLength_eq, bitLength_eq]; exact Nat.size_le_size h

theorem bitLength_mul_pow (m k : Nat) (h : m ≠ 0) : bitLength (m * 2 ^ k) = bitLength m + k := by
  apply le_antisymm
  · rw [bitLength_le_iff, pow_add]
    exact Nat.mul_lt_mul_of_pos_right (lt_pow_bitLength m) (by positivity)
  · have h1 : bitLength m - 1 + k < bitLength (m * 2 ^ k) := by
      rw [lt_bitLength_iff, pow_add]
      exact Nat.mul_le_mul_right _ (pow_bitLength_le m h)
    have h2 : 0 < bitLength m := by
      rw [Nat.pos_iff_ne_zero]; intro h0
      have := lt_pow_bitLength m
      rw [h0] at this; omega
    omega

theorem roundUp_eq (q r h : Nat) :
    roundUp q r h = if r < h then q else if h < r then q + 1 else q + q % 2 := by
  unfold roundUp
  by_cases h1 : r < h
  · rw [if_pos h1, (Nat.blt_eq).mpr h1, cond_true]
  · have hb1 : Nat.blt r h = false := by
      cases hb : Nat.blt r h
      · rfl
      · exact absurd ((Nat.blt_eq).mp hb) h1
    rw [if_neg h1, hb1, cond_false]
    by_cases h2 : h < r
    · rw [if_pos h2, (Nat.blt_eq).mpr h2, cond_true]
    · have hb2 : Nat.blt h r = false := by
        cases hb : Nat.blt h r
        · rfl
        · exact absurd ((Nat.blt_eq).mp hb) h2
      rw [if_neg h2, hb2, cond_false]; rfl

theorem roundShift_zero (a : Nat) : roundShift a 0 = a := by
  unfold roundShift; rfl

theorem roundShift_pos (a t : Nat) (ht : 0 < t) :
    roundShift a t = roundUp (a / 2 ^ t) (a % 2 ^ t) (2 ^ (t - 1)) := by
  unfold roundShift
  have hb : Nat.beq t 0 = false := by
    cases hb : Nat.beq t 0
    · rfl
    · have := Nat.eq_of_beq_eq_true hb; omega
  rw [hb, cond_false, shr_eq]; rfl

/-- The facts about quotient and remainder that the rounding lemmas need. -/
theorem divmod_facts (a t : Nat) (ht : 0 < t) :
    2 ^ t = 2 * 2 ^ (t - 1) ∧ a = 2 ^ t * (a / 2 ^ t) + a % 2 ^ t ∧ a % 2 ^ t < 2 ^ t := by
  refine ⟨?_, (Nat.div_add_mod a (2 ^ t)).symm, Nat.mod_lt _ (by positivity)⟩
  rw [← pow_succ']; congr 1; omega

theorem roundShift_lower (a t : Nat) : a / 2 ^ t ≤ roundShift a t := by
  rcases Nat.eq_zero_or_pos t with h | h
  · subst h; simp [roundShift_zero]
  · rw [roundShift_pos a t h, roundUp_eq]
    split_ifs <;> omega

theorem roundShift_upper (a t : Nat) : roundShift a t ≤ a / 2 ^ t + 1 := by
  rcases Nat.eq_zero_or_pos t with h | h
  · subst h; simp [roundShift_zero]
  · rw [roundShift_pos a t h, roundUp_eq]
    split_ifs <;> omega

theorem roundShift_near_lo (a t : Nat) : 2 * a ≤ 2 * (roundShift a t * 2 ^ t) + 2 ^ t := by
  rcases Nat.eq_zero_or_pos t with h | h
  · subst h; simp [roundShift_zero]
  · obtain ⟨h1, h2, h3⟩ := divmod_facts a t h
    rw [roundShift_pos a t h, roundUp_eq]
    generalize 2 ^ t = p at *
    generalize 2 ^ (t - 1) = hh at *
    generalize a / p = q at *
    generalize a % p = r at *
    subst h1
    have he : 0 ≤ q % 2 * hh := Nat.zero_le _
    split_ifs <;> nlinarith

theorem roundShift_near_hi (a t : Nat) : 2 * (roundShift a t * 2 ^ t) ≤ 2 * a + 2 ^ t := by
  rcases Nat.eq_zero_or_pos t with h | h
  · subst h; simp [roundShift_zero]
  · obtain ⟨h1, h2, h3⟩ := divmod_facts a t h
    rw [roundShift_pos a t h, roundUp_eq]
    generalize 2 ^ t = p at *
    generalize 2 ^ (t - 1) = hh at *
    generalize a / p = q at *
    generalize a % p = r at *
    subst h1
    have hq : q % 2 ≤ 1 := by omega
    have he : q % 2 * hh ≤ 1 * hh := Nat.mul_le_mul_right hh hq
    split_ifs <;> nlinarith

theorem roundShift_exact (k t : Nat) : roundShift (k * 2 ^ t) t = k := by
  rcases Nat.eq_zero_or_pos t with h | h
  · subst h; simp [roundShift_zero]
  · rw [roundShift_pos _ t h, roundUp_eq, Nat.mul_div_cancel _ (by positivity),
      Nat.mul_mod_left, if_pos (by positivity)]

theorem roundShift_mono {a b : Nat} (t : Nat) (hab : a ≤ b) :
    roundShift a t ≤ roundShift b t := by
  rcases Nat.eq_zero_or_pos t with h | h
  · subst h; simpa [roundShift_zero] using hab
  · have hq : a / 2 ^ t ≤ b / 2 ^ t := Nat.div_le_div_right hab
    rcases Nat.lt_or_ge (a / 2 ^ t) (b / 2 ^ t) with hlt | hge
    · calc roundShift a t ≤ a / 2 ^ t + 1 := roundShift_upper a t
        _ ≤ b / 2 ^ t := hlt
        _ ≤ roundShift b t := roundShift_lower b t
    · have he : a / 2 ^ t = b / 2 ^ t := le_antisymm hq hge
      obtain ⟨h1, h2, h3⟩ := divmod_facts a t h
      obtain ⟨-, h2b, h3b⟩ := divmod_facts b t h
      rw [roundShift_pos a t h, roundShift_pos b t h, roundUp_eq, roundUp_eq, ← he]
      rw [← he] at h2b
      have hr : a % 2 ^ t ≤ b % 2 ^ t := by
        generalize 2 ^ t * (a / 2 ^ t) = z at *
        omega
      generalize a % 2 ^ t = ra at *
      generalize b % 2 ^ t = rb at *
      generalize 2 ^ (t - 1) = hh at *
      have hq2 : (a / 2 ^ t) % 2 ≤ 1 := by omega
      split_ifs <;> omega

theorem roundShift_le_of_le {a k : Nat} (t : Nat) (h : a ≤ k * 2 ^ t) : roundShift a t ≤ k := by
  have := roundShift_mono t h
  rwa [roundShift_exact] at this

theorem le_roundShift_of_le {a k : Nat} (t : Nat) (h : k * 2 ^ t ≤ a) : k ≤ roundShift a t := by
  have := roundShift_mono t h
  rwa [roundShift_exact] at this

/-- Above the midpoint below `k`, the rounding reaches `k`. -/
theorem le_roundShift_of_lt {a k : Nat} (t : Nat) (h : 2 * (k * 2 ^ t) < 2 * a + 2 ^ t) :
    k ≤ roundShift a t := by
  have h1 := roundShift_near_lo a t
  have hp : 0 < 2 ^ t := by positivity
  by_contra hc
  have h2 : roundShift a t + 1 ≤ k := by omega
  have h3 : (roundShift a t + 1) * 2 ^ t ≤ k * 2 ^ t := Nat.mul_le_mul_right _ h2
  nlinarith

/-- Below the midpoint above `k`, the rounding stays at `k` or below. -/
theorem roundShift_le_of_lt {a k : Nat} (t : Nat) (h : 2 * a < 2 * (k * 2 ^ t) + 2 ^ t) :
    roundShift a t ≤ k := by
  have h1 := roundShift_near_hi a t
  have hp : 0 < 2 ^ t := by positivity
  by_contra hc
  have h2 : k + 1 ≤ roundShift a t := by omega
  have h3 : (k + 1) * 2 ^ t ≤ roundShift a t * 2 ^ t := Nat.mul_le_mul_right _ h2
  nlinarith

theorem dropCount_eq (a s : Nat) : dropCount a s = max (bitLength a - 24) s := by
  unfold dropCount
  by_cases h : bitLength a - 24 ≤ s
  · rw [Nat.sub_eq, (Nat.ble_eq).mpr h, cond_true, max_eq_right h]
  · have hb : Nat.ble (bitLength a - 24) s = false := by
      cases hb : Nat.ble (bitLength a - 24) s
      · rfl
      · exact absurd ((Nat.ble_eq).mp hb) h
    rw [Nat.sub_eq, hb, cond_false, max_eq_left (by omega)]

theorem le_dropCount (a s : Nat) : s ≤ dropCount a s := by
  rw [dropCount_eq]; exact le_max_right _ _

theorem bitLength_le_dropCount (a s : Nat) : bitLength a ≤ dropCount a s + 24 := by
  rw [dropCount_eq]; have := le_max_left (bitLength a - 24) s; omega

theorem dropCount_mono {a b : Nat} (s : Nat) (h : a ≤ b) : dropCount a s ≤ dropCount b s := by
  rw [dropCount_eq, dropCount_eq]
  have := bitLength_mono h
  exact max_le_max (by omega) le_rfl

/-- The rounded significand has at most 24 digits, or is the carry `2 ^ 24`. -/
theorem roundShift_dropCount_le (a s : Nat) : roundShift a (dropCount a s) ≤ 2 ^ 24 := by
  apply roundShift_le_of_le
  rw [← pow_add]
  calc a ≤ 2 ^ bitLength a := (lt_pow_bitLength a).le
    _ ≤ 2 ^ (24 + dropCount a s) :=
      Nat.pow_le_pow_right (by norm_num) (by have := bitLength_le_dropCount a s; omega)

/-- Above the least exponent the rounded significand has its 24 digits. -/
theorem le_roundShift_dropCount (a s : Nat) (h : s < dropCount a s) :
    2 ^ 23 ≤ roundShift a (dropCount a s) := by
  apply le_roundShift_of_le
  rw [dropCount_eq] at h ⊢
  have h1 : max (bitLength a - 24) s = bitLength a - 24 := by
    rcases le_total (bitLength a - 24) s with h2 | h2
    · rw [max_eq_right h2] at h; omega
    · exact max_eq_left h2
  rw [h1] at h ⊢
  have ha : a ≠ 0 := by
    rintro rfl
    have : bitLength 0 = 0 := by rw [bitLength_eq]; exact Nat.size_zero
    omega
  have := pow_bitLength_le a ha
  rw [← pow_add]
  calc 2 ^ (23 + (bitLength a - 24)) = 2 ^ (bitLength a - 1) := by congr 1; omega
    _ ≤ a := this

theorem roundTo_mono {a b : Nat} (s : Nat) (h : a ≤ b) : roundTo a s ≤ roundTo b s := by
  unfold roundTo
  have hd := dropCount_mono s h
  rcases Nat.eq_or_lt_of_le hd with he | hlt
  · rw [he]
    exact Nat.mul_le_mul_right _ (roundShift_mono _ h)
  · have hsa := le_dropCount a s
    have hla := bitLength_le_dropCount a s
    -- the rounding of `a` stays below a power of two
    have h1 : roundShift a (dropCount a s) ≤ 2 ^ (dropCount b s + 23 - dropCount a s) := by
      apply roundShift_le_of_le
      rw [← pow_add]
      calc a ≤ 2 ^ bitLength a := (lt_pow_bitLength a).le
        _ ≤ 2 ^ (dropCount b s + 23 - dropCount a s + dropCount a s) :=
          Nat.pow_le_pow_right (by norm_num) (by omega)
    have h2 := le_roundShift_dropCount b s (by omega)
    calc roundShift a (dropCount a s) * 2 ^ (dropCount a s - s)
        ≤ 2 ^ (dropCount b s + 23 - dropCount a s) * 2 ^ (dropCount a s - s) :=
          Nat.mul_le_mul_right _ h1
      _ = 2 ^ 23 * 2 ^ (dropCount b s - s) := by
          rw [← pow_add, ← pow_add]; congr 1; omega
      _ ≤ roundShift b (dropCount b s) * 2 ^ (dropCount b s - s) := Nat.mul_le_mul_right _ h2

/-- A number of at most 24 digits, times a power of two, is its own rounding. -/
theorem roundTo_fix (m e s : Nat) (hm : m < 2 ^ 24) : roundTo (m * 2 ^ (e + s)) s = m * 2 ^ e := by
  unfold roundTo
  rcases Nat.eq_zero_or_pos m with h0 | hpos
  · subst h0; simp [roundShift_exact 0]
    have := roundShift_exact 0 (dropCount 0 s)
    simpa using this
  · have hs := le_dropCount (m * 2 ^ (e + s)) s
    have hle : dropCount (m * 2 ^ (e + s)) s ≤ e + s := by
      rw [dropCount_eq, bitLength_mul_pow _ _ (by omega)]
      have : bitLength m ≤ 24 := (bitLength_le_iff m 24).mpr hm
      exact max_le (by omega) (by omega)
    generalize dropCount (m * 2 ^ (e + s)) s = t at hs hle
    have hsplit : m * 2 ^ (e + s) = (m * 2 ^ (e + s - t)) * 2 ^ t := by
      rw [mul_assoc, ← pow_add]; congr 2; omega
    rw [hsplit, roundShift_exact, mul_assoc, ← pow_add]
    congr 2; omega

theorem le_roundTo {a m e s : Nat} (hm : m < 2 ^ 24) (h : m * 2 ^ (e + s) ≤ a) :
    m * 2 ^ e ≤ roundTo a s := by
  have := roundTo_mono s h
  rwa [roundTo_fix m e s hm] at this

theorem roundTo_le {a m e s : Nat} (hm : m < 2 ^ 24) (h : a ≤ m * 2 ^ (e + s)) :
    roundTo a s ≤ m * 2 ^ e := by
  have := roundTo_mono s h
  rwa [roundTo_fix m e s hm] at this

theorem mag_eq (m e : Nat) : mag m e = m * 2 ^ e := rfl

theorem valid_iff (m e : Nat) :
    valid m e = true ↔ m < 2 ^ 24 ∧ e ≤ 253 ∧ (e = 0 ∨ 2 ^ 23 ≤ m) := by
  unfold valid
  rw [Bool.and_eq_true, Bool.and_eq_true, Bool.or_eq_true, Nat.blt_eq, Nat.ble_eq, Nat.ble_eq,
    Nat.beq_eq, and_assoc]
  rfl

theorem ord_fin (s : Bool) (m e : Nat) (h : valid m e = true) :
    ord (.fin s m e h) = signed s (m * 2 ^ e) := by
  cases s <;> simp [ord, signed, mag_eq, Int.negOfNat_eq]

theorem ord_inf (b : Bool) : ord (.inf b) = signed b (2 ^ 277) := by
  cases b <;> simp [ord, signed, Int.negOfNat_eq]

theorem signed_neg_iff (s : Bool) (n : Nat) : signed (!s) n = - signed s n := by
  cases s <;> simp [signed]

theorem natAbs_signed (s : Bool) (n : Nat) : (signed s n).natAbs = n := by
  cases s <;> simp [signed]

theorem mag_lt_of_valid {m e : Nat} (h : valid m e = true) : m * 2 ^ e < 2 ^ 277 := by
  obtain ⟨h1, h2, -⟩ := (valid_iff m e).mp h
  calc m * 2 ^ e < 2 ^ 24 * 2 ^ e := Nat.mul_lt_mul_of_pos_right h1 (by positivity)
    _ ≤ 2 ^ 24 * 2 ^ 253 := Nat.mul_le_mul_left _ (Nat.pow_le_pow_right (by norm_num) h2)
    _ = 2 ^ 277 := by rw [← pow_add]

theorem pack_cases (neg : Bool) (m e : Nat) (hm : m ≤ 2 ^ 24) (he : e = 0 ∨ 2 ^ 23 ≤ m) :
    (m * 2 ^ e < 2 ^ 277 ∧ ∃ m1 e1 h, pack neg m e = .fin neg m1 e1 h ∧ m1 * 2 ^ e1 = m * 2 ^ e) ∨
    (2 ^ 277 ≤ m * 2 ^ e ∧ pack neg m e = .inf neg) := by
  unfold pack
  by_cases h : valid m e = true
  · left
    rw [dif_pos h]
    exact ⟨mag_lt_of_valid h, m, e, h, rfl, rfl⟩
  · rw [dif_neg h, shr_eq, pow_one]
    have hv := h
    rw [valid_iff] at hv
    by_cases h1 : valid (m / 2) (Nat.succ e) = true
    · left
      rw [dif_pos h1]
      have h1v := (valid_iff _ _).mp h1
      -- the significand is the carry
      have hm24 : m = 2 ^ 24 := by
        by_contra hne
        exact hv ⟨by omega, by omega, he⟩
      have hval : m / 2 * 2 ^ Nat.succ e = m * 2 ^ e := by
        subst hm24
        rw [Nat.succ_eq_add_one, pow_succ]
        norm_num
        ring
      refine ⟨?_, m / 2, Nat.succ e, h1, rfl, hval⟩
      rw [← hval]; exact mag_lt_of_valid h1
    · right
      rw [dif_neg h1]
      refine ⟨?_, rfl⟩
      rw [valid_iff] at h1
      by_cases h253 : e ≤ 253
      · have hm24 : m = 2 ^ 24 := by
          by_contra hne
          exact hv ⟨by omega, h253, he⟩
        have he253 : e = 253 := by
          by_contra hne
          apply h1
          subst hm24
          exact ⟨by norm_num, by omega, Or.inr (by norm_num)⟩
        subst hm24 he253
        rw [← pow_add]
      · have hm23 : 2 ^ 23 ≤ m := by
          rcases he with he | he
          · omega
          · exact he
        calc 2 ^ 277 = 2 ^ 23 * 2 ^ 254 := by rw [← pow_add]
          _ ≤ m * 2 ^ e := Nat.mul_le_mul hm23 (Nat.pow_le_pow_right (by norm_num) (by omega))

theorem ord_pack (neg : Bool) (m e : Nat) (hm : m ≤ 2 ^ 24) (he : e = 0 ∨ 2 ^ 23 ≤ m) :
    ord (pack neg m e) = signed neg (min (m * 2 ^ e) (2 ^ 277)) := by
  rcases pack_cases neg m e hm he with ⟨hlt, m1, e1, h, hp, hv⟩ | ⟨hge, hp⟩
  · rw [hp, ord_fin, hv, min_eq_left hlt.le]
  · rw [hp, ord_inf, min_eq_right hge]

theorem isNaN_pack (neg : Bool) (m e : Nat) : isNaN (pack neg m e) = false := by
  unfold pack
  split_ifs <;> rfl

theorem isFinite_pack (neg : Bool) (m e : Nat) (hm : m ≤ 2 ^ 24) (he : e = 0 ∨ 2 ^ 23 ≤ m) :
    isFinite (pack neg m e) = true ↔ m * 2 ^ e < 2 ^ 277 := by
  rcases pack_cases neg m e hm he with ⟨hlt, m1, e1, h, hp, hv⟩ | ⟨hge, hp⟩
  · rw [hp]; simp [isFinite, hlt]
  · rw [hp]; simp [isFinite]; omega

theorem round_shape (a s : Nat) :
    roundShift a (dropCount a s) ≤ 2 ^ 24 ∧
    (dropCount a s - s = 0 ∨ 2 ^ 23 ≤ roundShift a (dropCount a s)) := by
  refine ⟨roundShift_dropCount_le a s, ?_⟩
  rcases Nat.eq_zero_or_pos (dropCount a s - s) with h | h
  · exact Or.inl h
  · exact Or.inr (le_roundShift_dropCount a s (by omega))

theorem ord_round (neg : Bool) (a s : Nat) :
    ord (round neg a s) = signed neg (min (roundTo a s) (2 ^ 277)) := by
  unfold round
  rw [Nat.sub_eq, ord_pack _ _ _ (round_shape a s).1 (round_shape a s).2]
  rfl

theorem isNaN_round (neg : Bool) (a s : Nat) : isNaN (round neg a s) = false :=
  isNaN_pack _ _ _

theorem isFinite_round (neg : Bool) (a s : Nat) :
    isFinite (round neg a s) = true ↔ roundTo a s < 2 ^ 277 := by
  unfold round
  rw [Nat.sub_eq, isFinite_pack _ _ _ (round_shape a s).1 (round_shape a s).2]
  rfl

theorem abs_ord_lt (x : F32) (h : x.isFinite = true) : |x.ord| < 2 ^ 277 := by
  cases x with
  | fin s m e hv =>
    rw [ord_fin]
    have := mag_lt_of_valid hv
    cases s <;> simp [signed] <;> exact_mod_cast this
  | inf b => simp [isFinite] at h
  | nan => simp [isFinite] at h

theorem signed_true (n : Nat) : signed true n = -(n : Int) := rfl

theorem signed_false (n : Nat) : signed false n = (n : Int) := rfl

theorem roundTo_zero (s : Nat) : roundTo 0 s = 0 := by
  have := roundTo_fix 0 0 s (by norm_num)
  simpa using this

theorem signed_zero (s : Bool) : signed s 0 = 0 := by cases s <;> simp [signed]

theorem rInt_signed (s : Bool) (n k : Nat) :
    rInt (signed s n) k = signed s (min (roundTo n k) (2 ^ 277)) := by
  unfold rInt
  rw [natAbs_signed]
  rcases Nat.eq_zero_or_pos n with h | h
  · subst h; simp [roundTo_zero, signed_zero]
  · cases s
    · simp [signed]
    · have : (signed true n) < 0 := by simp [signed]; omega
      simp [this]

theorem signed_mono_nat {a b : Nat} (h : a ≤ b) : signed false a ≤ signed false b := by
  simp [signed]; exact_mod_cast h

theorem rInt_mono {z w : Int} (s : Nat) (h : z ≤ w) : rInt z s ≤ rInt w s := by
  have key : ∀ (a b : Nat), a ≤ b →
      ((min (roundTo a s) (2 ^ 277) : Nat) : Int) ≤ ((min (roundTo b s) (2 ^ 277) : Nat) : Int) :=
    fun a b hab => Int.ofNat_le.mpr (min_le_min (roundTo_mono s hab) le_rfl)
  have hnn : ∀ a : Nat, (0 : Int) ≤ ((min (roundTo a s) (2 ^ 277) : Nat) : Int) :=
    fun a => Int.ofNat_nonneg _
  unfold rInt
  by_cases hz : z < 0 <;> by_cases hw : w < 0
  · rw [decide_eq_true hz, decide_eq_true hw, signed_true, signed_true]
    have := key w.natAbs z.natAbs (by omega)
    omega
  · rw [decide_eq_true hz, decide_eq_false hw, signed_true, signed_false]
    have h1 := hnn z.natAbs
    have h2 := hnn w.natAbs
    omega
  · omega
  · rw [decide_eq_false hz, decide_eq_false hw, signed_false, signed_false]
    exact key z.natAbs w.natAbs (by omega)

theorem rInt_neg (z : Int) (s : Nat) : rInt (-z) s = - rInt z s := by
  unfold rInt
  rw [Int.natAbs_neg]
  rcases lt_trichotomy z 0 with h | h | h
  · have h1 : ¬ (-z < 0) := by omega
    rw [decide_eq_true h, decide_eq_false h1, signed_true, signed_false, neg_neg]
  · subst h
    rw [neg_zero, Int.natAbs_zero, roundTo_zero, Nat.zero_min, signed_zero, neg_zero]
  · have h1 : ¬ (z < 0) := by omega
    have h2 : -z < 0 := by omega
    rw [decide_eq_false h1, decide_eq_true h2, signed_true, signed_false]

/-- The integers of at most 24 digits times a power of two are fixed by the rounding. -/
theorem rInt_fix (sg : Bool) (m e s : Nat) (hm : m < 2 ^ 24) (hlt : m * 2 ^ e < 2 ^ 277) :
    rInt (signed sg (m * 2 ^ (e + s))) s = signed sg (m * 2 ^ e) := by
  rw [rInt_signed, roundTo_fix m e s hm, min_eq_left hlt.le]

theorem rInt_ord (x : F32) (h : x.isFinite = true) : rInt x.ord 0 = x.ord := by
  cases x with
  | fin s m e hv =>
    rw [ord_fin]
    have := rInt_fix s m e 0 ((valid_iff m e).mp hv).1 (mag_lt_of_valid hv)
    simpa using this
  | inf b => simp [isFinite] at h
  | nan => simp [isFinite] at h

theorem signed_natAbs_mul (n : Int) (k : Nat) :
    signed (decide (n < 0)) (n.natAbs * k) = n * (k : Int) := by
  by_cases hn : n < 0
  · rw [decide_eq_true hn, signed_true]
    have : (n.natAbs : Int) = -n := by omega
    rw [Nat.cast_mul, this]; ring
  · rw [decide_eq_false hn, signed_false]
    have : (n.natAbs : Int) = n := by omega
    rw [Nat.cast_mul, this]

theorem rInt_ofInt (n : Int) (h : n.natAbs < 2 ^ 24) :
    rInt (n * ((2 ^ 149 : Nat) : Int)) 0 = n * ((2 ^ 149 : Nat) : Int) := by
  have hlt : n.natAbs * 2 ^ 149 < 2 ^ 277 := by
    calc n.natAbs * 2 ^ 149 < 2 ^ 24 * 2 ^ 149 := Nat.mul_lt_mul_of_pos_right h (by positivity)
      _ ≤ 2 ^ 277 := by rw [← pow_add]; exact Nat.pow_le_pow_right (by norm_num) (by norm_num)
  have := rInt_fix (decide (n < 0)) n.natAbs 149 0 h hlt
  rwa [Nat.add_zero, signed_natAbs_mul] at this

theorem ord_neg (x : F32) : (neg x).ord = - x.ord := by
  cases x with
  | fin s m e hv => simp only [neg, ord_fin, signed_neg_iff]
  | inf b => simp only [neg, ord_inf, signed_neg_iff]
  | nan => simp [neg, ord]

theorem isNaN_neg (x : F32) : (neg x).isNaN = x.isNaN := by cases x <;> rfl

theorem isFinite_neg (x : F32) : (neg x).isFinite = x.isFinite := by cases x <;> rfl

theorem addMag_spec (s1 : Bool) (a : Nat) (s2 : Bool) (b : Nat) :
    (addMag s1 a s2 b).ord = rInt (signed s1 a + signed s2 b) 0 ∧
    (addMag s1 a s2 b).isNaN = false := by
  unfold addMag
  by_cases hs : s1 = s2
  · subst hs
    have h1 : signed s1 a + signed s1 b = signed s1 (a + b) := by
      cases s1 <;> simp [signed] <;> ring
    simp only [beq_self_eq_true, cond_true, Nat.add_eq, h1, rInt_signed, ord_round, isNaN_round,
      and_self]
  · have hb : (s1 == s2) = false := by
      cases s1 <;> cases s2 <;> simp at hs ⊢
    rw [hb, cond_false]
    rcases lt_trichotomy a b with h | h | h
    · have hb1 : Nat.blt b a = false := by
        cases hbb : Nat.blt b a
        · rfl
        · have := (Nat.blt_eq).mp hbb; omega
      have h1 : signed s1 a + signed s2 b = signed s2 (b - a) := by
        cases s1 <;> cases s2 <;> simp [signed] at hs ⊢ <;> omega
      rw [hb1, cond_false, (Nat.blt_eq).mpr h, cond_true, Nat.sub_eq, h1, rInt_signed, ord_round,
        isNaN_round]
      exact ⟨rfl, rfl⟩
    · subst h
      have hb1 : Nat.blt a a = false := by
        cases hbb : Nat.blt a a
        · rfl
        · have := (Nat.blt_eq).mp hbb; omega
      have h1 : signed s1 a + signed s2 a = signed false 0 := by
        cases s1 <;> cases s2 <;> simp [signed] at hs ⊢
      rw [hb1, cond_false, cond_false, h1, rInt_signed, roundTo_zero]
      exact ⟨by simp [zero, ord_fin, signed], rfl⟩
    · have h1 : signed s1 a + signed s2 b = signed s1 (a - b) := by
        cases s1 <;> cases s2 <;> simp [signed] at hs ⊢ <;> omega
      rw [(Nat.blt_eq).mpr h, cond_true, Nat.sub_eq, h1, rInt_signed, ord_round, isNaN_round]
      exact ⟨rfl, rfl⟩

theorem add_fin (x y : F32) (hx : x.isFinite = true) (hy : y.isFinite = true) :
    (add x y).ord = rInt (x.ord + y.ord) 0 ∧ (add x y).isNaN = false := by
  cases x with
  | fin s1 m1 e1 h1 =>
    cases y with
    | fin s2 m2 e2 h2 =>
      simp only [add, ord_fin]
      exact addMag_spec s1 (mag m1 e1) s2 (mag m2 e2)
    | inf b => simp [isFinite] at hy
    | nan => simp [isFinite] at hy
  | inf b => simp [isFinite] at hx
  | nan => simp [isFinite] at hx

theorem sub_fin (x y : F32) (hx : x.isFinite = true) (hy : y.isFinite = true) :
    (sub x y).ord = rInt (x.ord - y.ord) 0 ∧ (sub x y).isNaN = false := by
  unfold sub
  have := add_fin x (neg y) hx (by rw [isFinite_neg]; exact hy)
  rw [ord_neg] at this
  rw [sub_eq_add_neg]; exact this

/-- A finite sum has finite terms. -/
theorem isFinite_of_add {x y : F32} (h : (add x y).isFinite = true) :
    x.isFinite = true ∧ y.isFinite = true := by
  cases x <;> cases y <;> simp [add, isFinite] at h ⊢
  split_ifs at h

theorem isFinite_of_sub {x y : F32} (h : (sub x y).isFinite = true) :
    x.isFinite = true ∧ y.isFinite = true := by
  have := isFinite_of_add h
  rw [isFinite_neg] at this
  exact this

theorem ord_ofInt (i : Int) :
    (ofInt i).ord = rInt (i * ((2 ^ 149 : Nat) : Int)) 0 ∧ (ofInt i).isNaN = false := by
  unfold ofInt
  refine ⟨?_, isNaN_round _ _ _⟩
  rw [ord_round, mag_eq, ← signed_natAbs_mul, rInt_signed]

theorem isqrtIter_eq (fuel n g : Nat) (h : g ≤ fuel) : isqrtIter fuel n g = Nat.sqrt.iter n g := by
  induction fuel generalizing g with
  | zero =>
    have hg : g = 0 := by omega
    subst hg
    unfold Nat.sqrt.iter
    simp [isqrtIter]
  | succ f ih =>
    unfold isqrtIter Nat.sqrt.iter
    change (bif Nat.blt ((g + n / g) / 2 ^ 1) g then isqrtIter f n ((g + n / g) / 2 ^ 1) else g) = _
    rw [pow_one]
    by_cases hlt : (g + n / g) / 2 < g
    · rw [(Nat.blt_eq).mpr hlt, cond_true, ih _ (by omega)]
      simp only [hlt, dite_true]
    · have hb : Nat.blt ((g + n / g) / 2) g = false := by
        cases hbb : Nat.blt ((g + n / g) / 2) g
        · rfl
        · exact absurd ((Nat.blt_eq).mp hbb) hlt
      rw [hb, cond_false]
      simp only [hlt, dite_false]

theorem isqrt_spec (n : Nat) : isqrt n * isqrt n ≤ n ∧ n < (isqrt n + 1) * (isqrt n + 1) := by
  unfold isqrt
  rw [isqrtIter_eq _ _ _ le_rfl]
  refine ⟨Nat.sqrt.iter_sq_le _ _, Nat.sqrt.lt_iter_succ_sq _ _ ?_⟩
  rw [shr_eq, pow_one, Nat.pow_eq, Nat.succ_eq_add_one]
  have h1 : n < 2 ^ bitLength n := lt_pow_bitLength n
  have h2 : 2 ^ bitLength n ≤ 2 ^ ((bitLength n + 1) / 2) * 2 ^ ((bitLength n + 1) / 2) := by
    rw [← pow_add]
    exact Nat.pow_le_pow_right (by norm_num) (by omega)
  have h3 := Nat.mul_le_mul (Nat.le_succ (2 ^ ((bitLength n + 1) / 2)))
    (Nat.le_succ (2 ^ ((bitLength n + 1) / 2)))
  exact lt_of_lt_of_le h1 (le_trans h2 h3)

theorem le_isqrt {c n : Nat} (h : c * c ≤ n) : c ≤ isqrt n := by
  by_contra hc
  have h1 : isqrt n + 1 ≤ c := by omega
  have h2 := (isqrt_spec n).2
  have h3 : (isqrt n + 1) * (isqrt n + 1) ≤ c * c := Nat.mul_le_mul h1 h1
  omega

theorem isqrt_lt {c n : Nat} (h : n < c * c) : isqrt n < c := by
  by_contra hc
  have h1 : c ≤ isqrt n := by omega
  have h2 := (isqrt_spec n).1
  have h3 : c * c ≤ isqrt n * isqrt n := Nat.mul_le_mul h1 h1
  omega

theorem sqrtRound_eq (a k mid : Nat) :
    sqrtRound a k mid =
      if a < mid * mid then k else if mid * mid < a then k + 1 else k + k % 2 := by
  unfold sqrtRound
  rw [Nat.mul_eq]
  by_cases h1 : a < mid * mid
  · rw [if_pos h1, (Nat.blt_eq).mpr h1, cond_true]
  · have hb1 : Nat.blt a (mid * mid) = false := by
      cases hb : Nat.blt a (mid * mid)
      · rfl
      · exact absurd ((Nat.blt_eq).mp hb) h1
    rw [if_neg h1, hb1, cond_false]
    by_cases h2 : mid * mid < a
    · rw [if_pos h2, (Nat.blt_eq).mpr h2, cond_true]
    · have hb2 : Nat.blt (mid * mid) a = false := by
        cases hb : Nat.blt (mid * mid) a
        · rfl
        · exact absurd ((Nat.blt_eq).mp hb) h2
      rw [if_neg h2, hb2, cond_false]; rfl

theorem sqrtMant_eq (a t : Nat) :
    sqrtMant a t = sqrtRound a (isqrt (a / 2 ^ (2 * t)))
      ((2 * isqrt (a / 2 ^ (2 * t)) + 1) * 2 ^ (t - 1)) := by
  unfold sqrtMant
  rw [shr_eq]; rfl

theorem isqrt_le_sqrtMant (a t : Nat) : isqrt (a / 2 ^ (2 * t)) ≤ sqrtMant a t := by
  rw [sqrtMant_eq, sqrtRound_eq]
  split_ifs <;> omega

theorem sqrtMant_le (a t : Nat) : sqrtMant a t ≤ isqrt (a / 2 ^ (2 * t)) + 1 := by
  rw [sqrtMant_eq, sqrtRound_eq]
  split_ifs <;> omega

/-- A multiple of `2 ^ t` whose square is at most `a` is at most the rounded root. -/
theorem le_sqrtMant_of_sq_le {a t c : Nat} (h : (c * 2 ^ t) * (c * 2 ^ t) ≤ a) :
    c ≤ sqrtMant a t := by
  refine le_trans (le_isqrt ?_) (isqrt_le_sqrtMant a t)
  rw [Nat.le_div_iff_mul_le (by positivity)]
  calc c * c * 2 ^ (2 * t) = (c * 2 ^ t) * (c * 2 ^ t) := by
        rw [two_mul, pow_add]; ring
    _ ≤ a := h

/-- Above the midpoint below `c * 2 ^ t` the rounded root reaches `c`. -/
theorem le_sqrtMant_of_mid_lt {a t c : Nat} (ht : 0 < t)
    (h : ((2 * c - 1) * 2 ^ t) * ((2 * c - 1) * 2 ^ t) < 4 * a) : c ≤ sqrtMant a t := by
  have hs := isqrt_spec (a / 2 ^ (2 * t))
  set k := isqrt (a / 2 ^ (2 * t)) with hk
  rcases Nat.lt_or_ge k c with hlt | hge
  swap
  · exact le_trans hge (isqrt_le_sqrtMant a t)
  -- `a < ((k + 1) * 2 ^ t) ^ 2`
  have hp : 0 < 2 ^ t := by positivity
  have h4 : 2 ^ (2 * t) = 2 ^ t * 2 ^ t := by rw [two_mul, pow_add]
  have hup : a < ((k + 1) * 2 ^ t) * ((k + 1) * 2 ^ t) := by
    have := hs.2
    rw [Nat.div_lt_iff_lt_mul (by positivity), h4] at this
    calc a < (k + 1) * (k + 1) * (2 ^ t * 2 ^ t) := this
      _ = _ := by ring
  -- hence `c = k + 1`
  have hc : c = k + 1 := by
    by_contra hne
    have h2 : k + 2 ≤ c := by omega
    have h3 : (2 * (k + 1)) * 2 ^ t ≤ (2 * c - 1) * 2 ^ t :=
      Nat.mul_le_mul_right _ (by omega)
    have h5 := Nat.mul_le_mul h3 h3
    nlinarith
  have h2t : 2 ^ t = 2 * 2 ^ (t - 1) := by
    rw [← pow_succ']; congr 1; omega
  rw [sqrtMant_eq, sqrtRound_eq, ← hk]
  have hmid : (2 * k + 1) * 2 ^ (t - 1) * ((2 * k + 1) * 2 ^ (t - 1)) < a := by
    have e1 : 2 * c - 1 = 2 * k + 1 := by omega
    rw [e1, h2t] at h
    nlinarith
  rw [if_neg (by omega), if_pos hmid]
  omega

theorem sqrtDrop_eq (a : Nat) : sqrtDrop a = (bitLength a + 1) / 2 - 24 := by
  unfold sqrtDrop
  rw [shr_eq, pow_one]; rfl

/-- The root keeps 24 digits: bounds of the radicand by the dropped digits. -/
theorem sqrtDrop_bounds (a : Nat) (h : 2 ^ 47 ≤ a) :
    2 ^ (2 * sqrtDrop a + 46) ≤ a ∧ a < 2 ^ (2 * sqrtDrop a + 48) := by
  have hL : 47 < bitLength a := (lt_bitLength_iff a 47).mpr h
  have ha : a ≠ 0 := by
    intro h0; rw [h0] at h; norm_num at h
  rw [sqrtDrop_eq]
  constructor
  · calc 2 ^ (2 * ((bitLength a + 1) / 2 - 24) + 46) ≤ 2 ^ (bitLength a - 1) :=
        Nat.pow_le_pow_right (by norm_num) (by omega)
      _ ≤ a := pow_bitLength_le a ha
  · calc a < 2 ^ bitLength a := lt_pow_bitLength a
      _ ≤ 2 ^ (2 * ((bitLength a + 1) / 2 - 24) + 48) :=
        Nat.pow_le_pow_right (by norm_num) (by omega)

theorem sqrtMant_shape (a : Nat) (h : 2 ^ 47 ≤ a) :
    2 ^ 23 ≤ sqrtMant a (sqrtDrop a) ∧ sqrtMant a (sqrtDrop a) ≤ 2 ^ 24 := by
  obtain ⟨h1, h2⟩ := sqrtDrop_bounds a h
  constructor
  · apply le_sqrtMant_of_sq_le
    calc 2 ^ 23 * 2 ^ sqrtDrop a * (2 ^ 23 * 2 ^ sqrtDrop a) = 2 ^ (2 * sqrtDrop a + 46) := by
          rw [← pow_add, ← pow_add]; congr 1; omega
      _ ≤ a := h1
  · have : isqrt (a / 2 ^ (2 * sqrtDrop a)) < 2 ^ 24 := by
      apply isqrt_lt
      rw [Nat.div_lt_iff_lt_mul (by positivity), ← pow_add, ← pow_add]
      calc a < 2 ^ (2 * sqrtDrop a + 48) := h2
        _ = 2 ^ (24 + 24 + 2 * sqrtDrop a) := by congr 1; omega
    have := sqrtMant_le a (sqrtDrop a)
    omega

/-- The square root of a positive finite number, by its position. -/
theorem ord_sqrtMag (n : Nat) (h0 : 0 < n) (hn : n < 2 ^ 277) :
    (sqrtMag n).ord =
      ((sqrtMant (n * 2 ^ 149) (sqrtDrop (n * 2 ^ 149)) * 2 ^ sqrtDrop (n * 2 ^ 149) : Nat) : Int) ∧
    (sqrtMag n).isNaN = false := by
  unfold sqrtMag
  refine ⟨?_, isNaN_pack _ _ _⟩
  rw [mag_eq]
  have h47 : 2 ^ 47 ≤ n * 2 ^ 149 := by
    calc 2 ^ 47 ≤ 1 * 2 ^ 149 := by rw [one_mul]; exact Nat.pow_le_pow_right (by norm_num) (by norm_num)
      _ ≤ n * 2 ^ 149 := Nat.mul_le_mul_right _ h0
  obtain ⟨s1, s2⟩ := sqrtMant_shape _ h47
  rw [ord_pack _ _ _ s2 (Or.inr s1), signed_false, min_eq_left]
  -- no overflow
  have hb := (sqrtDrop_bounds _ h47).1
  have hlt : n * 2 ^ 149 < 2 ^ 426 := by
    calc n * 2 ^ 149 < 2 ^ 277 * 2 ^ 149 := Nat.mul_lt_mul_of_pos_right hn (by positivity)
      _ = 2 ^ 426 := by rw [← pow_add]
  have ht : sqrtDrop (n * 2 ^ 149) ≤ 189 := by
    by_contra hc
    have : 2 ^ 426 ≤ 2 ^ (2 * sqrtDrop (n * 2 ^ 149) + 46) :=
      Nat.pow_le_pow_right (by norm_num) (by omega)
    omega
  calc sqrtMant (n * 2 ^ 149) (sqrtDrop (n * 2 ^ 149)) * 2 ^ sqrtDrop (n * 2 ^ 149)
      ≤ 2 ^ 24 * 2 ^ 189 := Nat.mul_le_mul s2 (Nat.pow_le_pow_right (by norm_num) ht)
    _ ≤ 2 ^ 277 := by rw [← pow_add]; exact Nat.pow_le_pow_right (by norm_num) (by norm_num)

/-- The rounded root reaches a number `mg * 2 ^ j` of 24 digits whose square is at most
the radicand. -/
theorem le_sqrt_of_sq_le (a mg j : Nat) (h47 : 2 ^ 47 ≤ a) (_hj : 0 < j) (h1 : 2 ^ 23 ≤ mg)
    (h2 : mg < 2 ^ 24)
    (h : (mg * 2 ^ j) * (mg * 2 ^ j) ≤ a) :
    mg * 2 ^ j ≤ sqrtMant a (sqrtDrop a) * 2 ^ sqrtDrop a := by
  obtain ⟨b1, b2⟩ := sqrtDrop_bounds a h47
  have hjt : j ≤ sqrtDrop a := by
    by_contra hc
    have h3 : 2 ^ (2 * sqrtDrop a + 48) ≤ 2 ^ (46 + 2 * j) :=
      Nat.pow_le_pow_right (by norm_num) (by omega)
    have h4 : 2 ^ (46 + 2 * j) ≤ (mg * 2 ^ j) * (mg * 2 ^ j) := by
      calc 2 ^ (46 + 2 * j) = (2 ^ 23 * 2 ^ j) * (2 ^ 23 * 2 ^ j) := by
            rw [← pow_add, ← pow_add]; congr 1; omega
        _ ≤ _ := Nat.mul_le_mul (Nat.mul_le_mul_right _ h1) (Nat.mul_le_mul_right _ h1)
    omega
  rcases Nat.eq_or_lt_of_le hjt with he | hlt
  · rw [← he]
    exact Nat.mul_le_mul_right _ (le_sqrtMant_of_sq_le (by rw [he] at h ⊢; exact h))
  · have s1 := (sqrtMant_shape a h47).1
    calc mg * 2 ^ j ≤ 2 ^ 24 * 2 ^ j := Nat.mul_le_mul_right _ h2.le
      _ = 2 ^ 23 * 2 ^ (j + 1) := by rw [← pow_add, ← pow_add]; congr 1; omega
      _ ≤ sqrtMant a (sqrtDrop a) * 2 ^ sqrtDrop a :=
        Nat.mul_le_mul s1 (Nat.pow_le_pow_right (by norm_num) hlt)

/-- The rounded root reaches a number `mg * 2 ^ j` of 24 digits when the radicand lies
above the square of the midpoint below it. -/
theorem le_sqrt_of_mid_lt (a mg j : Nat) (h47 : 2 ^ 47 ≤ a) (hj : 0 < j) (h1 : 2 ^ 23 < mg)
    (h2 : mg < 2 ^ 24)
    (h : ((2 * mg - 1) * 2 ^ j) * ((2 * mg - 1) * 2 ^ j) < 4 * a) :
    mg * 2 ^ j ≤ sqrtMant a (sqrtDrop a) * 2 ^ sqrtDrop a := by
  obtain ⟨b1, b2⟩ := sqrtDrop_bounds a h47
  have hjt : j ≤ sqrtDrop a := by
    by_contra hc
    have h3 : 4 * 2 ^ (2 * sqrtDrop a + 48) ≤ 2 ^ (48 + 2 * j) := by
      rw [show (4 : Nat) = 2 ^ 2 by norm_num, ← pow_add]
      exact Nat.pow_le_pow_right (by norm_num) (by omega)
    have h4 : 2 ^ (48 + 2 * j) ≤ ((2 * mg - 1) * 2 ^ j) * ((2 * mg - 1) * 2 ^ j) := by
      calc 2 ^ (48 + 2 * j) = (2 ^ 24 * 2 ^ j) * (2 ^ 24 * 2 ^ j) := by
            rw [← pow_add, ← pow_add]; congr 1; omega
        _ ≤ _ := Nat.mul_le_mul (Nat.mul_le_mul_right _ (by omega)) (Nat.mul_le_mul_right _ (by omega))
    omega
  rcases Nat.eq_or_lt_of_le hjt with he | hlt
  · rw [← he]
    refine Nat.mul_le_mul_right _ (le_sqrtMant_of_mid_lt hj (by rw [he] at h ⊢; exact h))
  · have s1 := (sqrtMant_shape a h47).1
    calc mg * 2 ^ j ≤ 2 ^ 24 * 2 ^ j := Nat.mul_le_mul_right _ h2.le
      _ = 2 ^ 23 * 2 ^ (j + 1) := by rw [← pow_add, ← pow_add]; congr 1; omega
      _ ≤ sqrtMant a (sqrtDrop a) * 2 ^ sqrtDrop a :=
        Nat.mul_le_mul s1 (Nat.pow_le_pow_right (by norm_num) hlt)

/-- The rounded square of a normal number `mg * 2 ^ j` lies above the square of the
midpoint below the number (so that its rounded root is the number again). -/
theorem round_sq_gt_mid (mg j : Nat) (h1 : 2 ^ 23 < mg) (h2 : mg < 2 ^ 24) (hj : 63 ≤ j) :
    ((2 * mg - 1) * 2 ^ j) * ((2 * mg - 1) * 2 ^ j) <
      4 * (roundTo ((mg * 2 ^ j) * (mg * 2 ^ j)) 149 * 2 ^ 149) := by
  unfold roundTo
  set a := (mg * 2 ^ j) * (mg * 2 ^ j) with ha
  have hs := le_dropCount a 149
  have ht : dropCount a 149 ≤ 2 * j + 24 := by
    rw [dropCount_eq]
    refine max_le ?_ (by omega)
    have : bitLength a ≤ 48 + 2 * j := by
      rw [bitLength_le_iff]
      calc a < (2 ^ 24 * 2 ^ j) * (2 ^ 24 * 2 ^ j) :=
            Nat.mul_lt_mul'' (Nat.mul_lt_mul_of_pos_right h2 (by positivity))
              (Nat.mul_lt_mul_of_pos_right h2 (by positivity))
        _ = 2 ^ (48 + 2 * j) := by rw [← pow_add, ← pow_add]; congr 1; omega
    omega
  have hnear := roundShift_near_lo a (dropCount a 149)
  generalize dropCount a 149 = t at hs ht hnear ⊢
  have e1 : roundShift a t * 2 ^ (t - 149) * 2 ^ 149 = roundShift a t * 2 ^ t := by
    rw [mul_assoc, ← pow_add]; congr 2; omega
  rw [e1]
  have hpt : 2 ^ t ≤ 2 ^ 24 * (2 ^ j * 2 ^ j) := by
    rw [← pow_add, ← pow_add]; exact Nat.pow_le_pow_right (by norm_num) (by omega)
  have hP : 0 < 2 ^ j * 2 ^ j := by positivity
  generalize roundShift a t * 2 ^ t = r at hnear ⊢
  generalize 2 ^ t = pt at hnear hpt
  have ha' : a = mg * mg * (2 ^ j * 2 ^ j) := by rw [ha]; ring
  obtain ⟨d, hd⟩ : ∃ d, 2 * mg = d + 1 := ⟨2 * mg - 1, by omega⟩
  have hd' : 2 * mg - 1 = d := by omega
  rw [hd']
  have e2 : (d * 2 ^ j) * (d * 2 ^ j) = d * d * (2 ^ j * 2 ^ j) := by ring
  rw [e2]
  generalize 2 ^ j * 2 ^ j = P at *
  have hY : (2 ^ 23 + 1) * P ≤ mg * P := Nat.mul_le_mul_right _ h1
  have hZ : d * d * P + 4 * (mg * P) = 4 * (mg * mg * P) + P := by
    have : d * d + 4 * mg = 4 * (mg * mg) + 1 := by
      have : (d + 1) * (d + 1) = (2 * mg) * (2 * mg) := by rw [hd]
      nlinarith
    calc d * d * P + 4 * (mg * P) = (d * d + 4 * mg) * P := by ring
      _ = (4 * (mg * mg) + 1) * P := by rw [this]
      _ = _ := by ring
  rw [ha'] at hnear
  generalize mg * mg * P = X at *
  generalize mg * P = Y at *
  generalize d * d * P = Z at *
  omega


theorem natAbs_ord_fin (s : Bool) (m e : Nat) (h : valid m e = true) :
    (ord (.fin s m e h)).natAbs = m * 2 ^ e := by
  rw [ord_fin, natAbs_signed]

theorem natAbs_ord_inf (b : Bool) : (ord (.inf b)).natAbs = 2 ^ 277 := by
  rw [ord_inf, natAbs_signed]

/-- The product of a number with itself: never not-a-number, and its position is the
rounded square. -/
theorem mul_self_spec (x : F32) (hx : x.isNaN = false) :
    (mul x x).isNaN = false ∧
    (mul x x).ord = ((min (roundTo (x.ord.natAbs * x.ord.natAbs) 149) (2 ^ 277) : Nat) : Int) := by
  cases x with
  | fin s m e h =>
    simp only [mul]
    refine ⟨isNaN_round _ _ _, ?_⟩
    have hs : (s != s) = false := by cases s <;> rfl
    rw [ord_round, hs, signed_false, natAbs_ord_fin, mag_eq]
    have : m * m * 2 ^ (e + e) = m * 2 ^ e * (m * 2 ^ e) := by rw [pow_add]; ring
    rw [Nat.mul_eq, Nat.add_eq, this]
  | inf b =>
    simp only [mul]
    refine ⟨rfl, ?_⟩
    have hs : (b != b) = false := by cases b <;> rfl
    rw [hs, natAbs_ord_inf, ord_inf, signed_false]
    have := @le_roundTo (2 ^ 277 * 2 ^ 277) 1 277 149 (by norm_num) (by
      rw [one_mul, ← pow_add]; exact Nat.pow_le_pow_right (by norm_num) (by norm_num))
    rw [one_mul] at this
    rw [min_eq_right this]
  | nan => simp [isNaN] at hx

/-- The sum of two numbers at or above zero: never not-a-number, and at or above each. -/
theorem add_nonneg_spec (x y : F32) (hx : x.isNaN = false) (hy : y.isNaN = false)
    (h0x : 0 ≤ x.ord) (h0y : 0 ≤ y.ord) :
    (add x y).isNaN = false ∧ x.ord ≤ (add x y).ord := by
  have hinf : ∀ b, 0 ≤ ord (.inf b) → b = false := by
    intro b hb
    cases b
    · rfl
    · rw [ord_inf, signed_true] at hb
      have : (0 : Int) < ((2 ^ 277 : Nat) : Int) := by positivity
      omega
  cases x with
  | fin s1 m1 e1 h1 =>
    cases y with
    | fin s2 m2 e2 h2 =>
      obtain ⟨ho, hn⟩ := add_fin (.fin s1 m1 e1 h1) (.fin s2 m2 e2 h2) rfl rfl
      refine ⟨hn, ?_⟩
      rw [ho]
      calc ord (.fin s1 m1 e1 h1) = rInt (ord (.fin s1 m1 e1 h1)) 0 :=
            (rInt_ord (.fin s1 m1 e1 h1) rfl).symm
        _ ≤ _ := rInt_mono 0 (by omega)
    | inf b =>
      have hb := hinf b h0y
      subst hb
      refine ⟨rfl, ?_⟩
      simp only [add]
      have := abs_ord_lt (.fin s1 m1 e1 h1) rfl
      rw [ord_inf, signed_false]
      have h3 := le_abs_self (ord (.fin s1 m1 e1 h1))
      push_cast
      omega
    | nan => simp [isNaN] at hy
  | inf a =>
    have ha := hinf a h0x
    subst ha
    cases y with
    | fin s2 m2 e2 h2 => exact ⟨rfl, le_rfl⟩
    | inf b =>
      have hb := hinf b h0y
      subst hb
      exact ⟨rfl, le_rfl⟩
    | nan => simp [isNaN] at hy
  | nan => simp [isNaN] at hx

theorem add_nonneg_spec_right (x y : F32) (hx : x.isNaN = false) (hy : y.isNaN = false)
    (h0x : 0 ≤ x.ord) (h0y : 0 ≤ y.ord) :
    (add x y).isNaN = false ∧ y.ord ≤ (add x y).ord := by
  have hinf : ∀ b, 0 ≤ ord (.inf b) → b = false := by
    intro b hb
    cases b
    · rfl
    · rw [ord_inf, signed_true] at hb
      have : (0 : Int) < ((2 ^ 277 : Nat) : Int) := by positivity
      omega
  cases y with
  | fin s2 m2 e2 h2 =>
    cases x with
    | fin s1 m1 e1 h1 =>
      obtain ⟨ho, hn⟩ := add_fin (.fin s1 m1 e1 h1) (.fin s2 m2 e2 h2) rfl rfl
      refine ⟨hn, ?_⟩
      rw [ho]
      calc ord (.fin s2 m2 e2 h2) = rInt (ord (.fin s2 m2 e2 h2)) 0 :=
            (rInt_ord (.fin s2 m2 e2 h2) rfl).symm
        _ ≤ _ := rInt_mono 0 (by omega)
    | inf a =>
      have ha := hinf a h0x
      subst ha
      refine ⟨rfl, ?_⟩
      simp only [add]
      have := abs_ord_lt (.fin s2 m2 e2 h2) rfl
      rw [ord_inf, signed_false]
      have h3 := le_abs_self (ord (.fin s2 m2 e2 h2))
      push_cast
      omega
    | nan => simp [isNaN] at hx
  | inf b =>
    have hb := hinf b h0y
    subst hb
    cases x with
    | fin s1 m1 e1 h1 => exact ⟨rfl, le_rfl⟩
    | inf a =>
      have ha := hinf a h0x
      subst ha
      exact ⟨rfl, le_rfl⟩
    | nan => simp [isNaN] at hx
  | nan => simp [isNaN] at hy

theorem mul_self_nonneg (x : F32) (hx : x.isNaN = false) : 0 ≤ (mul x x).ord := by
  rw [(mul_self_spec x hx).2]; exact Int.ofNat_nonneg _

/-- The square root of a number at or above zero reaches every normal number
`mg * 2 ^ j` whose square, or failing that the square of the midpoint below it, is
below the radicand. -/
theorem sqrt_ge (v : F32) (hv : v.isNaN = false) (h0 : 0 ≤ v.ord) (mg j : Nat) (hj : 0 < j)
    (h1 : 2 ^ 23 ≤ mg) (h2 : mg < 2 ^ 24) (hjb : j ≤ 253)
    (h : (mg * 2 ^ j) * (mg * 2 ^ j) ≤ v.ord.natAbs * 2 ^ 149 ∨
      (2 ^ 23 < mg ∧
        ((2 * mg - 1) * 2 ^ j) * ((2 * mg - 1) * 2 ^ j) < 4 * (v.ord.natAbs * 2 ^ 149))) :
    (sqrt v).isNaN = false ∧ ((mg * 2 ^ j : Nat) : Int) ≤ (sqrt v).ord := by
  have hG : mg * 2 ^ j < 2 ^ 277 := by
    calc mg * 2 ^ j < 2 ^ 24 * 2 ^ j := Nat.mul_lt_mul_of_pos_right h2 (by positivity)
      _ ≤ 2 ^ 24 * 2 ^ 253 := Nat.mul_le_mul_left _ (Nat.pow_le_pow_right (by norm_num) hjb)
      _ = 2 ^ 277 := by rw [← pow_add]
  have hGpos : 0 < mg * 2 ^ j := Nat.mul_pos (by omega) (by positivity)
  cases v with
  | fin s m e hval =>
    rw [natAbs_ord_fin] at h
    by_cases hm : m = 0
    · exfalso
      subst hm
      rw [zero_mul, zero_mul] at h
      rcases h with h | ⟨-, h⟩
      · have := Nat.mul_pos hGpos hGpos
        omega
      · omega
    · have hs : s = false := by
        cases s
        · rfl
        · exfalso
          rw [ord_fin, signed_true] at h0
          have : 0 < m * 2 ^ e := Nat.mul_pos (Nat.pos_of_ne_zero hm) (by positivity)
          omega
      subst hs
      simp only [sqrt, hm, if_false, Bool.false_eq_true]
      have hn0 : 0 < m * 2 ^ e := Nat.mul_pos (Nat.pos_of_ne_zero hm) (by positivity)
      obtain ⟨ho, hnan⟩ := ord_sqrtMag (m * 2 ^ e) hn0 (mag_lt_of_valid hval)
      rw [mag_eq]
      refine ⟨hnan, ?_⟩
      rw [ho]
      apply Int.ofNat_le.mpr
      have h47 : 2 ^ 47 ≤ m * 2 ^ e * 2 ^ 149 := by
        calc 2 ^ 47 ≤ 1 * 2 ^ 149 := by
              rw [one_mul]; exact Nat.pow_le_pow_right (by norm_num) (by norm_num)
          _ ≤ m * 2 ^ e * 2 ^ 149 := Nat.mul_le_mul_right _ hn0
      rcases h with h | ⟨h3, h⟩
      · exact le_sqrt_of_sq_le _ mg j h47 hj h1 h2 h
      · exact le_sqrt_of_mid_lt _ mg j h47 hj h3 h2 h
  | inf b =>
    have hb : b = false := by
      cases b
      · rfl
      · rw [ord_inf, signed_true] at h0
        have : (0 : Int) < ((2 ^ 277 : Nat) : Int) := by positivity
        omega
    subst hb
    refine ⟨rfl, ?_⟩
    simp only [sqrt, Bool.false_eq_true, if_false]
    rw [ord_inf, signed_false]
    exact Int.ofNat_le.mpr hG.le
  | nan => simp [isNaN] at hv

/-- The rounded square of a number reaches the rounded square of every normal number
`mg * 2 ^ j >= 2 ^ (-63)` that its magnitude reaches. -/
theorem mul_self_ge (d : F32) (hd : d.isNaN = false) (mg j : Nat) (h2 : mg < 2 ^ 24)
    (hj : 63 ≤ j) (hjb : j ≤ 150) (h : mg * 2 ^ j ≤ d.ord.natAbs) :
    ((roundTo ((mg * 2 ^ j) * (mg * 2 ^ j)) 149 : Nat) : Int) ≤ (mul d d).ord := by
  have hsq : (mg * 2 ^ j) * (mg * 2 ^ j) ≤ d.ord.natAbs * d.ord.natAbs := Nat.mul_le_mul h h
  have hr := roundTo_mono 149 hsq
  have hlt : roundTo ((mg * 2 ^ j) * (mg * 2 ^ j)) 149 ≤ 2 ^ 277 := by
    have := @roundTo_le ((mg * 2 ^ j) * (mg * 2 ^ j)) 1 (48 + 2 * j - 149) 149 (by norm_num) (by
      rw [one_mul]
      calc (mg * 2 ^ j) * (mg * 2 ^ j) ≤ (2 ^ 24 * 2 ^ j) * (2 ^ 24 * 2 ^ j) :=
            Nat.mul_le_mul (Nat.mul_le_mul_right _ h2.le) (Nat.mul_le_mul_right _ h2.le)
        _ = 2 ^ (48 + 2 * j - 149 + 149) := by
            rw [← pow_add, ← pow_add]; congr 1; omega)
    rw [one_mul] at this
    exact le_trans this (Nat.pow_le_pow_right (by norm_num) (by omega))
  rw [(mul_self_spec d hd).2]
  exact Int.ofNat_le.mpr (le_min hr hlt)

/-- The distance computed from the differences `dx` and `dy` reaches every normal number
`mg * 2 ^ j >= 2 ^ (-63)` that the magnitude of `dx` or of `dy` reaches. -/
theorem dist_ge (dx dy : F32) (hx : dx.isNaN = false) (hy : dy.isNaN = false) (mg j : Nat)
    (h1 : 2 ^ 23 ≤ mg) (h2 : mg < 2 ^ 24) (hj : 63 ≤ j) (hjb : j ≤ 150)
    (h : mg * 2 ^ j ≤ dx.ord.natAbs ∨ mg * 2 ^ j ≤ dy.ord.natAbs) :
    (sqrt (add (mul dx dx) (mul dy dy))).isNaN = false ∧
    ((mg * 2 ^ j : Nat) : Int) ≤ (sqrt (add (mul dx dx) (mul dy dy))).ord := by
  obtain ⟨na, -⟩ := mul_self_spec dx hx
  obtain ⟨nb, -⟩ := mul_self_spec dy hy
  have h0a := mul_self_nonneg dx hx
  have h0b := mul_self_nonneg dy hy
  obtain ⟨nv, hva⟩ := add_nonneg_spec _ _ na nb h0a h0b
  obtain ⟨-, hvb⟩ := add_nonneg_spec_right _ _ na nb h0a h0b
  have h0v : 0 ≤ (add (mul dx dx) (mul dy dy)).ord := le_trans h0a hva
  have hlow : roundTo ((mg * 2 ^ j) * (mg * 2 ^ j)) 149 ≤
      (add (mul dx dx) (mul dy dy)).ord.natAbs := by
    rcases h with h | h
    · have h3 := mul_self_ge dx hx mg j h2 hj hjb h
      omega
    · have h3 := mul_self_ge dy hy mg j h2 hj hjb h
      omega
  have hlow' := Nat.mul_le_mul_right (2 ^ 149) hlow
  apply sqrt_ge _ nv h0v mg j (by omega) h1 h2 (by omega)
  rcases Nat.eq_or_lt_of_le h1 with he | hgt
  · left
    have e1 : (mg * 2 ^ j) * (mg * 2 ^ j) = 1 * 2 ^ (46 + 2 * j - 149 + 149) := by
      rw [← he, one_mul, ← pow_add, ← pow_add]; congr 1; omega
    have hfix := roundTo_fix 1 (46 + 2 * j - 149) 149 (by norm_num)
    rw [← e1] at hfix
    rw [hfix, one_mul, ← pow_add] at hlow'
    rw [e1, one_mul]
    exact hlow'
  · right
    refine ⟨hgt, lt_of_lt_of_le (round_sq_gt_mid mg j hgt h2 hj) ?_⟩
    exact Nat.mul_le_mul_left 4 hlow'

theorem cast_pow_two (k : Nat) : ((2 ^ k : Nat) : Int) = 2 ^ k := by push_cast; rfl

/-- A finite number of magnitude at least `2 ^ (-63)` is normal: a significand of 24
digits and an exponent of at least 63 in the unit `2 ^ (-149)`. -/
theorem normal_form (x : F32) (hx : x.isFinite = true) (h : 2 ^ 86 ≤ x.ord.natAbs) :
    ∃ mg j, 2 ^ 23 ≤ mg ∧ mg < 2 ^ 24 ∧ 63 ≤ j ∧ j ≤ 253 ∧ x.ord.natAbs = mg * 2 ^ j := by
  cases x with
  | fin s m e hv =>
    rw [natAbs_ord_fin] at h ⊢
    obtain ⟨h1, h2, h3⟩ := (valid_iff m e).mp hv
    have h23 : 2 ^ 23 ≤ m := by
      rcases h3 with h3 | h3
      · subst h3; rw [pow_zero, mul_one] at h
        have : (2 : Nat) ^ 24 ≤ 2 ^ 86 := Nat.pow_le_pow_right (by norm_num) (by norm_num)
        omega
      · exact h3
    refine ⟨m, e, h23, h1, ?_, h2, rfl⟩
    by_contra hc
    have : m * 2 ^ e < 2 ^ 24 * 2 ^ 62 :=
      Nat.mul_lt_mul_of_lt_of_le h1 (Nat.pow_le_pow_right (by norm_num) (by omega)) (by positivity)
    rw [← pow_add] at this
    omega
  | inf b => simp [isFinite] at hx
  | nan => simp [isFinite] at hx

theorem roundTo_eq_of_near (a c t : Nat) (ht : dropCount a 0 = t) (h1 : 2 * (c * 2 ^ t) < 2 * a + 2 ^ t)
    (h2 : 2 * a < 2 * (c * 2 ^ t) + 2 ^ t) : roundTo a 0 = c * 2 ^ t := by
  unfold roundTo
  rw [ht, Nat.sub_zero]
  congr 1
  exact le_antisymm (roundShift_le_of_lt t h2) (le_roundShift_of_lt t h1)

/-- An integer `k` moved by `2 ^ (-63)` rounds to `k`. -/
theorem roundTo_near_int (k : Nat) (h1 : 1 ≤ k) (h2 : k ≤ 2 ^ 20) :
    roundTo (k * 2 ^ 149 - 2 ^ 86) 0 = k * 2 ^ 149 ∧
    roundTo (k * 2 ^ 149 + 2 ^ 86) 0 = k * 2 ^ 149 := by
  have hk : 2 ^ 149 ≤ k * 2 ^ 149 := Nat.le_mul_of_pos_left _ h1
  have hk2 : k * 2 ^ 149 ≤ 2 ^ 20 * 2 ^ 149 := Nat.mul_le_mul_right _ h2
  have aux : ∀ a : Nat, 2 ^ 148 ≤ a → a < 2 ^ 170 →
      2 * (k * 2 ^ 149) < 2 * a + 2 ^ 124 → 2 * a < 2 * (k * 2 ^ 149) + 2 ^ 124 →
      roundTo a 0 = k * 2 ^ 149 := by
    intro a ha1 ha2 hlo hhi
    have hb1 : 148 < bitLength a := (lt_bitLength_iff a 148).mpr ha1
    have hb2 : bitLength a ≤ 170 := (bitLength_le_iff a 170).mpr ha2
    have ht : dropCount a 0 = bitLength a - 24 := by
      rw [dropCount_eq]; exact max_eq_left (Nat.zero_le _)
    have hsplit : k * 2 ^ 149 = (k * 2 ^ (149 - (bitLength a - 24))) * 2 ^ (bitLength a - 24) := by
      rw [mul_assoc, ← pow_add]; congr 2; omega
    have hp : 2 ^ 124 ≤ 2 ^ (bitLength a - 24) := Nat.pow_le_pow_right (by norm_num) (by omega)
    rw [hsplit]
    apply roundTo_eq_of_near a _ _ ht
    · rw [← hsplit]; omega
    · rw [← hsplit]; omega
  constructor
  · apply aux
    · have : (2 : Nat) ^ 149 = 2 ^ 148 + 2 ^ 148 := by norm_num
      have : (2 : Nat) ^ 86 ≤ 2 ^ 148 := Nat.pow_le_pow_right (by norm_num) (by norm_num)
      omega
    · have : (2 : Nat) ^ 20 * 2 ^ 149 < 2 ^ 170 := by norm_num
      omega
    · have : (2 : Nat) ^ 86 * 2 < 2 ^ 124 := by norm_num
      have : (2 : Nat) ^ 86 ≤ 2 ^ 149 := by norm_num
      omega
    · have : 0 < (2 : Nat) ^ 124 := by positivity
      omega
  · apply aux
    · have : (2 : Nat) ^ 148 ≤ 2 ^ 149 := by norm_num
      omega
    · have : (2 : Nat) ^ 20 * 2 ^ 149 + 2 ^ 86 < 2 ^ 170 := by norm_num
      omega
    · have : 0 < (2 : Nat) ^ 124 := by positivity
      omega
    · have : (2 : Nat) ^ 86 * 2 < 2 ^ 124 := by norm_num
      omega


theorem rInt_near (n : Int) (hn : n ≠ 0) (hb : n.natAbs ≤ 2 ^ 20) :
    rInt (n * 2 ^ 149 - 2 ^ 86) 0 = n * 2 ^ 149 ∧ rInt (n * 2 ^ 149 + 2 ^ 86) 0 = n * 2 ^ 149 := by
  have hk1 : 1 ≤ n.natAbs := Int.natAbs_pos.mpr hn
  obtain ⟨r1, r2⟩ := roundTo_near_int n.natAbs hk1 hb
  have hlt : n.natAbs * 2 ^ 149 ≤ 2 ^ 277 := by
    calc n.natAbs * 2 ^ 149 ≤ 2 ^ 20 * 2 ^ 149 := Nat.mul_le_mul_right _ hb
      _ ≤ 2 ^ 277 := by rw [← pow_add]; exact Nat.pow_le_pow_right (by norm_num) (by norm_num)
  have h86 : 2 ^ 86 ≤ n.natAbs * 2 ^ 149 :=
    le_trans (Nat.pow_le_pow_right (by norm_num) (by norm_num : 86 ≤ 149))
      (Nat.le_mul_of_pos_left _ hk1)
  have c1 : ((n.natAbs * 2 ^ 149 - 2 ^ 86 : Nat) : Int) = (n.natAbs : Int) * 2 ^ 149 - 2 ^ 86 := by
    rw [Nat.cast_sub h86]; push_cast; rfl
  have c2 : ((n.natAbs * 2 ^ 149 + 2 ^ 86 : Nat) : Int) = (n.natAbs : Int) * 2 ^ 149 + 2 ^ 86 := by
    push_cast; rfl
  have c3 : ((n.natAbs * 2 ^ 149 : Nat) : Int) = (n.natAbs : Int) * 2 ^ 149 := by
    push_cast; rfl
  rcases lt_or_gt_of_ne hn with hneg | hpos
  · have hna : (n.natAbs : Int) = -n := by omega
    have e1 : n * 2 ^ 149 - 2 ^ 86 = signed true (n.natAbs * 2 ^ 149 + 2 ^ 86) := by
      rw [signed_true, c2, hna]; ring
    have e2 : n * 2 ^ 149 + 2 ^ 86 = signed true (n.natAbs * 2 ^ 149 - 2 ^ 86) := by
      rw [signed_true, c1, hna]; ring
    have e3 : n * 2 ^ 149 = signed true (n.natAbs * 2 ^ 149) := by
      rw [signed_true, c3, hna]; ring
    constructor
    · rw [e1, rInt_signed, r2, min_eq_left hlt, ← e3]
    · rw [e2, rInt_signed, r1, min_eq_left hlt, ← e3]
  · have hna : (n.natAbs : Int) = n := by omega
    have e1 : n * 2 ^ 149 - 2 ^ 86 = signed false (n.natAbs * 2 ^ 149 - 2 ^ 86) := by
      rw [signed_false, c1, hna]
    have e2 : n * 2 ^ 149 + 2 ^ 86 = signed false (n.natAbs * 2 ^ 149 + 2 ^ 86) := by
      rw [signed_false, c2, hna]
    have e3 : n * 2 ^ 149 = signed false (n.natAbs * 2 ^ 149) := by
      rw [signed_false, c3, hna]
    constructor
    · rw [e1, rInt_signed, r1, min_eq_left hlt, ← e3]
    · rw [e2, rInt_signed, r2, min_eq_left hlt, ← e3]

theorem rInt_int (n : Int) (h : n.natAbs < 2 ^ 24) : rInt (n * 2 ^ 149) 0 = n * 2 ^ 149 := by
  have := rInt_ofInt n h
  rwa [cast_pow_two] at this

theorem rInt_two_sub : rInt (2 * 2 ^ 149 - 2 ^ 86) 0 = 2 * 2 ^ 149 := by decide!

/-- Absorption: a sum that reaches the integer `n` up to `2 ^ (-63)`, rounded, plus 2,
rounded, reaches `n + 2`. -/
theorem absorb_hi (z n : Int) (hn : n.natAbs ≤ 2 ^ 20) (h : n * 2 ^ 149 - 2 ^ 86 ≤ z) :
    (n + 2) * 2 ^ 149 ≤ rInt (rInt z 0 + 2 * 2 ^ 149) 0 := by
  have h1 := rInt_mono 0 h
  by_cases h0 : n = 0
  · subst h0
    have e : rInt (0 * 2 ^ 149 - 2 ^ 86) 0 = -2 ^ 86 := by decide!
    rw [e] at h1
    have h2 := rInt_mono 0 (show (2 * 2 ^ 149 - 2 ^ 86 : Int) ≤ rInt z 0 + 2 * 2 ^ 149 by omega)
    rw [rInt_two_sub] at h2
    omega
  · rw [(rInt_near n h0 hn).1] at h1
    have h2 := rInt_mono 0 (show ((n + 2) * 2 ^ 149 : Int) ≤ rInt z 0 + 2 * 2 ^ 149 by omega)
    rwa [rInt_int (n + 2) (by
      have : (2 : Nat) ^ 20 + 2 < 2 ^ 24 := by norm_num
      omega)] at h2

/-- Absorption, mirrored: a difference that stays below the integer `n` up to
`2 ^ (-63)`, rounded, minus 2, rounded, stays at or below `n - 2`. -/
theorem absorb_lo (z n : Int) (hn : n.natAbs ≤ 2 ^ 20) (h : z ≤ n * 2 ^ 149 + 2 ^ 86) :
    rInt (rInt z 0 - 2 * 2 ^ 149) 0 ≤ (n - 2) * 2 ^ 149 := by
  have := absorb_hi (-z) (-n) (by rw [Int.natAbs_neg]; exact hn) (by omega)
  rw [rInt_neg] at this
  have e : -rInt z 0 + 2 * 2 ^ 149 = -(rInt z 0 - 2 * 2 ^ 149) := by ring
  rw [e, rInt_neg] at this
  omega

theorem trunc_fin (s : Bool) (m e : Nat) (h : valid m e = true) :
    trunc (.fin s m e h) = signed s (m * 2 ^ e / 2 ^ 149) := by
  cases s <;> simp only [trunc, cond_true, cond_false, signed_true, signed_false, mag_eq, shr_eq,
    Int.negOfNat_eq, Int.ofNat_eq_coe]

/-- Truncation toward zero, by the position of the number. -/
theorem trunc_spec (f : F32) (hf : f.isFinite = true) :
    (0 ≤ f.ord → f.trunc * 2 ^ 149 ≤ f.ord ∧ f.ord < (f.trunc + 1) * 2 ^ 149) ∧
    (f.ord ≤ 0 → (f.trunc - 1) * 2 ^ 149 < f.ord ∧ f.ord ≤ f.trunc * 2 ^ 149) := by
  cases f with
  | fin s m e hv =>
    rw [trunc_fin, ord_fin]
    have h1 : m * 2 ^ e / 2 ^ 149 * 2 ^ 149 ≤ m * 2 ^ e := Nat.div_mul_le_self _ _
    have h2 : m * 2 ^ e < (m * 2 ^ e / 2 ^ 149 + 1) * 2 ^ 149 := by
      have := Nat.lt_succ_iff.mpr (le_refl (m * 2 ^ e / 2 ^ 149))
      rw [Nat.div_lt_iff_lt_mul (by positivity)] at this
      exact this
    generalize m * 2 ^ e = a at h1 h2
    generalize a / 2 ^ 149 = q at h1 h2
    have h1' : (q : Int) * 2 ^ 149 ≤ a := by exact_mod_cast h1
    have h2' : (a : Int) < ((q : Int) + 1) * 2 ^ 149 := by exact_mod_cast h2
    cases s
    · simp only [signed_false]
      constructor
      · intro _; exact ⟨h1', h2'⟩
      · intro h0
        have : (a : Int) = 0 := by omega
        have hq : (q : Int) = 0 := by omega
        rw [this, hq]; norm_num
    · simp only [signed_true]
      constructor
      · intro h0
        have : (a : Int) = 0 := by omega
        have hq : (q : Int) = 0 := by omega
        rw [this, hq]; norm_num
      · intro _
        constructor <;> omega
  | inf b => simp [isFinite] at hf
  | nan => simp [isFinite] at hf

theorem isFinite_ofInt (x : Int) (h : x.natAbs < 2 ^ 24) : (ofInt x).isFinite = true := by
  unfold ofInt
  rw [isFinite_round, mag_eq]
  have := roundTo_fix x.natAbs 149 0 h
  rw [Nat.add_zero] at this
  rw [this]
  calc x.natAbs * 2 ^ 149 < 2 ^ 24 * 2 ^ 149 := Nat.mul_lt_mul_of_pos_right h (by positivity)
    _ ≤ 2 ^ 277 := by rw [← pow_add]; exact Nat.pow_le_pow_right (by norm_num) (by norm_num)

theorem ord_ofInt_small (x : Int) (h : x.natAbs < 2 ^ 24) : (ofInt x).ord = x * 2 ^ 149 := by
  rw [(ord_ofInt x).1, cast_pow_two, rInt_int x h]

theorem isNaN_of_isFinite {x : F32} (h : x.isFinite = true) : x.isNaN = false := by
  cases x <;> simp [isFinite, isNaN] at h ⊢

/-- The difference `p - x` of a position and a tile coordinate reaches in magnitude
every binary32 number `G` that the exact difference reaches. -/
theorem sub_ofInt_ge (p : F32) (hp : p.isFinite = true) (hpb : p.ord.natAbs ≤ 2 ^ 17 * 2 ^ 149)
    (x : Int) (G : Nat) (hG : G ≤ 2 ^ 17 * 2 ^ 149) (hfix : rInt (G : Int) 0 = (G : Int))
    (h : (G : Int) ≤ |x * 2 ^ 149 - p.ord|) :
    (sub p (ofInt x)).isNaN = false ∧ G ≤ (sub p (ofInt x)).ord.natAbs := by
  have hfixn : rInt (-(G : Int)) 0 = -(G : Int) := by rw [rInt_neg, hfix]
  have h23 : rInt ((2 ^ 23 : Int) * 2 ^ 149) 0 = 2 ^ 23 * 2 ^ 149 := rInt_int (2 ^ 23) (by norm_num)
  have h23n : rInt (-((2 ^ 23 : Int) * 2 ^ 149)) 0 = -(2 ^ 23 * 2 ^ 149) := by rw [rInt_neg, h23]
  have h24 : rInt ((2 ^ 23 : Int) * 2 ^ 150) 0 = 2 ^ 23 * 2 ^ 150 := by decide!
  have h24n : rInt (-((2 ^ 23 : Int) * 2 ^ 150)) 0 = -(2 ^ 23 * 2 ^ 150) := by rw [rInt_neg, h24]
  have hG' : (G : Int) ≤ 2 ^ 17 * 2 ^ 149 := by exact_mod_cast hG
  have hpb' : |p.ord| ≤ 2 ^ 17 * 2 ^ 149 := by
    have : ((p.ord.natAbs : Nat) : Int) ≤ ((2 ^ 17 * 2 ^ 149 : Nat) : Int) := Int.ofNat_le.mpr hpb
    rw [Int.natCast_natAbs] at this
    exact_mod_cast this
  rw [abs_le] at hpb'
  obtain ⟨hox, hnx⟩ := ord_ofInt x
  rw [cast_pow_two] at hox
  by_cases hfx : (ofInt x).isFinite = true
  · obtain ⟨ho, hn⟩ := sub_fin p (ofInt x) hp hfx
    refine ⟨hn, ?_⟩
    rw [ho]
    by_cases hsmall : x.natAbs < 2 ^ 24
    · rw [ord_ofInt_small x hsmall]
      rcases le_abs'.mp h with h1 | h1
      · have := rInt_mono 0 (show (G : Int) ≤ p.ord - x * 2 ^ 149 by omega)
        rw [hfix] at this
        omega
      · have := rInt_mono 0 (show p.ord - x * 2 ^ 149 ≤ -(G : Int) by omega)
        rw [hfixn] at this
        omega
    · rcases le_or_lt 0 x with hx0 | hx0
      · have hx24 : (2 : Int) ^ 24 ≤ x := by
          have : (2 : Nat) ^ 24 ≤ x.natAbs := by omega
          omega
        have h1 := rInt_mono 0 (show ((2 ^ 23 : Int) * 2 ^ 150) ≤ x * 2 ^ 149 by omega)
        rw [h24, ← hox] at h1
        have h2 := rInt_mono 0
          (show p.ord - (ofInt x).ord ≤ -((2 ^ 23 : Int) * 2 ^ 149) by omega)
        rw [h23n] at h2
        omega
      · have hx24 : x ≤ -(2 : Int) ^ 24 := by
          have : (2 : Nat) ^ 24 ≤ x.natAbs := by omega
          omega
        have h1 := rInt_mono 0 (show x * 2 ^ 149 ≤ -((2 ^ 23 : Int) * 2 ^ 150) by omega)
        rw [h24n, ← hox] at h1
        have h2 := rInt_mono 0
          (show ((2 ^ 23 : Int) * 2 ^ 149) ≤ p.ord - (ofInt x).ord by omega)
        rw [h23] at h2
        omega
  · -- the conversion overflowed: the difference is an infinity
    cases hX : ofInt x with
    | fin s m e hv => rw [hX] at hfx; simp [isFinite] at hfx
    | inf b =>
      have hsub : sub p (.inf b) = .inf (!b) := by
        cases p with
        | fin s m e hv => rfl
        | inf c => simp [isFinite] at hp
        | nan => simp [isFinite] at hp
      rw [hsub]
      refine ⟨rfl, ?_⟩
      rw [natAbs_ord_inf]
      calc G ≤ 2 ^ 17 * 2 ^ 149 := hG
        _ ≤ 2 ^ 277 := by rw [← pow_add]; exact Nat.pow_le_pow_right (by norm_num) (by norm_num)
    | nan => rw [hX] at hnx; simp [isNaN] at hnx

/-! ## The distance test and the window in single precision -/

theorem lt_iff (a b : F32) :
    a.lt b = true ↔ a.isNaN = false ∧ b.isNaN = false ∧ a.ord < b.ord := by
  unfold lt
  rw [Bool.and_eq_true, Bool.and_eq_true, Bool.not_eq_true', Bool.not_eq_true', decide_eq_true_eq,
    and_assoc]

theorem le_iff (a b : F32) :
    a.le b = true ↔ a.isNaN = false ∧ b.isNaN = false ∧ a.ord ≤ b.ord := by
  unfold le
  rw [Bool.and_eq_true, Bool.and_eq_true, Bool.not_eq_true', Bool.not_eq_true', decide_eq_true_eq,
    and_assoc]

/-- A square root that is a number lies at or above zero. -/
theorem sqrt_ord_nonneg (v : F32) (h : (sqrt v).isNaN = false) : 0 ≤ (sqrt v).ord := by
  cases v with
  | fin s m e hv =>
    by_cases hm : m = 0
    · subst hm
      simp only [sqrt, if_true]
      rw [ord_fin, zero_mul, signed_zero]
    · cases s
      · simp only [sqrt, hm, if_false, Bool.false_eq_true]
        rw [(ord_sqrtMag (mag m e) (by
          rw [mag_eq]; exact Nat.mul_pos (Nat.pos_of_ne_zero hm) (Nat.two_pow_pos e))
          (mag_lt_of_valid hv)).1]
        exact Int.ofNat_nonneg _
      · simp [sqrt, hm, isNaN] at h
  | inf b =>
    cases b
    · simp only [sqrt, Bool.false_eq_true, if_false]
      rw [ord_inf, signed_false]; exact Int.ofNat_nonneg _
    · simp [sqrt, isNaN] at h
  | nan => simp [sqrt, isNaN] at h

theorem isNaN_sub_ofInt (p : F32) (hp : p.isFinite = true) (hpb : p.ord.natAbs ≤ 2 ^ 17 * 2 ^ 149)
    (x : Int) : (sub p (ofInt x)).isNaN = false :=
  (sub_ofInt_ge p hp hpb x 0 (Nat.zero_le _) (by decide!) (by simp)).1

/-- The number `max r (2 ^ (-63))` for a finite `r`, as a normal number. -/
theorem bound_normal (r : F32) (hr : r.isFinite = true) (hrb : r.ord ≤ 2 ^ 17 * 2 ^ 149) :
    ∃ mg j, 2 ^ 23 ≤ mg ∧ mg < 2 ^ 24 ∧ 63 ≤ j ∧ j ≤ 150 ∧
      ((mg * 2 ^ j : Nat) : Int) = max r.ord (2 ^ 86) ∧ mg * 2 ^ j ≤ 2 ^ 17 * 2 ^ 149 ∧
      rInt ((mg * 2 ^ j : Nat) : Int) 0 = ((mg * 2 ^ j : Nat) : Int) := by
  by_cases h : (2 : Int) ^ 86 ≤ r.ord
  · have hn : 2 ^ 86 ≤ r.ord.natAbs := by
      have : ((2 ^ 86 : Nat) : Int) ≤ r.ord := by rw [cast_pow_two]; exact h
      omega
    obtain ⟨mg, j, h1, h2, h3, h4, h5⟩ := normal_form r hr hn
    have hc : ((mg * 2 ^ j : Nat) : Int) = r.ord := by
      rw [← h5]
      have : (0 : Int) ≤ r.ord := le_trans (by positivity) h
      omega
    have hle : mg * 2 ^ j ≤ 2 ^ 17 * 2 ^ 149 := by
      have : ((mg * 2 ^ j : Nat) : Int) ≤ ((2 ^ 17 * 2 ^ 149 : Nat) : Int) := by
        rw [hc]; push_cast; exact hrb
      exact Int.ofNat_le.mp this
    refine ⟨mg, j, h1, h2, h3, ?_, ?_, hle, ?_⟩
    · by_contra hc2
      have : 2 ^ 23 * 2 ^ 151 ≤ mg * 2 ^ j :=
        Nat.mul_le_mul h1 (Nat.pow_le_pow_right (by norm_num) (by omega))
      have h17 : (2 : Nat) ^ 17 * 2 ^ 149 < 2 ^ 23 * 2 ^ 151 := by norm_num
      omega
    · rw [hc, max_eq_left h]
    · rw [hc]; exact rInt_ord r hr
  · refine ⟨2 ^ 23, 63, le_rfl, by norm_num, le_rfl, by norm_num, ?_, by norm_num, by decide!⟩
    rw [max_eq_right (by omega)]
    norm_num

/-- The test `calcDist (x, y) (px, py) < r` passes only for a tile whose exact distance
to the position along each axis is below `max r (2 ^ (-63))`. -/
theorem lt_calcDist_imp (px py r : F32) (hpx : px.isFinite = true) (hpy : py.isFinite = true)
    (hr : r.isFinite = true) (bx : px.ord.natAbs ≤ 2 ^ 17 * 2 ^ 149)
    (bY : py.ord.natAbs ≤ 2 ^ 17 * 2 ^ 149) (br : r.ord ≤ 2 ^ 17 * 2 ^ 149) (x y : Int)
    (h : (Utils.calcDist ⟨ofInt x, ofInt y⟩ ⟨px, py⟩).lt r = true) :
    |x * 2 ^ 149 - px.ord| < max r.ord (2 ^ 86) ∧ |y * 2 ^ 149 - py.ord| < max r.ord (2 ^ 86) := by
  obtain ⟨mg, j, h1, h2, h3, h4, h5, h6, h7⟩ := bound_normal r hr br
  rw [lt_iff] at h
  obtain ⟨-, -, hlt⟩ := h
  unfold Utils.calcDist at hlt
  simp only at hlt
  have nx := isNaN_sub_ofInt px hpx bx x
  have ny := isNaN_sub_ofInt py hpy bY y
  by_contra hc
  have hor : mg * 2 ^ j ≤ (sub px (ofInt x)).ord.natAbs ∨
      mg * 2 ^ j ≤ (sub py (ofInt y)).ord.natAbs := by
    by_cases hcx : |x * 2 ^ 149 - px.ord| < max r.ord (2 ^ 86)
    · right
      have hcy : ¬ |y * 2 ^ 149 - py.ord| < max r.ord (2 ^ 86) := fun hcy => hc ⟨hcx, hcy⟩
      exact (sub_ofInt_ge py hpy bY y (mg * 2 ^ j) h6 h7 (by rw [h5]; omega)).2
    · left
      exact (sub_ofInt_ge px hpx bx x (mg * 2 ^ j) h6 h7 (by rw [h5]; omega)).2
  have := (dist_ge _ _ nx ny mg j h1 h2 h3 h4 hor).2
  rw [h5] at this
  have hm := le_max_left r.ord (2 ^ 86)
  omega

theorem ord_two : (ofInt 2).ord = 2 * 2 ^ 149 := ord_ofInt_small 2 (by norm_num)

theorem isFinite_two : (ofInt 2).isFinite = true := isFinite_ofInt 2 (by norm_num)

/-- The upper corner `(p + r) + 2` of the window, by the exact sum `p + r`. -/
theorem window_hi (p r : F32) (hfin : ((p.add r).add (ofInt 2)).isFinite = true) (n : Int)
    (hn : n.natAbs ≤ 2 ^ 20) (h : n * 2 ^ 149 - 2 ^ 86 ≤ p.ord + r.ord) :
    (n + 2) * 2 ^ 149 ≤ ((p.add r).add (ofInt 2)).ord := by
  obtain ⟨h1, -⟩ := isFinite_of_add hfin
  obtain ⟨hp, hr⟩ := isFinite_of_add h1
  rw [(add_fin _ _ h1 isFinite_two).1, (add_fin _ _ hp hr).1, ord_two]
  exact absorb_hi _ n hn h

/-- The lower corner `(p - r) - 2` of the window, by the exact difference `p - r`. -/
theorem window_lo (p r : F32) (hfin : ((p.sub r).sub (ofInt 2)).isFinite = true) (n : Int)
    (hn : n.natAbs ≤ 2 ^ 20) (h : p.ord - r.ord ≤ n * 2 ^ 149 + 2 ^ 86) :
    ((p.sub r).sub (ofInt 2)).ord ≤ (n - 2) * 2 ^ 149 := by
  obtain ⟨h1, -⟩ := isFinite_of_sub hfin
  obtain ⟨hp, hr⟩ := isFinite_of_sub h1
  rw [(sub_fin _ _ h1 isFinite_two).1, (sub_fin _ _ hp hr).1, ord_two]
  exact absorb_lo _ n hn h

/-- What the range of the two conversions of one axis says of position and radius. -/
theorem range_bounds (p r : F32) (hlo : ((p.sub r).sub (ofInt 2)).isFinite = true)
    (hhi : ((p.add r).add (ofInt 2)).isFinite = true)
    (tlo : -32768 ≤ ((p.sub r).sub (ofInt 2)).trunc)
    (thi : ((p.add r).add (ofInt 2)).trunc ≤ 32767) :
    p.isFinite = true ∧ r.isFinite = true ∧
    p.ord + r.ord < 32766 * 2 ^ 149 ∧ -32767 * 2 ^ 149 < p.ord - r.ord := by
  obtain ⟨h1, -⟩ := isFinite_of_add hhi
  obtain ⟨hp, hr⟩ := isFinite_of_add h1
  refine ⟨hp, hr, ?_, ?_⟩
  · by_contra hc
    have := window_hi p r hhi 32766 (by norm_num) (by omega)
    have hs := (trunc_spec _ hhi).1 (by omega)
    omega
  · by_contra hc
    have := window_lo p r hlo (-32767) (by norm_num) (by omega)
    have hs := (trunc_spec _ hlo).2 (by omega)
    omega

/-- One axis of the window: a tile coordinate `x >= 0` within `r + k` of the position,
up to `2 ^ (-63)`, lies `2 - k` inside the window on both sides (`k` is 0 or 1). -/
theorem axis_cover (p r : F32) (hlo : ((p.sub r).sub (ofInt 2)).isFinite = true)
    (hhi : ((p.add r).add (ofInt 2)).isFinite = true)
    (tlo : -32768 ≤ ((p.sub r).sub (ofInt 2)).trunc)
    (thi : ((p.add r).add (ofInt 2)).trunc ≤ 32767)
    (x k : Int) (hx : 0 ≤ x) (hk0 : 0 ≤ k) (hk1 : k ≤ 1)
    (h1 : x * 2 ^ 149 - p.ord < r.ord + 2 ^ 86 + k * 2 ^ 149)
    (h2 : p.ord - x * 2 ^ 149 < r.ord + 2 ^ 86 + k * 2 ^ 149) :
    ((p.sub r).sub (ofInt 2)).trunc ≤ max (x + k - 2) 0 ∧
    x + 2 - k ≤ ((p.add r).add (ofInt 2)).trunc := by
  obtain ⟨hp, hr, b1, b2⟩ := range_bounds p r hlo hhi tlo thi
  have hxb : x ≤ 32768 := by
    by_contra hc
    have : (2 : Int) ^ 86 < 2 ^ 149 := by norm_num
    omega
  constructor
  · have := window_lo p r hlo (x + k) (by
      have : (2 : Nat) ^ 20 = 1048576 := by norm_num
      omega) (by omega)
    rcases le_or_lt 0 ((p.sub r).sub (ofInt 2)).ord with h0 | h0
    · have hs := (trunc_spec _ hlo).1 h0
      have : ((p.sub r).sub (ofInt 2)).trunc ≤ x + k - 2 := by
        by_contra hc
        have h3 : (x + k - 2 + 1) * 2 ^ 149 ≤ ((p.sub r).sub (ofInt 2)).trunc * 2 ^ 149 :=
          Int.mul_le_mul_of_nonneg_right (by omega) (by positivity)
        omega
      exact le_trans this (le_max_left _ _)
    · have hs := (trunc_spec _ hlo).2 h0.le
      have : ((p.sub r).sub (ofInt 2)).trunc ≤ 0 := by
        by_contra hc
        have h3 : (1 : Int) * 2 ^ 149 ≤ (((p.sub r).sub (ofInt 2)).trunc - 1 + 1) * 2 ^ 149 :=
          Int.mul_le_mul_of_nonneg_right (by omega) (by positivity)
        have h4 : (((p.sub r).sub (ofInt 2)).trunc - 1 + 1) * 2 ^ 149 =
            (((p.sub r).sub (ofInt 2)).trunc - 1) * 2 ^ 149 + 2 ^ 149 := by ring
        omega
      exact le_trans this (le_max_right _ _)
  · have := window_hi p r hhi (x - k) (by
      have : (2 : Nat) ^ 20 = 1048576 := by norm_num
      omega) (by omega)
    have h0 : 0 ≤ ((p.add r).add (ofInt 2)).ord := by
      have : (0 : Int) ≤ (x - k + 2) * 2 ^ 149 := mul_nonneg (by omega) (by positivity)
      omega
    have hs := (trunc_spec _ hhi).1 h0
    by_contra hc
    have h3 : (((p.add r).add (ofInt 2)).trunc + 1) * 2 ^ 149 ≤ (x - k + 2) * 2 ^ 149 :=
      Int.mul_le_mul_of_nonneg_right (by omega) (by positivity)
    omega

-- END THMS F32
end F32

namespace FogOfWar

open Tile FogType

/-! ## Lookups and writes -/

theorem getTile_isSome_iff {l : Layer} {w h : Nat} (hd : LayerDims l w h) (x y : Int) :
    (getTile l x y).isSome = true ↔ 0 ≤ x ∧ x < (w : Int) ∧ 0 ≤ y ∧ y < (h : Int) := by
  obtain ⟨hl, hc⟩ := hd
  unfold getTile
  by_cases hxy : 0 ≤ x ∧ 0 ≤ y
  · rw [if_pos hxy]
    by_cases hx : x.toNat < l.length
    · have hcol := hc _ (List.getElem_mem hx)
      rw [List.getElem?_eq_getElem hx]
      simp only []
      by_cases hy : y.toNat < (l[x.toNat]).length
      · rw [List.getElem?_eq_getElem hy]
        simp only [Option.isSome_some, true_iff]
        omega
      · rw [List.getElem?_eq_none (by omega)]
        simp only [Option.isSome_none, Bool.false_eq_true, false_iff]
        omega
    · rw [List.getElem?_eq_none (by omega)]
      simp only [Option.isSome_none, Bool.false_eq_true, false_iff]
      omega
  · rw [if_neg hxy]
    simp only [Option.isSome_none, Bool.false_eq_true, false_iff]
    omega

theorem getTile_exists {l : Layer} {w h : Nat} (hd : LayerDims l w h) {x y : Int}
    (hx0 : 0 ≤ x) (hx : x < (w : Int)) (hy0 : 0 ≤ y) (hy : y < (h : Int)) :
    ∃ t, getTile l x y = some t :=
  Option.isSome_iff_exists.mp ((getTile_isSome_iff hd x y).mpr ⟨hx0, hx, hy0, hy⟩)

theorem getTile_inside {l : Layer} {w h : Nat} (hd : LayerDims l w h) {x y : Int} {t : Tile}
    (hg : getTile l x y = some t) : 0 ≤ x ∧ x < (w : Int) ∧ 0 ≤ y ∧ y < (h : Int) :=
  (getTile_isSome_iff hd x y).mp (by rw [hg]; rfl)

/-- A write at a tile that can be read succeeds, keeps the dimensions, and changes that
tile only. -/
theorem setTile_spec {l : Layer} {w h : Nat} (hd : LayerDims l w h) {x y : Int} {t0 : Tile}
    (hg : getTile l x y = some t0) (t : Tile) :
    ∃ l1, setTile l x y t = some l1 ∧ LayerDims l1 w h ∧
      ∀ a b, getTile l1 a b = if a = x ∧ b = y then some t else getTile l a b := by
  obtain ⟨hx0, hxw, hy0, hyh⟩ := getTile_inside hd hg
  obtain ⟨hl, hc⟩ := hd
  have hx : x.toNat < l.length := by omega
  have hcol := hc _ (List.getElem_mem hx)
  have hy : y.toNat < (l[x.toNat]).length := by omega
  refine ⟨l.set x.toNat ((l[x.toNat]).set y.toNat t), ?_, ⟨?_, ?_⟩, ?_⟩
  · unfold setTile
    rw [if_pos ⟨hx0, hy0⟩, List.getElem?_eq_getElem hx]
    simp only [hy, if_true]
  · simpa using hl
  · intro col hmem
    rcases List.mem_or_eq_of_mem_set hmem with h1 | h1
    · exact hc _ h1
    · rw [h1, List.length_set]; exact hcol
  · intro a b
    unfold getTile
    by_cases hab : 0 ≤ a ∧ 0 ≤ b
    · rw [if_pos hab, if_pos hab]
      by_cases hax : a = x
      · subst hax
        rw [List.getElem?_set, if_pos rfl, if_pos hx, List.getElem?_eq_getElem hx]
        simp only []
        rw [List.getElem?_set]
        by_cases hby : b = y
        · subst hby
          simp [hy]
        · have : ¬ y.toNat = b.toNat := by omega
          simp [hby, this]
      · have : ¬ x.toNat = a.toNat := by omega
        rw [List.getElem?_set, if_neg this]
        simp [hax]
    · rw [if_neg hab, if_neg hab]
      have : ¬ (a = x ∧ b = y) := by
        rintro ⟨rfl, rfl⟩; exact hab ⟨hx0, hy0⟩
      rw [if_neg this]

/-- Two layers of the same dimensions with the same tiles are equal. -/
theorem layer_ext {l1 l2 : Layer} {w h : Nat} (h1 : LayerDims l1 w h) (h2 : LayerDims l2 w h)
    (hg : ∀ x y, getTile l1 x y = getTile l2 x y) : l1 = l2 := by
  apply List.ext_getElem (by rw [h1.1, h2.1])
  intro n hn1 hn2
  have hc1 := h1.2 _ (List.getElem_mem hn1)
  have hc2 := h2.2 _ (List.getElem_mem hn2)
  apply List.ext_getElem (by rw [hc1, hc2])
  intro m hm1 hm2
  have := hg (n : Int) (m : Int)
  unfold getTile at this
  simp only [Int.toNat_ofNat, Int.ofNat_nonneg, and_self, if_true] at this
  rw [List.getElem?_eq_getElem hn1, List.getElem?_eq_getElem hn2] at this
  simp only [] at this
  rw [List.getElem?_eq_getElem hm1, List.getElem?_eq_getElem hm2] at this
  exact Option.some.inj this

/-! ## Loops -/

theorem mem_loopRange (lo hi x : Int) : x ∈ loopRange lo hi ↔ lo ≤ x ∧ x < hi := by
  unfold loopRange
  simp only [List.mem_map, List.mem_range]
  constructor
  · rintro ⟨k, hk, rfl⟩
    omega
  · intro hx
    exact ⟨(x - lo).toNat, by omega, by omega⟩

theorem nodup_loopRange (lo hi : Int) : (loopRange lo hi).Nodup := by
  unfold loopRange
  apply List.Nodup.map _ (List.nodup_range _)
  intro a b hab
  simp only at hab
  omega

theorem mem_loopCells (x0 x1 y0 y1 : Int) (p : Int × Int) :
    p ∈ loopCells x0 x1 y0 y1 ↔ (x0 ≤ p.1 ∧ p.1 < x1) ∧ (y0 ≤ p.2 ∧ p.2 < y1) := by
  unfold loopCells
  obtain ⟨a, b⟩ := p
  rw [List.pair_mem_product, mem_loopRange, mem_loopRange]

theorem nodup_loopCells (x0 x1 y0 y1 : Int) : (loopCells x0 x1 y0 y1).Nodup :=
  List.Nodup.product (nodup_loopRange _ _) (nodup_loopRange _ _)

/-- A pair of nested loops is one loop over the list of its tiles. -/
theorem foldlM_nested {σ : Type} (f : Int → Int → σ → Option σ) (xs ys : List Int) (s : σ) :
    xs.foldlM (fun s1 x => ys.foldlM (fun s2 y => f x y s2) s1) s
      = (List.product xs ys).foldlM (fun s1 p => f p.1 p.2 s1) s := by
  induction xs generalizing s with
  | nil => rfl
  | cons x xs ih =>
    rw [List.foldlM_cons]
    have hp : List.product (x :: xs) ys = ys.map (Prod.mk x) ++ List.product xs ys := by
      simp [List.product]
    rw [hp, List.foldlM_append, List.foldlM_map]
    cases hy : ys.foldlM (fun s2 y => f x y s2) s with
    | none => simp [hy]
    | some s1 => simp [hy, ih]

/-- Loop invariant rule: an invariant of the list of the elements already visited that
every iteration re-establishes holds for the whole list at the end, and the loop does not
fail. -/
theorem foldlM_invariant {σ α : Type} (f : σ → α → Option σ) (Inv : List α → σ → Prop)
    (l : List α)
    (hstep : ∀ done a rest s, l = done ++ a :: rest → Inv done s →
      ∃ s1, f s a = some s1 ∧ Inv (done ++ [a]) s1)
    (s0 : σ) (h0 : Inv [] s0) : ∃ s1, l.foldlM f s0 = some s1 ∧ Inv l s1 := by
  suffices H : ∀ (rest done : List α) (s : σ), l = done ++ rest → Inv done s →
      ∃ s1, rest.foldlM f s = some s1 ∧ Inv l s1 from H l [] s0 rfl h0
  intro rest
  induction rest with
  | nil =>
    intro done s hl hinv
    refine ⟨s, rfl, ?_⟩
    rw [hl, List.append_nil]
    exact hinv
  | cons a rest ih =>
    intro done s hl hinv
    obtain ⟨s1, hs1, hinv1⟩ := hstep done a rest s hl hinv
    obtain ⟨s2, hs2, hinv2⟩ := ih (done ++ [a]) s1 (by rw [hl]; simp) hinv1
    refine ⟨s2, ?_, hinv2⟩
    rw [List.foldlM_cons, hs1]
    exact hs2

/-- In a list without repetition the element under visit is not among those already
visited. -/
theorem not_mem_done {α : Type} {l done rest : List α} {a : α} (hn : l.Nodup)
    (hl : l = done ++ a :: rest) : a ∉ done := by
  rw [hl] at hn
  intro hmem
  have := (List.nodup_append.mp hn).2.2
  exact this hmem (List.mem_cons_self a rest)

/-! ## The distance pass -/

theorem Frame.refl (s : State) : Frame s s := ⟨rfl, rfl, rfl, rfl, rfl, rfl, rfl, rfl⟩

theorem Frame.trans {s s1 s2 : State} (h1 : Frame s s1) (h2 : Frame s1 s2) : Frame s s2 := by
  obtain ⟨a1, a2, a3, a4, a5, a6, a7, a8⟩ := h1
  obtain ⟨b1, b2, b3, b4, b5, b6, b7, b8⟩ := h2
  exact ⟨b1.trans a1, b2.trans a2, b3.trans a3, b4.trans a4, b5.trans a5, b6.trans a6,
    b7.trans a7, b8.trans a8⟩

theorem Frame.deltaLtSight {s s1 : State} (h : Frame s s1) (x y : Int) :
    deltaLtSight s1 x y = deltaLtSight s x y := by
  obtain ⟨-, -, h3, h4, h5, -⟩ := h
  unfold FogOfWar.deltaLtSight FogOfWar.delta
  rw [h3, h4, h5]

theorem Frame.inMap {s s1 : State} (h : Frame s s1) (x y : Int) :
    inMap s1 x y ↔ inMap s x y := by
  unfold FogOfWar.inMap
  rw [h.1, h.2.1]

/-- Two states with the same frame, layer and flag are equal. -/
theorem Frame.eq_of {s s1 : State} (h : Frame s s1) (hl : s1.layer = s.layer)
    (hu : s1.update_minimap = s.update_minimap) : s1 = s := by
  obtain ⟨a1, a2, a3, a4, a5, a6, a7, a8⟩ := h
  cases s; cases s1
  simp only [State.mk.injEq] at *
  exact ⟨hl, a1, a2, a3, a4, a5, a6, a7, hu, a8⟩

theorem distanceWrite_spec {s : State} (hwf : WellFormed s) (st : Tile) {x y : Int} {t : Tile}
    (hg : getTile s.layer x y = some t) :
    ∃ l1, distanceWrite st x y s = some l1 ∧ LayerDims l1 s.w s.h ∧
      ∀ a b, getTile l1 a b =
        if a = x ∧ b = y then some (distanceTile (deltaLtSight s x y) st t)
        else getTile s.layer a b := by
  unfold distanceWrite distanceTile
  cases hd : deltaLtSight s x y with
  | true =>
    simp only [if_true]
    exact setTile_spec hwf hg st
  | false =>
    simp only [Bool.false_eq_true, if_false, hg, Option.bind_eq_bind, Option.some_bind]
    by_cases ht : t = TILE_SIGHT
    · simp only [ht, if_true]
      rw [ht] at hg
      exact setTile_spec hwf hg TILE_VISITED
    · simp only [ht, if_false]
      refine ⟨s.layer, rfl, hwf, ?_⟩
      intro a b
      by_cases hab : a = x ∧ b = y
      · obtain ⟨rfl, rfl⟩ := hab
        simp [hg]
      · simp [hab]

/-- One iteration of the distance pass at a tile that can be read: it succeeds, writes
`distanceTile` there and nowhere else, and raises the flag under `raisesFlag`. -/
theorem distanceStep_spec {s : State} (hwf : WellFormed s) (st : Tile) {x y : Int} {t : Tile}
    (hg : getTile s.layer x y = some t) :
    ∃ s1, distanceStep st x y s = some s1 ∧ Frame s s1 ∧ LayerDims s1.layer s.w s.h ∧
      (∀ a b, getTile s1.layer a b =
        if a = x ∧ b = y then some (distanceTile (deltaLtSight s x y) st t)
        else getTile s.layer a b) ∧
      s1.update_minimap
        = (raisesFlag t (distanceTile (deltaLtSight s x y) st t) || s.update_minimap) := by
  obtain ⟨l1, hl1, hdims, hcell⟩ := distanceWrite_spec hwf st hg
  have hnow : getTile l1 x y = some (distanceTile (deltaLtSight s x y) st t) := by
    rw [hcell]; simp
  generalize distanceTile (deltaLtSight s x y) st t = v at *
  refine ⟨{ s with layer := l1, update_minimap :=
      if (t = TILE_HIDDEN ∨ t = TILE_HIDDEN_BOUNDARY) ∧ t ≠ v then true else s.update_minimap },
    ?_, ⟨rfl, rfl, rfl, rfl, rfl, rfl, rfl, rfl⟩, hdims, hcell, ?_⟩
  · unfold distanceStep
    simp only [hg, hl1, hnow, Option.bind_eq_bind, Option.some_bind, Option.pure_def]
  · simp only [raisesFlag]
    by_cases hc : (t = TILE_HIDDEN ∨ t = TILE_HIDDEN_BOUNDARY) ∧ t ≠ v
    · simp [hc]
    · rw [if_neg hc]
      simp [hc]

/-- The distance pass succeeds on a well-formed state whose window lies in the map; it
rewrites exactly the tiles of the window by `distanceTile`, and raises the flag exactly
when some tile of the window satisfies `raisesFlag`. -/
theorem distancePass_spec {s : State} (hwf : WellFormed s) (hb : BoundsInMap s) (st : Tile) :
    ∃ s1, distancePass st s = some s1 ∧ Frame s s1 ∧ LayerDims s1.layer s.w s.h ∧
      (∀ a b, getTile s1.layer a b = (getTile s.layer a b).map fun t =>
        if inWindow s.bounds a b then distanceTile (deltaLtSight s a b) st t else t) ∧
      (s1.update_minimap = true ↔ s.update_minimap = true ∨
        ∃ a b t, inWindow s.bounds a b ∧ getTile s.layer a b = some t ∧
          raisesFlag t (distanceTile (deltaLtSight s a b) st t) = true) := by
  unfold distancePass
  rw [foldlM_nested (fun x y s2 => distanceStep st x y s2)]
  have hnd := nodup_loopCells s.bounds.x s.bounds.w s.bounds.y s.bounds.h
  have hmem := mem_loopCells s.bounds.x s.bounds.w s.bounds.y s.bounds.h
  unfold loopCells at hnd hmem
  obtain ⟨s1, hs1, hfr, hdims, hcell, hflag⟩ := foldlM_invariant
    (fun s1 (p : Int × Int) => distanceStep st p.1 p.2 s1)
    (fun done s1 => Frame s s1 ∧ LayerDims s1.layer s.w s.h ∧
      (∀ a b, getTile s1.layer a b = (getTile s.layer a b).map fun t =>
        if (a, b) ∈ done then distanceTile (deltaLtSight s a b) st t else t) ∧
      (s1.update_minimap = true ↔ s.update_minimap = true ∨
        ∃ a b t, (a, b) ∈ done ∧ getTile s.layer a b = some t ∧
          raisesFlag t (distanceTile (deltaLtSight s a b) st t) = true))
    (List.product (loopRange s.bounds.x s.bounds.w) (loopRange s.bounds.y s.bounds.h))
    (by
      rintro done ⟨x, y⟩ rest s1 hl ⟨hfr, hdims, hcell, hflag⟩
      have hnot : (x, y) ∉ done := not_mem_done hnd hl
      have hin : (x, y) ∈ List.product (loopRange s.bounds.x s.bounds.w)
          (loopRange s.bounds.y s.bounds.h) := by rw [hl]; simp
      have hwin := (hmem (x, y)).mp hin
      obtain ⟨hb1, hb2, hb3, hb4⟩ := hb
      simp only at hwin
      obtain ⟨t, ht⟩ := getTile_exists hwf (x := x) (y := y) (by omega) (by omega) (by omega)
        (by omega)
      have hwf1 : WellFormed s1 := by
        unfold WellFormed; rw [hfr.1, hfr.2.1]; exact hdims
      have ht1 : getTile s1.layer x y = some t := by
        rw [hcell, ht]; simp [hnot]
      obtain ⟨s2, hs2, hfr2, hdims2, hcell2, hflag2⟩ := distanceStep_spec hwf1 st ht1
      rw [hfr.deltaLtSight] at hcell2 hflag2
      rw [hfr.1, hfr.2.1] at hdims2
      refine ⟨s2, hs2, hfr.trans hfr2, hdims2, ?_, ?_⟩
      · intro a b
        rw [hcell2]
        by_cases hab : a = x ∧ b = y
        · obtain ⟨rfl, rfl⟩ := hab
          simp [ht]
        · have hne : ¬ (a, b) = (x, y) := by
            intro h; exact hab (Prod.mk.inj h)
          rw [if_neg hab, hcell]
          simp [hne]
      · rw [hflag2, Bool.or_eq_true, hflag]
        constructor
        · rintro (h | h | ⟨a, b, t', hm, hg, hr⟩)
          · exact Or.inr ⟨x, y, t, by simp, ht, h⟩
          · exact Or.inl h
          · exact Or.inr ⟨a, b, t', by simp [hm], hg, hr⟩
        · rintro (h | ⟨a, b, t', hm, hg, hr⟩)
          · exact Or.inr (Or.inl h)
          · rw [List.mem_append, List.mem_singleton] at hm
            rcases hm with hm | hm
            · exact Or.inr (Or.inr ⟨a, b, t', hm, hg, hr⟩)
            · obtain ⟨rfl, rfl⟩ := Prod.mk.inj hm
              rw [ht] at hg
              cases hg
              exact Or.inl hr)
    s
    ⟨Frame.refl s, hwf, by intro a b; cases getTile s.layer a b <;> simp, by simp⟩
  refine ⟨s1, hs1, hfr, hdims, ?_, ?_⟩
  · intro a b
    rw [hcell]
    congr 1
    funext t
    have : (a, b) ∈ List.product (loopRange s.bounds.x s.bounds.w)
        (loopRange s.bounds.y s.bounds.h) ↔ inWindow s.bounds a b := by
      rw [hmem]; unfold inWindow; simp only; tauto
    by_cases h : inWindow s.bounds a b
    · rw [if_pos h, if_pos (this.mpr h)]
    · rw [if_neg h, if_neg (fun h' => h (this.mp h'))]
  · rw [hflag]
    have : ∀ a b, (a, b) ∈ List.product (loopRange s.bounds.x s.bounds.w)
        (loopRange s.bounds.y s.bounds.h) ↔ inWindow s.bounds a b := by
      intro a b
      rw [hmem]; unfold inWindow; simp only; tauto
    simp only [this]

/-! ## The boundary pass -/

theorem seenAt_iff (s : State) (l : Layer) (p : Int × Int) :
    seenAt s l p = true ↔ inMap s p.1 p.2 ∧ ∃ t, getTile l p.1 p.2 = some t ∧ t.seen = true := by
  unfold seenAt
  cases getTile l p.1 p.2 <;> simp

theorem hasSeenNeighbour_iff (s : State) (l : Layer) (x y : Int) :
    hasSeenNeighbour s l x y = true ↔ SeenNeighbour s l x y := by
  unfold hasSeenNeighbour SeenNeighbour Adjacent
  simp only [List.any_eq_true, seenAt_iff]
  constructor
  · rintro ⟨⟨i, j⟩, hm, hin, t, ht, hs⟩
    rw [mem_loopCells] at hm
    simp only at hm
    exact ⟨i, j, t, by omega, hin, ht, hs⟩
  · rintro ⟨i, j, t, hadj, hin, ht, hs⟩
    refine ⟨(i, j), ?_, hin, t, ht, hs⟩
    rw [mem_loopCells]
    simp only
    omega

theorem boundaryTile_seen (b : Bool) (t : Tile) : (boundaryTile b t).seen = t.seen := by
  unfold boundaryTile
  split
  · rename_i h; rw [h.1]; rfl
  · rfl

theorem neighbourStep_spec {s0 s : State} {l0 : Layer} {x y : Int} (hfr : Frame s0 s)
    (hdims : LayerDims s.layer s0.w s0.h)
    (hxy : getTile l0 x y = some TILE_HIDDEN) (b : Bool)
    (hcell : ∀ a c, getTile s.layer a c =
      if a = x ∧ c = y then some (boundaryTile b TILE_HIDDEN) else getTile l0 a c)
    (i j : Int) :
    ∃ s1, neighbourStep x y i j s = some s1 ∧ Frame s0 s1 ∧
      s1.update_minimap = s.update_minimap ∧ LayerDims s1.layer s0.w s0.h ∧
      ∀ a c, getTile s1.layer a c =
        if a = x ∧ c = y then some (boundaryTile (b || seenAt s0 l0 (i, j)) TILE_HIDDEN)
        else getTile l0 a c := by
  unfold neighbourStep
  have hw := hfr.1
  have hh := hfr.2.1
  by_cases hin : 0 ≤ i ∧ 0 ≤ j ∧ i < (s.w : Int) ∧ j < (s.h : Int)
  · rw [if_pos hin]
    rw [hw, hh] at hin
    obtain ⟨n, hn⟩ := getTile_exists hdims hin.1 hin.2.2.1 hin.2.1 hin.2.2.2
    have hinm : inMap s0 i j := ⟨hin.1, hin.2.2.1, hin.2.1, hin.2.2.2⟩
    have hseen : seenAt s0 l0 (i, j) = n.seen := by
      unfold seenAt
      simp only [hinm, decide_True, Bool.true_and]
      have := hcell i j
      rw [hn] at this
      by_cases hij : i = x ∧ j = y
      · rw [if_pos hij] at this
        rw [hij.1, hij.2, hxy, Option.some.inj this, boundaryTile_seen]
      · rw [if_neg hij] at this
        rw [← this]
    simp only [hn, Option.bind_eq_bind, Option.some_bind]
    by_cases hs : n = TILE_SIGHT ∨ n = TILE_VISITED
    · have hsb : n.seen = true := by unfold Tile.seen; simpa using hs
      have hcur : getTile s.layer x y = some (boundaryTile b TILE_HIDDEN) := by
        rw [hcell]; simp
      obtain ⟨l1, hl1, hd1, hc1⟩ := setTile_spec hdims hcur TILE_HIDDEN_BOUNDARY
      rw [if_pos hs]
      simp only [hl1, Option.some_bind, Option.pure_def]
      refine ⟨_, rfl, ?_, rfl, hd1, ?_⟩
      · obtain ⟨a1, a2, a3, a4, a5, a6, a7, a8⟩ := hfr
        exact ⟨a1, a2, a3, a4, a5, a6, a7, a8⟩
      · intro a c
        simp only
        rw [hc1, hseen, hsb]
        by_cases hac : a = x ∧ c = y
        · simp [hac, boundaryTile]
        · rw [if_neg hac, if_neg hac, hcell, if_neg hac]
    · have hsb : n.seen = false := by unfold Tile.seen; simpa using hs
      rw [if_neg hs]
      refine ⟨s, rfl, hfr, rfl, hdims, ?_⟩
      rw [hseen, hsb, Bool.or_false]
      exact hcell
  · rw [if_neg hin]
    rw [hw, hh] at hin
    refine ⟨s, rfl, hfr, rfl, hdims, ?_⟩
    have : seenAt s0 l0 (i, j) = false := by
      unfold seenAt inMap
      have : ¬ (0 ≤ i ∧ i < (s0.w : Int) ∧ 0 ≤ j ∧ j < (s0.h : Int)) := by
        intro h; exact hin ⟨h.1, h.2.2.1, h.2.1, h.2.2.2⟩
      simp [this]
    rw [this, Bool.or_false]
    exact hcell

/-- One iteration of the boundary pass at a tile that can be read: it succeeds and
rewrites that tile by `boundaryTile`, and nothing else. -/
theorem boundaryStep_spec {s : State} (hwf : WellFormed s) {x y : Int} {t : Tile}
    (hg : getTile s.layer x y = some t) :
    ∃ s1, boundaryStep x y s = some s1 ∧ Frame s s1 ∧
      s1.update_minimap = s.update_minimap ∧ LayerDims s1.layer s.w s.h ∧
      ∀ a c, getTile s1.layer a c =
        if a = x ∧ c = y then some (boundaryTile (hasSeenNeighbour s s.layer x y) t)
        else getTile s.layer a c := by
  unfold boundaryStep
  simp only [hg, Option.bind_eq_bind, Option.some_bind]
  by_cases ht : t = TILE_HIDDEN
  · rw [if_pos ht, foldlM_nested (fun i j s2 => neighbourStep x y i j s2)]
    rw [ht] at hg
    obtain ⟨s1, hs1, hfr, hum, hdims, hcell⟩ := foldlM_invariant
      (fun s1 (p : Int × Int) => neighbourStep x y p.1 p.2 s1)
      (fun done s1 => Frame s s1 ∧ s1.update_minimap = s.update_minimap ∧
        LayerDims s1.layer s.w s.h ∧
        ∀ a c, getTile s1.layer a c =
          if a = x ∧ c = y then some (boundaryTile (done.any (seenAt s s.layer)) TILE_HIDDEN)
          else getTile s.layer a c)
      (List.product (loopRange (x - 1) (x + 2)) (loopRange (y - 1) (y + 2)))
      (by
        rintro done ⟨i, j⟩ rest s1 - ⟨hfr, hum, hdims, hcell⟩
        obtain ⟨s2, hs2, hfr2, hum2, hdims2, hcell2⟩ :=
          neighbourStep_spec hfr hdims hg _ hcell i j
        refine ⟨s2, hs2, hfr2, hum2.trans hum, hdims2, ?_⟩
        intro a c
        rw [hcell2, List.any_append]
        simp)
      s
      ⟨Frame.refl s, rfl, hwf, by
        intro a c
        by_cases hac : a = x ∧ c = y
        · obtain ⟨rfl, rfl⟩ := hac
          simp [hg, boundaryTile]
        · simp [hac]⟩
    refine ⟨s1, hs1, hfr, hum, hdims, ?_⟩
    rw [ht]
    exact hcell
  · rw [if_neg ht]
    refine ⟨s, rfl, Frame.refl s, rfl, hwf, ?_⟩
    intro a c
    by_cases hac : a = x ∧ c = y
    · obtain ⟨rfl, rfl⟩ := hac
      simp [hg, boundaryTile, ht]
    · simp [hac]

/-- The seen tiles around a tile are the same in two layers whose tiles agree on being
seen. -/
theorem hasSeenNeighbour_congr {s s1 : State} {l l1 : Layer} (hfr : Frame s s1)
    (h : ∀ a b, (getTile l1 a b).map Tile.seen = (getTile l a b).map Tile.seen) (x y : Int) :
    hasSeenNeighbour s1 l1 x y = hasSeenNeighbour s l x y := by
  unfold hasSeenNeighbour
  congr 1
  funext p
  unfold seenAt
  have hm : decide (inMap s1 p.1 p.2) = decide (inMap s p.1 p.2) := by
    simp only [hfr.inMap]
  rw [hm]
  congr 1
  have := h p.1 p.2
  cases h1 : getTile l1 p.1 p.2 <;> cases h2 : getTile l p.1 p.2 <;>
    simp [h1, h2] at this ⊢
  exact this

/-- The boundary pass succeeds on a well-formed state whose window lies in the map. In
overlay mode it rewrites every tile of the window by `boundaryTile`, judged on the layer
at entry; in the other modes it does nothing. It never touches `update_minimap`. -/
theorem boundaryPass_spec {s : State} (hwf : WellFormed s) (hb : BoundsInMap s) :
    ∃ s1, boundaryPass s = some s1 ∧ Frame s s1 ∧ s1.update_minimap = s.update_minimap ∧
      LayerDims s1.layer s.w s.h ∧
      ∀ a b, getTile s1.layer a b = (getTile s.layer a b).map fun t =>
        if s.fogofwar = TYPE_OVERLAY ∧ inWindow s.bounds a b then
          boundaryTile (hasSeenNeighbour s s.layer a b) t
        else t := by
  unfold boundaryPass
  by_cases hov : s.fogofwar = TYPE_OVERLAY
  · rw [if_pos hov, foldlM_nested (fun x y s2 => boundaryStep x y s2)]
    have hnd := nodup_loopCells s.bounds.x s.bounds.w s.bounds.y s.bounds.h
    have hmem := mem_loopCells s.bounds.x s.bounds.w s.bounds.y s.bounds.h
    unfold loopCells at hnd hmem
    obtain ⟨s1, hs1, hfr, hum, hdims, hcell⟩ := foldlM_invariant
      (fun s1 (p : Int × Int) => boundaryStep p.1 p.2 s1)
      (fun done s1 => Frame s s1 ∧ s1.update_minimap = s.update_minimap ∧
        LayerDims s1.layer s.w s.h ∧
        ∀ a b, getTile s1.layer a b = (getTile s.layer a b).map fun t =>
          if (a, b) ∈ done then boundaryTile (hasSeenNeighbour s s.layer a b) t else t)
      (List.product (loopRange s.bounds.x s.bounds.w) (loopRange s.bounds.y s.bounds.h))
      (by
        rintro done ⟨x, y⟩ rest s1 hl ⟨hfr, hum, hdims, hcell⟩
        have hnot : (x, y) ∉ done := not_mem_done hnd hl
        have hin : (x, y) ∈ List.product (loopRange s.bounds.x s.bounds.w)
            (loopRange s.bounds.y s.bounds.h) := by rw [hl]; simp
        have hwin := (hmem (x, y)).mp hin
        obtain ⟨hb1, hb2, hb3, hb4⟩ := hb
        simp only at hwin
        obtain ⟨t, ht⟩ := getTile_exists hwf (x := x) (y := y) (by omega) (by omega)
          (by omega) (by omega)
        have hwf1 : WellFormed s1 := by
          unfold WellFormed; rw [hfr.1, hfr.2.1]; exact hdims
        have ht1 : getTile s1.layer x y = some t := by
          rw [hcell, ht]; simp [hnot]
        obtain ⟨s2, hs2, hfr2, hum2, hdims2, hcell2⟩ := boundaryStep_spec hwf1 ht1
        rw [hfr.1, hfr.2.1] at hdims2
        have hsame : hasSeenNeighbour s1 s1.layer x y = hasSeenNeighbour s s.layer x y := by
          apply hasSeenNeighbour_congr hfr
          intro a b
          rw [hcell]
          cases getTile s.layer a b with
          | none => rfl
          | some v =>
            simp only [Option.map_some']
            split
            · rw [boundaryTile_seen]
            · rfl
        rw [hsame] at hcell2
        refine ⟨s2, hs2, hfr.trans hfr2, hum2.trans hum, hdims2, ?_⟩
        intro a b
        rw [hcell2]
        by_cases hab : a = x ∧ b = y
        · obtain ⟨rfl, rfl⟩ := hab
          simp [ht]
        · have hne : ¬ (a, b) = (x, y) := by
            intro h; exact hab (Prod.mk.inj h)
          rw [if_neg hab, hcell]
          simp [hne])
      s
      ⟨Frame.refl s, rfl, hwf, by intro a b; cases getTile s.layer a b <;> simp⟩
    refine ⟨s1, hs1, hfr, hum, hdims, ?_⟩
    intro a b
    rw [hcell]
    congr 1
    funext t
    have : (a, b) ∈ List.product (loopRange s.bounds.x s.bounds.w)
        (loopRange s.bounds.y s.bounds.h) ↔ inWindow s.bounds a b := by
      rw [hmem]; unfold inWindow; simp only; tauto
    by_cases h : inWindow s.bounds a b
    · rw [if_pos (this.mpr h), if_pos (And.intro hov h)]
    · rw [if_neg (fun h' => h (this.mp h')),
        if_neg (fun (h' : s.fogofwar = TYPE_OVERLAY ∧ inWindow s.bounds a b) => h h'.2)]
  · rw [if_neg hov]
    refine ⟨s, rfl, Frame.refl s, rfl, hwf, ?_⟩
    intro a b
    cases getTile s.layer a b <;> simp [hov]

/-! ## The whole update -/

/-- The function `updateTiles` on a well-formed state whose window lies in the map: both
passes succeed; `s1` is the state after the distance pass and `s2` the state returned. -/
theorem updateTiles_spec {s : State} (hwf : WellFormed s) (hb : BoundsInMap s) (st : Tile) :
    ∃ s1 s2, distancePass st s = some s1 ∧ boundaryPass s1 = some s2 ∧
      updateTiles st s = some s2 ∧ Frame s s1 ∧ Frame s s2 ∧
      LayerDims s1.layer s.w s.h ∧ LayerDims s2.layer s.w s.h ∧
      (∀ a b, getTile s1.layer a b = (getTile s.layer a b).map fun t =>
        if inWindow s.bounds a b then distanceTile (deltaLtSight s a b) st t else t) ∧
      (∀ a b, getTile s2.layer a b = (getTile s1.layer a b).map fun t =>
        if s.fogofwar = TYPE_OVERLAY ∧ inWindow s.bounds a b then
          boundaryTile (hasSeenNeighbour s s1.layer a b) t
        else t) ∧
      (s1.update_minimap = true ↔ s.update_minimap = true ∨
        ∃ a b t, inWindow s.bounds a b ∧ getTile s.layer a b = some t ∧
          raisesFlag t (distanceTile (deltaLtSight s a b) st t) = true) ∧
      s2.update_minimap = s1.update_minimap := by
  obtain ⟨s1, hs1, hfr1, hd1, hc1, hf1⟩ := distancePass_spec hwf hb st
  have hwf1 : WellFormed s1 := by
    unfold WellFormed; rw [hfr1.1, hfr1.2.1]; exact hd1
  have hb1 : BoundsInMap s1 := by
    unfold BoundsInMap; rw [hfr1.1, hfr1.2.1, hfr1.2.2.2.2.2.2.1]; exact hb
  obtain ⟨s2, hs2, hfr2, hum2, hd2, hc2⟩ := boundaryPass_spec hwf1 hb1
  rw [hfr1.1, hfr1.2.1] at hd2
  refine ⟨s1, s2, hs1, hs2, ?_, hfr1, hfr1.trans hfr2, hd1, hd2, hc1, ?_, hf1, hum2⟩
  · unfold updateTiles
    rw [hs1]
    exact hs2
  · intro a b
    rw [hc2, hfr1.2.2.2.2.2.1, hfr1.2.2.2.2.2.2.1,
      hasSeenNeighbour_congr hfr1 (fun _ _ => rfl) a b]

theorem calcBoundaries_frame (s : State) :
    (calcBoundaries s).layer = s.layer ∧ (calcBoundaries s).w = s.w ∧
    (calcBoundaries s).h = s.h ∧ (calcBoundaries s).pos_x = s.pos_x ∧
    (calcBoundaries s).pos_y = s.pos_y ∧ (calcBoundaries s).sight = s.sight ∧
    (calcBoundaries s).fogofwar = s.fogofwar ∧
    (calcBoundaries s).update_minimap = s.update_minimap ∧
    (calcBoundaries s).mini_updates = s.mini_updates :=
  ⟨rfl, rfl, rfl, rfl, rfl, rfl, rfl, rfl, rfl⟩

/-- The clamps of `calcBoundaries` put the window inside the map. -/
theorem calcBoundaries_boundsInMap (s : State) : BoundsInMap (calcBoundaries s) := by
  unfold BoundsInMap calcBoundaries
  simp only
  refine ⟨?_, ?_, ?_, ?_⟩
  · split <;> omega
  · split <;> omega
  · split <;> omega
  · split <;> omega

theorem calcBoundaries_wellFormed {s : State} (hwf : WellFormed s) :
    WellFormed (calcBoundaries s) := hwf

theorem deltaLtSight_calcBoundaries (s : State) (x y : Int) :
    deltaLtSight (calcBoundaries s) x y = deltaLtSight s x y := rfl

theorem hasSeenNeighbour_calcBoundaries (s : State) (l : Layer) (x y : Int) :
    hasSeenNeighbour (calcBoundaries s) l x y = hasSeenNeighbour s l x y := rfl

/-- The window does not depend on the layer, on the flag or on the trace. -/
theorem calcBoundaries_bounds_congr {s s1 : State} (h : Frame s s1) :
    (calcBoundaries s1).bounds = (calcBoundaries s).bounds := by
  obtain ⟨a1, a2, a3, a4, a5, -⟩ := h
  unfold calcBoundaries
  simp only [a1, a2, a3, a4, a5]

/-- The conversion to `short` is the truncation when the conversion is defined. -/
theorem toShort_eq {f : F32} (h : castOK f) : toShort f = f.trunc := by
  obtain ⟨-, h⟩ := h
  unfold toShort
  unfold inShort at h
  omega

/-! ## The distance test and the window -/

/-- The value `delta` is a number at or above zero or not a number. -/
theorem delta_nonneg (s : State) (x y : Int) (h : (delta s x y).isNaN = false) :
    0 ≤ (delta s x y).ord :=
  F32.sqrt_ord_nonneg _ h

/-- The predicate `EuclidLt` is decided by `euclidLt`. -/
theorem euclidLt_iff (s : State) (x y : Int) : euclidLt s x y = true ↔ EuclidLt s x y := by
  unfold euclidLt EuclidLt
  rw [decide_eq_true_iff]
  by_cases hr : 0 < s.sight.toRat
  · have hr' : (0 : ℝ) < (s.sight.toRat : ℝ) := by exact_mod_cast hr
    rw [Real.sqrt_lt' hr']
    constructor
    · rintro ⟨-, h⟩
      have h' : (((((x : ℚ) - s.pos_x.toRat) * ((x : ℚ) - s.pos_x.toRat)
          + ((y : ℚ) - s.pos_y.toRat) * ((y : ℚ) - s.pos_y.toRat) : ℚ)) : ℝ)
            < ((s.sight.toRat * s.sight.toRat : ℚ) : ℝ) := by exact_mod_cast h
      push_cast at h'
      nlinarith [h']
    · intro h
      refine ⟨hr, ?_⟩
      have h' : (((((x : ℚ) - s.pos_x.toRat) * ((x : ℚ) - s.pos_x.toRat)
          + ((y : ℚ) - s.pos_y.toRat) * ((y : ℚ) - s.pos_y.toRat) : ℚ)) : ℝ)
            < ((s.sight.toRat * s.sight.toRat : ℚ) : ℝ) := by
        push_cast
        nlinarith [h]
      exact_mod_cast h'
  · have hr' : (s.sight.toRat : ℝ) ≤ 0 := by
      have : s.sight.toRat ≤ 0 := not_lt.mp hr
      exact_mod_cast this
    constructor
    · rintro ⟨h, -⟩
      exact absurd h hr
    · intro h
      have := Real.sqrt_nonneg
        (((x : ℝ) - (s.pos_x.toRat : ℝ)) ^ 2 + ((y : ℝ) - (s.pos_y.toRat : ℝ)) ^ 2)
      linarith

/-- What the range of the four conversions says of the position and of the radius. -/
theorem castsInRange_bounds {s : State} (hc : CastsInRange s) :
    s.pos_x.isFinite = true ∧ s.pos_y.isFinite = true ∧ s.sight.isFinite = true ∧
    s.pos_x.ord + s.sight.ord < 32766 * 2 ^ 149 ∧ -32767 * 2 ^ 149 < s.pos_x.ord - s.sight.ord ∧
    s.pos_y.ord + s.sight.ord < 32766 * 2 ^ 149 ∧ -32767 * 2 ^ 149 < s.pos_y.ord - s.sight.ord := by
  obtain ⟨⟨f1, t1⟩, ⟨f2, t2⟩, ⟨f3, t3⟩, ⟨f4, t4⟩⟩ := hc
  obtain ⟨a1, a2, a3, a4⟩ := F32.range_bounds s.pos_x s.sight f1 f3 t1.1 t3.2
  obtain ⟨b1, b2, b3, b4⟩ := F32.range_bounds s.pos_y s.sight f2 f4 t2.1 t4.2
  exact ⟨a1, b1, a2, a3, a4, b3, b4⟩

/-- A tile of the map within the sight radius plus `k` tiles of the observer along each
axis, up to `2 ^ (-63)`, is a tile of the window (`k` is 0 or 1). -/
theorem window_of_axes {s : State} (hc : CastsInRange s) {i j : Int} (hin : inMap s i j)
    (k : Int) (hk0 : 0 ≤ k) (hk1 : k ≤ 1)
    (hx : |i * 2 ^ 149 - s.pos_x.ord| < s.sight.ord + 2 ^ 86 + k * 2 ^ 149)
    (hy : |j * 2 ^ 149 - s.pos_y.ord| < s.sight.ord + 2 ^ 86 + k * 2 ^ 149) :
    inWindow (calcBoundaries s).bounds i j := by
  obtain ⟨m1, m2, m3, m4⟩ := hin
  have hc0 := hc
  obtain ⟨c1, c2, c3, c4⟩ := hc
  rw [abs_lt] at hx hy
  obtain ⟨e1, e3⟩ := F32.axis_cover s.pos_x s.sight c1.1 c3.1 c1.2.1 c3.2.2 i k m1 hk0 hk1
    (by omega) (by omega)
  obtain ⟨e2, e4⟩ := F32.axis_cover s.pos_y s.sight c2.1 c4.1 c2.2.1 c4.2.2 j k m3 hk0 hk1
    (by omega) (by omega)
  unfold inWindow calcBoundaries
  simp only [toShort_eq c1, toShort_eq c2, toShort_eq c3, toShort_eq c4]
  refine ⟨?_, ?_, ?_, ?_⟩
  · split <;> omega
  · split <;> omega
  · split <;> omega
  · split <;> omega

/-- A tile that passes the distance test is less than the sight radius away from the
observer along each axis, up to `2 ^ (-63)`, and the sight radius is positive. -/
theorem deltaLtSight_axes {s : State} (hc : CastsInRange s) {x y : Int}
    (h : deltaLtSight s x y = true) :
    0 < s.sight.ord ∧ |x * 2 ^ 149 - s.pos_x.ord| < s.sight.ord + 2 ^ 86 ∧
    |y * 2 ^ 149 - s.pos_y.ord| < s.sight.ord + 2 ^ 86 := by
  obtain ⟨fx, fy, fr, a1, a2, b1, b2⟩ := castsInRange_bounds hc
  have h0 := h
  unfold deltaLtSight at h
  rw [F32.lt_iff] at h
  obtain ⟨n1, -, hlt⟩ := h
  have hpos : 0 < s.sight.ord := lt_of_le_of_lt (delta_nonneg s x y n1) hlt
  have e : (2 : Int) ^ 17 * 2 ^ 149 = 131072 * 2 ^ 149 := by norm_num
  have e2 : (2 : Nat) ^ 17 * 2 ^ 149 = 131072 * 2 ^ 149 := by norm_num
  have := F32.lt_calcDist_imp s.pos_x s.pos_y s.sight fx fy fr (by omega) (by omega) (by omega)
    x y h0
  have hm : max s.sight.ord (2 ^ 86) ≤ s.sight.ord + 2 ^ 86 :=
    max_le (le_add_of_nonneg_right (by positivity)) (le_add_of_nonneg_left hpos.le)
  exact ⟨hpos, lt_of_lt_of_le this.1 hm, lt_of_lt_of_le this.2 hm⟩

/-- Window coverage: when the conversions of `calcBoundaries` are in range, the window
contains every tile of the map next to a tile that passes the distance test, and that
tile itself if it is a tile of the map. -/
theorem window_covers {s : State} (hc : CastsInRange s) {x y i j : Int}
    (hd : deltaLtSight s x y = true) (hadj : Adjacent x y i j) (hin : inMap s i j) :
    inWindow (calcBoundaries s).bounds i j := by
  obtain ⟨-, h1, h2⟩ := deltaLtSight_axes hc hd
  obtain ⟨a1, a2, a3, a4⟩ := hadj
  rw [abs_lt] at h1 h2
  apply window_of_axes hc hin 1 (by norm_num) le_rfl
  · rw [abs_lt]; constructor <;> linarith
  · rw [abs_lt]; constructor <;> linarith

theorem adjacent_self (x y : Int) : Adjacent x y x y := by
  unfold Adjacent; omega

/-! ## The two entry points -/

theorem flushMinimap_layer (s : State) : (flushMinimap s).layer = s.layer := by
  unfold flushMinimap; split <;> rfl

theorem flushMinimap_bounds (s : State) : (flushMinimap s).bounds = s.bounds := by
  unfold flushMinimap; split <;> rfl

theorem flushMinimap_flag (s : State) : (flushMinimap s).update_minimap = false := by
  unfold flushMinimap
  split
  · rfl
  · rename_i h; simpa using h

/-- Both entry points on a well-formed state: `calcBoundaries` followed by `updateTiles`
succeeds; `s1` is the state after the distance pass, `s2` the state after the boundary
pass, and every tile is described from its state `t` at entry. -/
theorem update_spec {s : State} (hwf : WellFormed s) (st : Tile) :
    ∃ s1 s2, distancePass st (calcBoundaries s) = some s1 ∧ boundaryPass s1 = some s2 ∧
      updateTiles st (calcBoundaries s) = some s2 ∧
      Frame (calcBoundaries s) s1 ∧ Frame (calcBoundaries s) s2 ∧
      LayerDims s1.layer s.w s.h ∧ LayerDims s2.layer s.w s.h ∧
      (∀ x y t, getTile s.layer x y = some t →
        getTile s1.layer x y = some
          (if inWindow (calcBoundaries s).bounds x y then
            distanceTile (deltaLtSight s x y) st t else t) ∧
        getTile s2.layer x y = some
          (if s.fogofwar = TYPE_OVERLAY ∧ inWindow (calcBoundaries s).bounds x y then
            boundaryTile (hasSeenNeighbour s s1.layer x y)
              (if inWindow (calcBoundaries s).bounds x y then
                distanceTile (deltaLtSight s x y) st t else t)
          else
            (if inWindow (calcBoundaries s).bounds x y then
              distanceTile (deltaLtSight s x y) st t else t))) ∧
      (s1.update_minimap = true ↔ s.update_minimap = true ∨
        ∃ a b t, inWindow (calcBoundaries s).bounds a b ∧ getTile s.layer a b = some t ∧
          raisesFlag t (distanceTile (deltaLtSight s a b) st t) = true) ∧
      s2.update_minimap = s1.update_minimap := by
  obtain ⟨s1, s2, h1, h2, h3, f1, f2, d1, d2, c1, c2, g1, g2⟩ :=
    updateTiles_spec (calcBoundaries_wellFormed hwf) (calcBoundaries_boundsInMap s) st
  refine ⟨s1, s2, h1, h2, h3, f1, f2, d1, d2, ?_, g1, g2⟩
  intro x y t ht
  have e1 : getTile s1.layer x y = some
      (if inWindow (calcBoundaries s).bounds x y then
        distanceTile (deltaLtSight s x y) st t else t) := by
    have := c1 x y
    rw [show (calcBoundaries s).layer = s.layer from rfl, ht] at this
    exact this
  refine ⟨e1, ?_⟩
  have := c2 x y
  rw [e1] at this
  exact this

theorem logic_eq {s s2 : State} (h : updateTiles TILE_SIGHT (calcBoundaries s) = some s2) :
    logic s = some (flushMinimap s2) := by
  unfold logic; rw [h]; rfl

theorem handleIntramapTeleport_eq {s s2 : State}
    (h : updateTiles TILE_VISITED (calcBoundaries s) = some s2) :
    handleIntramapTeleport s = some (flushMinimap s2) := by
  unfold handleIntramapTeleport; rw [h]; rfl

theorem inMap_getTile {s : State} (hwf : WellFormed s) {x y : Int} (h : inMap s x y) :
    ∃ t, getTile s.layer x y = some t :=
  getTile_exists hwf h.1 h.2.1 h.2.2.1 h.2.2.2

/-- A tile written by the distance pass for `TILE_SIGHT` is `TILE_SIGHT` exactly when the
distance test succeeded. -/
theorem distanceTile_sight_iff (d : Bool) (t : Tile) :
    distanceTile d TILE_SIGHT t = TILE_SIGHT ↔ d = true := by
  unfold distanceTile
  cases d <;> cases t <;> simp

theorem boundaryTile_eq_sight_iff (b : Bool) (t : Tile) :
    boundaryTile b t = TILE_SIGHT ↔ t = TILE_SIGHT := by
  unfold boundaryTile
  cases b <;> cases t <;> simp

/-- C1 (amended). After the ordinary update `logic`, which succeeds on every well-formed
state, a tile of the map inside the update window is `TILE_SIGHT` if and only if the
distance `delta` that `updateTiles` computes for it in single precision is strictly below
the sight radius; a tile of the map outside the window keeps the state it had; and when
the conversions of `calcBoundaries` are in the range of `short`, every tile of the map
whose computed distance is below the radius is `TILE_SIGHT`. -/
theorem logic_sighted_iff_in_window (s : State) (hwf : WellFormed s) :
    ∃ s1, logic s = some s1 ∧ s1.bounds = (calcBoundaries s).bounds ∧
      (∀ x y, inMap s x y → inWindow s1.bounds x y →
        (getTile s1.layer x y = some TILE_SIGHT ↔ (delta s x y).lt s.sight = true)) ∧
      (∀ x y, inMap s x y → ¬ inWindow s1.bounds x y →
        getTile s1.layer x y = getTile s.layer x y) ∧
      (CastsInRange s → ∀ x y, inMap s x y → (delta s x y).lt s.sight = true →
        getTile s1.layer x y = some TILE_SIGHT) := by
  obtain ⟨s1, s2, -, -, h3, -, f2, -, -, hc, -, -⟩ := update_spec hwf TILE_SIGHT
  have hbnd : (flushMinimap s2).bounds = (calcBoundaries s).bounds := by
    rw [flushMinimap_bounds]; exact f2.2.2.2.2.2.2.1
  have hin : ∀ x y, inMap s x y → inWindow (calcBoundaries s).bounds x y →
      (getTile s2.layer x y = some TILE_SIGHT ↔ deltaLtSight s x y = true) := by
    intro x y hm hw
    obtain ⟨t, ht⟩ := inMap_getTile hwf hm
    rw [(hc x y t ht).2]
    simp only [hw, and_true, if_true]
    split
    · rw [Option.some_inj, boundaryTile_eq_sight_iff, distanceTile_sight_iff]
    · rw [Option.some_inj, distanceTile_sight_iff]
  refine ⟨flushMinimap s2, logic_eq h3, hbnd, ?_, ?_, ?_⟩
  · intro x y hm hw
    rw [hbnd] at hw
    rw [flushMinimap_layer]
    exact hin x y hm hw
  · intro x y hm hw
    rw [hbnd] at hw
    obtain ⟨t, ht⟩ := inMap_getTile hwf hm
    rw [flushMinimap_layer, (hc x y t ht).2, ht]
    simp [hw]
  · intro hcast x y hm hd
    rw [flushMinimap_layer]
    have hw := window_covers hcast hd (adjacent_self x y) hm
    exact (hin x y hm hw).mpr hd

/-- Witness of `logic_sighted_iff_in_window`: the 10 x 10 map of the spec, every tile
hidden, observer at (5, 5), radius 3. -/
theorem logic_sighted_iff_in_window_witness :
    WellFormed (freshState 10 10 5 5 3 TYPE_OVERLAY) ∧
    ∃ s1, logic (freshState 10 10 5 5 3 TYPE_OVERLAY) = some s1 ∧
      s1.bounds = (calcBoundaries (freshState 10 10 5 5 3 TYPE_OVERLAY)).bounds ∧
      (∀ x y, inMap (freshState 10 10 5 5 3 TYPE_OVERLAY) x y → inWindow s1.bounds x y →
        (getTile s1.layer x y = some TILE_SIGHT ↔
          (delta (freshState 10 10 5 5 3 TYPE_OVERLAY) x y).lt
            (freshState 10 10 5 5 3 TYPE_OVERLAY).sight = true)) ∧
      (∀ x y, inMap (freshState 10 10 5 5 3 TYPE_OVERLAY) x y → ¬ inWindow s1.bounds x y →
        getTile s1.layer x y = getTile (freshState 10 10 5 5 3 TYPE_OVERLAY).layer x y) ∧
      (CastsInRange (freshState 10 10 5 5 3 TYPE_OVERLAY) → ∀ x y,
        inMap (freshState 10 10 5 5 3 TYPE_OVERLAY) x y →
        (delta (freshState 10 10 5 5 3 TYPE_OVERLAY) x y).lt
          (freshState 10 10 5 5 3 TYPE_OVERLAY).sight = true →
        getTile s1.layer x y = some TILE_SIGHT) :=
  ⟨by decide, logic_sighted_iff_in_window _ (by decide)⟩

/-- C1 (counterexample). Two inputs on which the claim fails. On a map of 8 x 1 tiles with
radius 1, one update with the observer at (0, 0) followed by one update with the observer
at (7, 0): after the second update the tile (0, 0) of the map is `TILE_SIGHT`, although
its distance to the observer, 7, is not below the radius 1; the tile lies outside the
window [4, 8) x [0, 1). On a fresh map of 10 x 10 tiles with the observer at
(2 ^ (-30), 2) and radius 3, the conversions in range: the tile (3, 2) lies inside the
window [0, 5) x [0, 7) at Euclidean distance 3 - 2 ^ (-30), below the radius, yet the
difference of the coordinates rounds to 3 in single precision, the test `delta < sight`
fails and the tile is `TILE_HIDDEN_BOUNDARY` after the update. -/
theorem logic_sighted_far_from_observer :
    (∃ s1 s2, logic (freshState 8 1 0 0 1 TYPE_OVERLAY) = some s1 ∧
      WellFormed { s1 with pos_x := 7 } ∧
      logic { s1 with pos_x := 7 } = some s2 ∧
      inMap { s1 with pos_x := 7 } 0 0 ∧
      getTile s2.layer 0 0 = some TILE_SIGHT ∧
      ¬ EuclidLt { s1 with pos_x := 7 } 0 0 ∧
      s2.bounds = ⟨4, 0, 8, 1⟩) ∧
    (∃ s1, logic (freshState 10 10 (F32.ofDyadic 1 30) 2 3 TYPE_OVERLAY) = some s1 ∧
      CastsInRange (freshState 10 10 (F32.ofDyadic 1 30) 2 3 TYPE_OVERLAY) ∧
      inMap (freshState 10 10 (F32.ofDyadic 1 30) 2 3 TYPE_OVERLAY) 3 2 ∧
      s1.bounds = ⟨0, 0, 5, 7⟩ ∧
      EuclidLt (freshState 10 10 (F32.ofDyadic 1 30) 2 3 TYPE_OVERLAY) 3 2 ∧
      delta (freshState 10 10 (F32.ofDyadic 1 30) 2 3 TYPE_OVERLAY) 3 2 = 3 ∧
      getTile s1.layer 3 2 = some TILE_HIDDEN_BOUNDARY) := by
  have h : logic (freshState 8 1 0 0 1 TYPE_OVERLAY)
        = some (afterLogic (freshState 8 1 0 0 1 TYPE_OVERLAY)) ∧
      WellFormed { afterLogic (freshState 8 1 0 0 1 TYPE_OVERLAY) with pos_x := 7 } ∧
      logic { afterLogic (freshState 8 1 0 0 1 TYPE_OVERLAY) with pos_x := 7 }
        = some (afterLogic { afterLogic (freshState 8 1 0 0 1 TYPE_OVERLAY) with pos_x := 7 }) ∧
      inMap { afterLogic (freshState 8 1 0 0 1 TYPE_OVERLAY) with pos_x := 7 } 0 0 ∧
      getTile (afterLogic { afterLogic (freshState 8 1 0 0 1 TYPE_OVERLAY) with
        pos_x := 7 }).layer 0 0 = some TILE_SIGHT ∧
      euclidLt { afterLogic (freshState 8 1 0 0 1 TYPE_OVERLAY) with pos_x := 7 } 0 0
        = false ∧
      (afterLogic { afterLogic (freshState 8 1 0 0 1 TYPE_OVERLAY) with pos_x := 7 }).bounds
        = ⟨4, 0, 8, 1⟩ := by decide!
  have g : logic (freshState 10 10 (F32.ofDyadic 1 30) 2 3 TYPE_OVERLAY)
        = some (afterLogic (freshState 10 10 (F32.ofDyadic 1 30) 2 3 TYPE_OVERLAY)) ∧
      CastsInRange (freshState 10 10 (F32.ofDyadic 1 30) 2 3 TYPE_OVERLAY) ∧
      inMap (freshState 10 10 (F32.ofDyadic 1 30) 2 3 TYPE_OVERLAY) 3 2 ∧
      (afterLogic (freshState 10 10 (F32.ofDyadic 1 30) 2 3 TYPE_OVERLAY)).bounds
        = ⟨0, 0, 5, 7⟩ ∧
      euclidLt (freshState 10 10 (F32.ofDyadic 1 30) 2 3 TYPE_OVERLAY) 3 2 = true ∧
      delta (freshState 10 10 (F32.ofDyadic 1 30) 2 3 TYPE_OVERLAY) 3 2 = 3 ∧
      getTile (afterLogic (freshState 10 10 (F32.ofDyadic 1 30) 2 3 TYPE_OVERLAY)).layer 3 2
        = some TILE_HIDDEN_BOUNDARY := by decide!
  obtain ⟨h1, h2, h3, h4, h5, h6, h7⟩ := h
  obtain ⟨g1, g2, g3, g4, g5, g6, g7⟩ := g
  refine ⟨⟨_, _, h1, h2, h3, h4, h5, ?_, h7⟩, ⟨_, g1, g2, g3, g4, (euclidLt_iff _ _ _).mp g5,
    g6, g7⟩⟩
  rw [← euclidLt_iff, h6]
  exact Bool.false_ne_true

theorem seen_iff (t : Tile) : t.seen = true ↔ t = TILE_SIGHT ∨ t = TILE_VISITED := by
  cases t <;> simp [Tile.seen]

theorem distanceTile_seen {st : Tile} (hst : st.seen = true) (d : Bool) {t : Tile}
    (ht : t.seen = true) : (distanceTile d st t).seen = true := by
  unfold distanceTile
  cases d <;> cases t <;> simp_all [Tile.seen]

/-- Under either target state a seen tile stays seen through `updateTiles`. -/
theorem update_keeps_seen {s : State} (hwf : WellFormed s) (st : Tile) (hst : st.seen = true) :
    ∃ s2, updateTiles st (calcBoundaries s) = some s2 ∧
      ∀ x y t, getTile s.layer x y = some t → (t = TILE_SIGHT ∨ t = TILE_VISITED) →
        ∃ t1, getTile s2.layer x y = some t1 ∧ (t1 = TILE_SIGHT ∨ t1 = TILE_VISITED) := by
  obtain ⟨s1, s2, -, -, h3, -, -, -, -, hc, -, -⟩ := update_spec hwf st
  refine ⟨s2, h3, ?_⟩
  intro x y t ht hseen
  refine ⟨_, (hc x y t ht).2, ?_⟩
  rw [← seen_iff] at hseen ⊢
  split
  · rw [boundaryTile_seen]
    split
    · exact distanceTile_seen hst _ hseen
    · exact hseen
  · split
    · exact distanceTile_seen hst _ hseen
    · exact hseen

/-- C2. Seen-ness is monotone: on every well-formed state both `logic` and
`handleIntramapTeleport` succeed, and a tile that is `TILE_SIGHT` or `TILE_VISITED` before
the update is `TILE_SIGHT` or `TILE_VISITED` after it, in every fog mode; so no update
turns a seen tile into `TILE_HIDDEN` or `TILE_HIDDEN_BOUNDARY`. -/
theorem seen_monotone (s : State) (hwf : WellFormed s) :
    (∃ s1, logic s = some s1 ∧
      ∀ x y t, getTile s.layer x y = some t → (t = TILE_SIGHT ∨ t = TILE_VISITED) →
        ∃ t1, getTile s1.layer x y = some t1 ∧ (t1 = TILE_SIGHT ∨ t1 = TILE_VISITED)) ∧
    (∃ s1, handleIntramapTeleport s = some s1 ∧
      ∀ x y t, getTile s.layer x y = some t → (t = TILE_SIGHT ∨ t = TILE_VISITED) →
        ∃ t1, getTile s1.layer x y = some t1 ∧ (t1 = TILE_SIGHT ∨ t1 = TILE_VISITED)) := by
  constructor
  · obtain ⟨s2, h, hk⟩ := update_keeps_seen hwf TILE_SIGHT rfl
    refine ⟨flushMinimap s2, logic_eq h, ?_⟩
    rw [flushMinimap_layer]
    exact hk
  · obtain ⟨s2, h, hk⟩ := update_keeps_seen hwf TILE_VISITED rfl
    refine ⟨flushMinimap s2, handleIntramapTeleport_eq h, ?_⟩
    rw [flushMinimap_layer]
    exact hk

/-- Witness of `seen_monotone`: the state reached on the 10 x 10 map after one update at
(5, 5) with radius 3, the observer then placed at (2, 2). -/
theorem seen_monotone_witness :
    WellFormed { afterLogic (freshState 10 10 5 5 3 TYPE_OVERLAY) with pos_x := 2, pos_y := 2 } ∧
    ((∃ s1, logic { afterLogic (freshState 10 10 5 5 3 TYPE_OVERLAY) with
          pos_x := 2, pos_y := 2 } = some s1 ∧
      ∀ x y t, getTile ({ afterLogic (freshState 10 10 5 5 3 TYPE_OVERLAY) with
          pos_x := 2, pos_y := 2 } : State).layer x y = some t →
        (t = TILE_SIGHT ∨ t = TILE_VISITED) →
        ∃ t1, getTile s1.layer x y = some t1 ∧ (t1 = TILE_SIGHT ∨ t1 = TILE_VISITED)) ∧
    (∃ s1, handleIntramapTeleport { afterLogic (freshState 10 10 5 5 3 TYPE_OVERLAY) with
          pos_x := 2, pos_y := 2 } = some s1 ∧
      ∀ x y t, getTile ({ afterLogic (freshState 10 10 5 5 3 TYPE_OVERLAY) with
          pos_x := 2, pos_y := 2 } : State).layer x y = some t →
        (t = TILE_SIGHT ∨ t = TILE_VISITED) →
        ∃ t1, getTile s1.layer x y = some t1 ∧ (t1 = TILE_SIGHT ∨ t1 = TILE_VISITED))) :=
  have h : WellFormed { afterLogic (freshState 10 10 5 5 3 TYPE_OVERLAY) with
      pos_x := 2, pos_y := 2 } := by decide!
  ⟨h, seen_monotone _ h⟩

/-- A tile left by the ordinary update inside the window is a fixed point of the
distance rule: it is `TILE_SIGHT` exactly when the test succeeds. -/
theorem distanceTile_fixed (d b : Bool) (t : Tile) :
    distanceTile d TILE_SIGHT (boundaryTile b (distanceTile d TILE_SIGHT t))
      = boundaryTile b (distanceTile d TILE_SIGHT t) := by
  cases d <;> cases b <;> cases t <;> rfl

theorem raisesFlag_self (t : Tile) : raisesFlag t t = false := by
  cases t <;> rfl

theorem boundaryTile_idem (b : Bool) (t : Tile) :
    boundaryTile b (boundaryTile b t) = boundaryTile b t := by
  cases b <;> cases t <;> rfl

/-! ## Idempotence of the ordinary update -/

theorem getTile_none_of_dims {l l1 : Layer} {w h : Nat} (hd : LayerDims l w h)
    (hd1 : LayerDims l1 w h) {x y : Int} (hn : getTile l x y = none) :
    getTile l1 x y = none := by
  cases h1 : getTile l1 x y with
  | none => rfl
  | some t =>
    have := (getTile_isSome_iff hd x y).mpr (getTile_inside hd1 h1)
    rw [hn] at this
    exact absurd this (by simp)

theorem hasSeenNeighbour_env {s s1 : State} (hw : s1.w = s.w) (hh : s1.h = s.h) (l : Layer)
    (x y : Int) : hasSeenNeighbour s1 l x y = hasSeenNeighbour s l x y := by
  unfold hasSeenNeighbour seenAt inMap
  simp only [hw, hh]

theorem hasSeenNeighbour_layer (s : State) {l l1 : Layer}
    (h : ∀ a b, (getTile l1 a b).map Tile.seen = (getTile l a b).map Tile.seen) (x y : Int) :
    hasSeenNeighbour s l1 x y = hasSeenNeighbour s l x y :=
  hasSeenNeighbour_congr (Frame.refl s) h x y

theorem deltaLtSight_env {s s1 : State} (hx : s1.pos_x = s.pos_x) (hy : s1.pos_y = s.pos_y)
    (hr : s1.sight = s.sight) (x y : Int) : deltaLtSight s1 x y = deltaLtSight s x y := by
  unfold deltaLtSight delta
  rw [hx, hy, hr]

theorem calcBoundaries_bounds_env {s s1 : State} (hw : s1.w = s.w) (hh : s1.h = s.h)
    (hx : s1.pos_x = s.pos_x) (hy : s1.pos_y = s.pos_y) (hr : s1.sight = s.sight) :
    (calcBoundaries s1).bounds = (calcBoundaries s).bounds := by
  unfold calcBoundaries
  simp only [hw, hh, hx, hy, hr]

/-- On a settled state `updateTiles` changes neither the layer nor the flag. -/
theorem updateTiles_of_settled {s : State} (hwf : WellFormed s) (hs : Settled s) :
    ∃ u, updateTiles TILE_SIGHT (calcBoundaries s) = some u ∧ u.layer = s.layer ∧
      u.update_minimap = s.update_minimap ∧ Frame (calcBoundaries s) u := by
  obtain ⟨s1, s2, -, -, h3, -, f2, d1, d2, hc, g1, g2⟩ := update_spec hwf TILE_SIGHT
  have hl1 : s1.layer = s.layer := by
    apply layer_ext d1 hwf
    intro x y
    cases ht : getTile s.layer x y with
    | none => exact getTile_none_of_dims hwf d1 ht
    | some t =>
      rw [(hc x y t ht).1]
      split
      · rename_i hw; rw [(hs x y t hw ht).1]
      · rfl
  have hl2 : s2.layer = s.layer := by
    apply layer_ext d2 hwf
    intro x y
    cases ht : getTile s.layer x y with
    | none => exact getTile_none_of_dims hwf d2 ht
    | some t =>
      rw [(hc x y t ht).2, hl1]
      by_cases hw : inWindow (calcBoundaries s).bounds x y
      · obtain ⟨e1, e2⟩ := hs x y t hw ht
        simp only [hw, and_true, if_true, e1]
        split
        · rename_i hov; rw [e2 hov]
        · rfl
      · simp [hw]
  refine ⟨s2, h3, hl2, ?_, f2⟩
  rw [g2]
  cases hu : s1.update_minimap with
  | false =>
    cases hsu : s.update_minimap with
    | false => rfl
    | true => exact absurd (g1.mpr (Or.inl hsu)) (by simp [hu])
  | true =>
    rcases g1.mp hu with h | ⟨a, b, t, hw, ht, hr⟩
    · exact h.symm
    · rw [(hs a b t hw ht).1, raisesFlag_self] at hr
      exact absurd hr (by simp)

/-- The state returned by the ordinary update is settled, well-formed, has the flag
down, and carries the window of its own observer. -/
theorem logic_settled {s : State} (hwf : WellFormed s) :
    ∃ s1, logic s = some s1 ∧ WellFormed s1 ∧ Settled s1 ∧ s1.update_minimap = false ∧
      s1.bounds = (calcBoundaries s1).bounds := by
  obtain ⟨m, s2, -, -, h3, f1, f2, d1, d2, hc, -, -⟩ := update_spec hwf TILE_SIGHT
  have hw : (flushMinimap s2).w = s.w := by
    unfold flushMinimap; split <;> exact f2.1
  have hh : (flushMinimap s2).h = s.h := by
    unfold flushMinimap; split <;> exact f2.2.1
  have hx : (flushMinimap s2).pos_x = s.pos_x := by
    unfold flushMinimap; split <;> exact f2.2.2.1
  have hy : (flushMinimap s2).pos_y = s.pos_y := by
    unfold flushMinimap; split <;> exact f2.2.2.2.1
  have hr : (flushMinimap s2).sight = s.sight := by
    unfold flushMinimap; split <;> exact f2.2.2.2.2.1
  have hf : (flushMinimap s2).fogofwar = s.fogofwar := by
    unfold flushMinimap; split <;> exact f2.2.2.2.2.2.1
  have hb : (calcBoundaries (flushMinimap s2)).bounds = (calcBoundaries s).bounds :=
    calcBoundaries_bounds_env hw hh hx hy hr
  have hseen : ∀ a b, (getTile s2.layer a b).map Tile.seen
      = (getTile m.layer a b).map Tile.seen := by
    intro a b
    cases ht : getTile s.layer a b with
    | none =>
      rw [getTile_none_of_dims hwf d1 ht, getTile_none_of_dims hwf d2 ht]
    | some t =>
      rw [(hc a b t ht).2, (hc a b t ht).1]
      simp only [Option.map_some', Option.some_inj]
      split
      · rw [boundaryTile_seen]
      · rfl
  refine ⟨flushMinimap s2, logic_eq h3, ?_, ?_, flushMinimap_flag s2, ?_⟩
  · unfold WellFormed
    rw [flushMinimap_layer, hw, hh]
    exact d2
  · intro x y c hwin hg
    rw [hb] at hwin
    rw [flushMinimap_layer] at hg ⊢
    rw [deltaLtSight_env hx hy hr, hasSeenNeighbour_env hw hh, hf,
      hasSeenNeighbour_layer s hseen]
    have hin := getTile_inside d2 hg
    obtain ⟨t, ht⟩ := getTile_exists hwf hin.1 hin.2.1 hin.2.2.1 hin.2.2.2
    have e := (hc x y t ht).2
    rw [hg] at e
    simp only [hwin, and_true, if_true, Option.some_inj] at e
    by_cases hov : s.fogofwar = TYPE_OVERLAY
    · rw [if_pos hov] at e
      rw [e]
      exact ⟨distanceTile_fixed _ _ _, fun _ => boundaryTile_idem _ _⟩
    · rw [if_neg hov] at e
      rw [e]
      constructor
      · generalize deltaLtSight s x y = d
        cases d <;> cases t <;> rfl
      · intro h; exact absurd h hov
  · rw [flushMinimap_bounds, hb]
    exact f2.2.2.2.2.2.2.1

/-- C3. Idempotence of the ordinary update: on every well-formed state `logic` succeeds,
and a second `logic` with the same observer position and radius returns the state
unchanged: the same layer, the flag `update_minimap` false, no further call of the
minimap update in the trace. The `updateTiles` of the second call leaves the flag false. -/
theorem logic_idempotent (s : State) (hwf : WellFormed s) :
    ∃ s1, logic s = some s1 ∧
      (∃ u, updateTiles TILE_SIGHT (calcBoundaries s1) = some u ∧
        u.update_minimap = false ∧ u.layer = s1.layer) ∧
      ∃ s2, logic s1 = some s2 ∧ s2.layer = s1.layer ∧ s2.update_minimap = false ∧
        s2.mini_updates = s1.mini_updates ∧ s2 = s1 := by
  obtain ⟨s1, h1, hwf1, hset, hflag, hbnd⟩ := logic_settled hwf
  obtain ⟨u, hu, hul, huf, hfr⟩ := updateTiles_of_settled hwf1 hset
  have hu0 : u.update_minimap = false := by rw [huf, hflag]
  have hflush : flushMinimap u = u := by
    unfold flushMinimap; rw [hu0]; rfl
  have heq : u = s1 := by
    obtain ⟨a1, a2, a3, a4, a5, a6, a7, a8⟩ := hfr
    have a7' : u.bounds = s1.bounds := by rw [a7, ← hbnd]
    cases u; cases s1
    simp only [State.mk.injEq] at *
    exact ⟨hul, a1, a2, a3, a4, a5, a6, a7', hu0.trans hflag.symm, a8⟩
  refine ⟨s1, h1, ⟨u, hu, hu0, hul⟩, s1, ?_, rfl, hflag, rfl, rfl⟩
  rw [logic_eq hu, hflush, heq]

/-- Witness of `logic_idempotent`: the fresh 10 x 10 map, observer at (5, 5),
radius 3, overlay mode. -/
theorem logic_idempotent_witness :
    WellFormed (freshState 10 10 5 5 3 TYPE_OVERLAY) ∧
    ∃ s1, logic (freshState 10 10 5 5 3 TYPE_OVERLAY) = some s1 ∧
      (∃ u, updateTiles TILE_SIGHT (calcBoundaries s1) = some u ∧
        u.update_minimap = false ∧ u.layer = s1.layer) ∧
      ∃ s2, logic s1 = some s2 ∧ s2.layer = s1.layer ∧ s2.update_minimap = false ∧
        s2.mini_updates = s1.mini_updates ∧ s2 = s1 :=
  ⟨by decide, logic_idempotent _ (by decide)⟩

/-! ## Successive updates, fresh maps and the relocation entry point -/

/-- Every tile of a layer filled with `t` is `t`. -/
theorem getTile_fillLayer {w h : Nat} {t t1 : Tile} {x y : Int}
    (hg : getTile (fillLayer w h t) x y = some t1) : t1 = t := by
  unfold getTile at hg
  split at hg
  · split at hg
    · rename_i col hcol
      have h1 : col ∈ fillLayer w h t := List.getElem?_mem hcol
      have h2 : t1 ∈ col := List.getElem?_mem hg
      unfold fillLayer at h1
      rw [List.eq_of_mem_replicate h1] at h2
      exact List.eq_of_mem_replicate h2
    · exact absurd hg (by simp)
  · exact absurd hg (by simp)

/-- The ordinary update over a tile that is `TILE_SIGHT` and fails the distance test:
inside the window it is demoted to `TILE_VISITED`, outside the window it stays
`TILE_SIGHT`. -/
theorem logic_out_of_range {s : State} (hwf : WellFormed s) :
    ∃ s1, logic s = some s1 ∧ s1.bounds = (calcBoundaries s).bounds ∧
      ∀ x y, getTile s.layer x y = some TILE_SIGHT → deltaLtSight s x y = false →
        (inWindow s1.bounds x y → getTile s1.layer x y = some TILE_VISITED) ∧
        (¬ inWindow s1.bounds x y → getTile s1.layer x y = some TILE_SIGHT) := by
  obtain ⟨m, s2, -, -, h3, -, f2, -, -, hc, -, -⟩ := update_spec hwf TILE_SIGHT
  have hbnd : (flushMinimap s2).bounds = (calcBoundaries s).bounds := by
    rw [flushMinimap_bounds]; exact f2.2.2.2.2.2.2.1
  refine ⟨flushMinimap s2, logic_eq h3, hbnd, ?_⟩
  intro x y ht hfar
  rw [hbnd, flushMinimap_layer, (hc x y _ ht).2, hfar]
  constructor
  · intro hw
    simp [hw, distanceTile, boundaryTile]
  · intro hw
    simp [hw]

/-- C4 (amended). Two successive ordinary updates on the same map with the same radius,
the second with the observer at `(px, py)`: both succeed, and a tile that was `TILE_SIGHT`
after the first update, whose distance to the second position as `updateTiles` computes
it in single precision is not below the radius (the test `delta < sight` fails) and which
lies inside the window of the second update, is `TILE_VISITED` after the second update;
such a tile outside the window of the second update is still `TILE_SIGHT`. -/
theorem sighted_demoted_in_window (s : State) (hwf : WellFormed s) (px py : F32) :
    ∃ s1 s2, logic s = some s1 ∧ logic { s1 with pos_x := px, pos_y := py } = some s2 ∧
      ∀ x y, getTile s1.layer x y = some TILE_SIGHT →
        (delta { s1 with pos_x := px, pos_y := py } x y).lt s1.sight = false →
        (inWindow s2.bounds x y → getTile s2.layer x y = some TILE_VISITED) ∧
        (¬ inWindow s2.bounds x y → getTile s2.layer x y = some TILE_SIGHT) := by
  obtain ⟨s1, h1, hwf1, -, -, -⟩ := logic_settled hwf
  have hwf2 : WellFormed { s1 with pos_x := px, pos_y := py } := hwf1
  obtain ⟨s2, h2, -, hk⟩ := logic_out_of_range hwf2
  exact ⟨s1, s2, h1, h2, hk⟩

/-- Witness of `sighted_demoted_in_window`: the 10 x 10 map of the spec, first update at
(5, 5), second update at (2, 2), radius 3. -/
theorem sighted_demoted_in_window_witness :
    WellFormed (freshState 10 10 5 5 3 TYPE_OVERLAY) ∧
    ∃ s1 s2, logic (freshState 10 10 5 5 3 TYPE_OVERLAY) = some s1 ∧
      logic { s1 with pos_x := 2, pos_y := 2 } = some s2 ∧
      ∀ x y, getTile s1.layer x y = some TILE_SIGHT →
        (delta { s1 with pos_x := 2, pos_y := 2 } x y).lt s1.sight = false →
        (inWindow s2.bounds x y → getTile s2.layer x y = some TILE_VISITED) ∧
        (¬ inWindow s2.bounds x y → getTile s2.layer x y = some TILE_SIGHT) :=
  ⟨by decide, sighted_demoted_in_window _ (by decide) 2 2⟩

/-- C4 (counterexample). Two inputs on which the claim fails. The scenario of the spec:
10 x 10 map, radius 3, ordinary update at (5, 5), then ordinary update at (2, 2). The tile
(7, 5) is `TILE_SIGHT` after the first update, its distance to (2, 2) is not below 3, and
after the second update it is still `TILE_SIGHT`, not `TILE_VISITED`: the second window
is [0, 7) x [0, 7). Second, on a 10 x 10 map with radius 6049395 / 2 ^ 21, ordinary update
at (4, 4), then at (8547 / 2 ^ 12, 12613 / 2 ^ 11): the tile (4, 4) is `TILE_SIGHT` after
the first update and lies inside the second window [0, 6) x [1, 10); its Euclidean
distance to the second position is not below the radius, yet the distance computed in
single precision is, and the tile is still `TILE_SIGHT` after the second update. -/
theorem sighted_not_demoted_outside_window :
    (∃ s1 s2, logic (freshState 10 10 5 5 3 TYPE_OVERLAY) = some s1 ∧
      logic { s1 with pos_x := 2, pos_y := 2 } = some s2 ∧
      getTile s1.layer 7 5 = some TILE_SIGHT ∧
      ¬ EuclidLt { s1 with pos_x := 2, pos_y := 2 } 7 5 ∧
      getTile s2.layer 7 5 = some TILE_SIGHT ∧
      getTile s2.layer 7 5 ≠ some TILE_VISITED ∧
      s2.bounds = ⟨0, 0, 7, 7⟩) ∧
    (∃ s1 s2, logic (freshState 10 10 4 4 (F32.ofDyadic 6049395 21) TYPE_OVERLAY) = some s1 ∧
      logic { s1 with pos_x := F32.ofDyadic 8547 12, pos_y := F32.ofDyadic 12613 11 }
        = some s2 ∧
      getTile s1.layer 4 4 = some TILE_SIGHT ∧
      ¬ EuclidLt { s1 with pos_x := F32.ofDyadic 8547 12, pos_y := F32.ofDyadic 12613 11 } 4 4 ∧
      (delta { s1 with pos_x := F32.ofDyadic 8547 12, pos_y := F32.ofDyadic 12613 11 }
        4 4).lt s1.sight = true ∧
      s2.bounds = ⟨0, 1, 6, 10⟩ ∧
      getTile s2.layer 4 4 = some TILE_SIGHT ∧
      getTile s2.layer 4 4 ≠ some TILE_VISITED) := by
  have h : logic (freshState 10 10 5 5 3 TYPE_OVERLAY)
        = some (afterLogic (freshState 10 10 5 5 3 TYPE_OVERLAY)) ∧
      logic { afterLogic (freshState 10 10 5 5 3 TYPE_OVERLAY) with pos_x := 2, pos_y := 2 }
        = some (afterLogic { afterLogic (freshState 10 10 5 5 3 TYPE_OVERLAY) with
            pos_x := 2, pos_y := 2 }) ∧
      getTile (afterLogic (freshState 10 10 5 5 3 TYPE_OVERLAY)).layer 7 5 = some TILE_SIGHT ∧
      euclidLt { afterLogic (freshState 10 10 5 5 3 TYPE_OVERLAY) with
        pos_x := 2, pos_y := 2 } 7 5 = false ∧
      getTile (afterLogic { afterLogic (freshState 10 10 5 5 3 TYPE_OVERLAY) with
        pos_x := 2, pos_y := 2 }).layer 7 5 = some TILE_SIGHT ∧
      (afterLogic { afterLogic (freshState 10 10 5 5 3 TYPE_OVERLAY) with
        pos_x := 2, pos_y := 2 }).bounds = ⟨0, 0, 7, 7⟩ := by decide!
  have g : logic (freshState 10 10 4 4 (F32.ofDyadic 6049395 21) TYPE_OVERLAY)
        = some (afterLogic (freshState 10 10 4 4 (F32.ofDyadic 6049395 21) TYPE_OVERLAY)) ∧
      logic { afterLogic (freshState 10 10 4 4 (F32.ofDyadic 6049395 21) TYPE_OVERLAY) with
          pos_x := F32.ofDyadic 8547 12, pos_y := F32.ofDyadic 12613 11 }
        = some (afterLogic { afterLogic (freshState 10 10 4 4 (F32.ofDyadic 6049395 21)
            TYPE_OVERLAY) with pos_x := F32.ofDyadic 8547 12, pos_y := F32.ofDyadic 12613 11 }) ∧
      getTile (afterLogic (freshState 10 10 4 4 (F32.ofDyadic 6049395 21) TYPE_OVERLAY)).layer
        4 4 = some TILE_SIGHT ∧
      euclidLt { afterLogic (freshState 10 10 4 4 (F32.ofDyadic 6049395 21) TYPE_OVERLAY) with
        pos_x := F32.ofDyadic 8547 12, pos_y := F32.ofDyadic 12613 11 } 4 4 = false ∧
      (delta { afterLogic (freshState 10 10 4 4 (F32.ofDyadic 6049395 21) TYPE_OVERLAY) with
        pos_x := F32.ofDyadic 8547 12, pos_y := F32.ofDyadic 12613 11 } 4 4).lt
          (afterLogic (freshState 10 10 4 4 (F32.ofDyadic 6049395 21) TYPE_OVERLAY)).sight
        = true ∧
      (afterLogic { afterLogic (freshState 10 10 4 4 (F32.ofDyadic 6049395 21) TYPE_OVERLAY)
        with pos_x := F32.ofDyadic 8547 12, pos_y := F32.ofDyadic 12613 11 }).bounds
        = ⟨0, 1, 6, 10⟩ ∧
      getTile (afterLogic { afterLogic (freshState 10 10 4 4 (F32.ofDyadic 6049395 21)
        TYPE_OVERLAY) with
          pos_x := F32.ofDyadic 8547 12, pos_y := F32.ofDyadic 12613 11 }).layer 4 4
        = some TILE_SIGHT := by decide!
  obtain ⟨h1, h2, h3, h4, h5, h6⟩ := h
  obtain ⟨g1, g2, g3, g4, g5, g6, g7⟩ := g
  refine ⟨⟨_, _, h1, h2, h3, ?_, h5, ?_, h6⟩, ⟨_, _, g1, g2, g3, ?_, g5, g6, g7, ?_⟩⟩
  · rw [← euclidLt_iff, h4]
    exact Bool.false_ne_true
  · rw [h5]
    exact fun h => absurd (Option.some.inj h) (by decide)
  · rw [← euclidLt_iff, g4]
    exact Bool.false_ne_true
  · rw [g7]
    exact fun h => absurd (Option.some.inj h) (by decide)

/-- C5 (amended). Starting from a well-formed map whose tiles are all `TILE_HIDDEN`, with
the conversions of `calcBoundaries` in the range of `short`, one ordinary update succeeds
and afterwards a tile of the map is `TILE_SIGHT` if and only if the distance `delta` that
`updateTiles` computes for it in single precision is below the radius, and every other
tile of the map is `TILE_HIDDEN` or `TILE_HIDDEN_BOUNDARY`; none is `TILE_VISITED`. -/
theorem fresh_map_update (s : State) (hwf : WellFormed s)
    (hfresh : ∀ x y t, getTile s.layer x y = some t → t = TILE_HIDDEN)
    (hcast : CastsInRange s) :
    ∃ s1, logic s = some s1 ∧ ∀ x y, inMap s x y →
      (getTile s1.layer x y = some TILE_SIGHT ↔ (delta s x y).lt s.sight = true) ∧
      ((delta s x y).lt s.sight = false → getTile s1.layer x y = some TILE_HIDDEN ∨
        getTile s1.layer x y = some TILE_HIDDEN_BOUNDARY) ∧
      getTile s1.layer x y ≠ some TILE_VISITED := by
  obtain ⟨m, s2, -, -, h3, -, -, -, -, hc, -, -⟩ := update_spec hwf TILE_SIGHT
  refine ⟨flushMinimap s2, logic_eq h3, ?_⟩
  intro x y hm
  obtain ⟨t, ht⟩ := inMap_getTile hwf hm
  have ht0 := hfresh x y t ht
  subst ht0
  rw [flushMinimap_layer, (hc x y _ ht).2]
  change (_ ↔ deltaLtSight s x y = true) ∧ (deltaLtSight s x y = false → _) ∧ _
  cases hd : deltaLtSight s x y with
  | true =>
    have hw := window_covers hcast hd (adjacent_self x y) hm
    simp [hw, distanceTile, boundaryTile]
  | false =>
    by_cases hw : inWindow (calcBoundaries s).bounds x y
    · by_cases hov : s.fogofwar = TYPE_OVERLAY
      · cases hasSeenNeighbour s m.layer x y <;> simp [hw, hov, distanceTile, boundaryTile]
      · simp [hw, hov, distanceTile]
    · simp [hw]

/-- Witness of `fresh_map_update`: the scenario of the spec, 10 x 10 map, observer at
(5, 5), radius 3. After the update (5, 5) is `TILE_SIGHT`, (5, 9) is `TILE_HIDDEN` and
(8, 5), whose computed distance is exactly 3, is `TILE_HIDDEN_BOUNDARY`. -/
theorem fresh_map_update_witness :
    (WellFormed (freshState 10 10 5 5 3 TYPE_OVERLAY) ∧
     (∀ x y t, getTile (freshState 10 10 5 5 3 TYPE_OVERLAY).layer x y = some t →
        t = TILE_HIDDEN) ∧
     CastsInRange (freshState 10 10 5 5 3 TYPE_OVERLAY)) ∧
    (∃ s1, logic (freshState 10 10 5 5 3 TYPE_OVERLAY) = some s1 ∧
      ∀ x y, inMap (freshState 10 10 5 5 3 TYPE_OVERLAY) x y →
        (getTile s1.layer x y = some TILE_SIGHT ↔
          (delta (freshState 10 10 5 5 3 TYPE_OVERLAY) x y).lt
            (freshState 10 10 5 5 3 TYPE_OVERLAY).sight = true) ∧
        ((delta (freshState 10 10 5 5 3 TYPE_OVERLAY) x y).lt
            (freshState 10 10 5 5 3 TYPE_OVERLAY).sight = false →
          getTile s1.layer x y = some TILE_HIDDEN ∨
          getTile s1.layer x y = some TILE_HIDDEN_BOUNDARY) ∧
        getTile s1.layer x y ≠ some TILE_VISITED) ∧
    (getTile (afterLogic (freshState 10 10 5 5 3 TYPE_OVERLAY)).layer 5 5 = some TILE_SIGHT ∧
     getTile (afterLogic (freshState 10 10 5 5 3 TYPE_OVERLAY)).layer 5 9 = some TILE_HIDDEN ∧
     delta (freshState 10 10 5 5 3 TYPE_OVERLAY) 8 5 = 3 ∧
     getTile (afterLogic (freshState 10 10 5 5 3 TYPE_OVERLAY)).layer 8 5
       = some TILE_HIDDEN_BOUNDARY) := by
  have hfresh : ∀ x y t, getTile (freshState 10 10 5 5 3 TYPE_OVERLAY).layer x y = some t →
      t = TILE_HIDDEN := fun x y t ht => getTile_fillLayer ht
  exact ⟨⟨by decide, hfresh, by decide!⟩,
    fresh_map_update _ (by decide) hfresh (by decide!), by decide!⟩

/-- C5 (counterexample). Two fresh maps on which the claim fails. On 10 x 10 tiles with
the observer at (2 ^ (-30), 2) and radius 3, the conversions in range, the tile (3, 2) is
at Euclidean distance 3 - 2 ^ (-30), below the radius, yet its computed distance is 3 and
after the update it is `TILE_HIDDEN_BOUNDARY`, not `TILE_SIGHT`. On 2 x 1 tiles with the
observer at (0, 0) and radius 65535, the sum 0 + 65535 + 2 = 65537 leaves the range of
`short`; converted to 16 bits it is 1, the window is [0, 1) x [0, 1), and the tile (1, 0),
at distance 1 from the observer, is still `TILE_HIDDEN`. -/
theorem fresh_map_in_range_not_sighted :
    (∃ s1, logic (freshState 10 10 (F32.ofDyadic 1 30) 2 3 TYPE_OVERLAY) = some s1 ∧
      CastsInRange (freshState 10 10 (F32.ofDyadic 1 30) 2 3 TYPE_OVERLAY) ∧
      inMap (freshState 10 10 (F32.ofDyadic 1 30) 2 3 TYPE_OVERLAY) 3 2 ∧
      EuclidLt (freshState 10 10 (F32.ofDyadic 1 30) 2 3 TYPE_OVERLAY) 3 2 ∧
      delta (freshState 10 10 (F32.ofDyadic 1 30) 2 3 TYPE_OVERLAY) 3 2 = 3 ∧
      getTile s1.layer 3 2 = some TILE_HIDDEN_BOUNDARY) ∧
    (∃ s1, logic (freshState 2 1 0 0 65535 TYPE_OVERLAY) = some s1 ∧
      ¬ CastsInRange (freshState 2 1 0 0 65535 TYPE_OVERLAY) ∧
      (((0 : F32).add 65535).add (F32.ofInt 2)).trunc = 65537 ∧
      s1.bounds = ⟨0, 0, 1, 1⟩ ∧
      inMap (freshState 2 1 0 0 65535 TYPE_OVERLAY) 1 0 ∧
      EuclidLt (freshState 2 1 0 0 65535 TYPE_OVERLAY) 1 0 ∧
      (delta (freshState 2 1 0 0 65535 TYPE_OVERLAY) 1 0).lt 65535 = true ∧
      getTile s1.layer 1 0 = some TILE_HIDDEN) := by
  have g : logic (freshState 10 10 (F32.ofDyadic 1 30) 2 3 TYPE_OVERLAY)
        = some (afterLogic (freshState 10 10 (F32.ofDyadic 1 30) 2 3 TYPE_OVERLAY)) ∧
      CastsInRange (freshState 10 10 (F32.ofDyadic 1 30) 2 3 TYPE_OVERLAY) ∧
      inMap (freshState 10 10 (F32.ofDyadic 1 30) 2 3 TYPE_OVERLAY) 3 2 ∧
      euclidLt (freshState 10 10 (F32.ofDyadic 1 30) 2 3 TYPE_OVERLAY) 3 2 = true ∧
      delta (freshState 10 10 (F32.ofDyadic 1 30) 2 3 TYPE_OVERLAY) 3 2 = 3 ∧
      getTile (afterLogic (freshState 10 10 (F32.ofDyadic 1 30) 2 3 TYPE_OVERLAY)).layer 3 2
        = some TILE_HIDDEN_BOUNDARY := by decide!
  have h : logic (freshState 2 1 0 0 65535 TYPE_OVERLAY)
        = some (afterLogic (freshState 2 1 0 0 65535 TYPE_OVERLAY)) ∧
      ¬ CastsInRange (freshState 2 1 0 0 65535 TYPE_OVERLAY) ∧
      (((0 : F32).add 65535).add (F32.ofInt 2)).trunc = 65537 ∧
      (afterLogic (freshState 2 1 0 0 65535 TYPE_OVERLAY)).bounds = ⟨0, 0, 1, 1⟩ ∧
      inMap (freshState 2 1 0 0 65535 TYPE_OVERLAY) 1 0 ∧
      euclidLt (freshState 2 1 0 0 65535 TYPE_OVERLAY) 1 0 = true ∧
      (delta (freshState 2 1 0 0 65535 TYPE_OVERLAY) 1 0).lt 65535 = true ∧
      getTile (afterLogic (freshState 2 1 0 0 65535 TYPE_OVERLAY)).layer 1 0
        = some TILE_HIDDEN := by decide!
  obtain ⟨g1, g2, g3, g4, g5, g6⟩ := g
  obtain ⟨h1, h2, h3, h4, h5, h6, h7, h8⟩ := h
  exact ⟨⟨_, g1, g2, g3, (euclidLt_iff _ _ _).mp g4, g5, g6⟩,
    ⟨_, h1, h2, h3, h4, h5, (euclidLt_iff _ _ _).mp h6, h7, h8⟩⟩

/-- C6 (amended). The relocation entry point: on a well-formed state with the conversions
of `calcBoundaries` in the range of `short`, `handleIntramapTeleport` succeeds; afterwards
every tile of the map whose distance to the observer as `updateTiles` computes it in
single precision is below the radius is `TILE_VISITED`, and no tile of the update window
is `TILE_SIGHT`. -/
theorem teleport_marks_visited (s : State) (hwf : WellFormed s) (hcast : CastsInRange s) :
    ∃ s1, handleIntramapTeleport s = some s1 ∧
      (∀ x y, inMap s x y → (delta s x y).lt s.sight = true →
        getTile s1.layer x y = some TILE_VISITED) ∧
      (∀ x y, inWindow s1.bounds x y → getTile s1.layer x y ≠ some TILE_SIGHT) := by
  obtain ⟨m, s2, -, -, h3, -, f2, -, d2, hc, -, -⟩ := update_spec hwf TILE_VISITED
  have hbnd : (flushMinimap s2).bounds = (calcBoundaries s).bounds := by
    rw [flushMinimap_bounds]; exact f2.2.2.2.2.2.2.1
  refine ⟨flushMinimap s2, handleIntramapTeleport_eq h3, ?_, ?_⟩
  · intro x y hm hd
    change deltaLtSight s x y = true at hd
    obtain ⟨t, ht⟩ := inMap_getTile hwf hm
    have hw := window_covers hcast hd (adjacent_self x y) hm
    rw [flushMinimap_layer, (hc x y t ht).2, hd]
    simp [hw, distanceTile, boundaryTile]
  · intro x y hw
    rw [hbnd] at hw
    rw [flushMinimap_layer]
    cases ht : getTile s.layer x y with
    | none =>
      rw [getTile_none_of_dims hwf d2 ht]
      exact fun h => absurd h (by simp)
    | some t =>
      rw [(hc x y t ht).2]
      simp only [hw, and_true, if_true, ne_eq, Option.some_inj]
      by_cases hov : s.fogofwar = TYPE_OVERLAY <;>
        cases hd : deltaLtSight s x y <;> cases t <;>
        cases hasSeenNeighbour s m.layer x y <;>
        simp [hov, distanceTile, boundaryTile]

/-- Witness of `teleport_marks_visited`: the scenario of the spec, a 10 x 10 map on which
the observer, first updated at (0, 0), is teleported to (9, 9) with radius 2. -/
theorem teleport_marks_visited_witness :
    (WellFormed { afterLogic (freshState 10 10 0 0 2 TYPE_OVERLAY) with pos_x := 9, pos_y := 9 } ∧
     CastsInRange { afterLogic (freshState 10 10 0 0 2 TYPE_OVERLAY) with
       pos_x := 9, pos_y := 9 }) ∧
    ∃ s1, handleIntramapTeleport { afterLogic (freshState 10 10 0 0 2 TYPE_OVERLAY) with
        pos_x := 9, pos_y := 9 } = some s1 ∧
      (∀ x y, inMap { afterLogic (freshState 10 10 0 0 2 TYPE_OVERLAY) with
          pos_x := 9, pos_y := 9 } x y →
        (delta { afterLogic (freshState 10 10 0 0 2 TYPE_OVERLAY) with
          pos_x := 9, pos_y := 9 } x y).lt
            (afterLogic (freshState 10 10 0 0 2 TYPE_OVERLAY)).sight = true →
        getTile s1.layer x y = some TILE_VISITED) ∧
      (∀ x y, inWindow s1.bounds x y → getTile s1.layer x y ≠ some TILE_SIGHT) :=
  have h : WellFormed { afterLogic (freshState 10 10 0 0 2 TYPE_OVERLAY) with
        pos_x := 9, pos_y := 9 } ∧
      CastsInRange { afterLogic (freshState 10 10 0 0 2 TYPE_OVERLAY) with
        pos_x := 9, pos_y := 9 } := by decide!
  ⟨h, teleport_marks_visited _ h.1 h.2⟩

/-- C6 (counterexample). Two teleports on which the claim fails. On a fresh map of
10 x 10 tiles, teleport to (2 ^ (-30), 2) with radius 3, the conversions in range: the
tile (3, 2) is at Euclidean distance 3 - 2 ^ (-30), below the radius, yet its computed
distance is 3 and after the call it is `TILE_HIDDEN_BOUNDARY`, not `TILE_VISITED`. On a
fresh map of 2 x 1 tiles, teleport to (0, 0) with radius 65535: the sum 65537 leaves the
range of `short`, the window is [0, 1) x [0, 1), and the tile (1, 0), at distance 1, is
still `TILE_HIDDEN`. -/
theorem teleport_in_range_not_visited :
    (∃ s1, handleIntramapTeleport (freshState 10 10 (F32.ofDyadic 1 30) 2 3 TYPE_OVERLAY)
        = some s1 ∧
      CastsInRange (freshState 10 10 (F32.ofDyadic 1 30) 2 3 TYPE_OVERLAY) ∧
      inMap (freshState 10 10 (F32.ofDyadic 1 30) 2 3 TYPE_OVERLAY) 3 2 ∧
      EuclidLt (freshState 10 10 (F32.ofDyadic 1 30) 2 3 TYPE_OVERLAY) 3 2 ∧
      delta (freshState 10 10 (F32.ofDyadic 1 30) 2 3 TYPE_OVERLAY) 3 2 = 3 ∧
      getTile s1.layer 3 2 = some TILE_HIDDEN_BOUNDARY) ∧
    (∃ s1, handleIntramapTeleport (freshState 2 1 0 0 65535 TYPE_OVERLAY) = some s1 ∧
      ¬ CastsInRange (freshState 2 1 0 0 65535 TYPE_OVERLAY) ∧
      s1.bounds = ⟨0, 0, 1, 1⟩ ∧
      inMap (freshState 2 1 0 0 65535 TYPE_OVERLAY) 1 0 ∧
      EuclidLt (freshState 2 1 0 0 65535 TYPE_OVERLAY) 1 0 ∧
      (delta (freshState 2 1 0 0 65535 TYPE_OVERLAY) 1 0).lt 65535 = true ∧
      getTile s1.layer 1 0 = some TILE_HIDDEN) := by
  have g : ∃ s1, handleIntramapTeleport (freshState 10 10 (F32.ofDyadic 1 30) 2 3 TYPE_OVERLAY)
        = some s1 ∧
      CastsInRange (freshState 10 10 (F32.ofDyadic 1 30) 2 3 TYPE_OVERLAY) ∧
      inMap (freshState 10 10 (F32.ofDyadic 1 30) 2 3 TYPE_OVERLAY) 3 2 ∧
      euclidLt (freshState 10 10 (F32.ofDyadic 1 30) 2 3 TYPE_OVERLAY) 3 2 = true ∧
      delta (freshState 10 10 (F32.ofDyadic 1 30) 2 3 TYPE_OVERLAY) 3 2 = 3 ∧
      getTile s1.layer 3 2 = some TILE_HIDDEN_BOUNDARY := by decide!
  have h : ∃ s1, handleIntramapTeleport (freshState 2 1 0 0 65535 TYPE_OVERLAY) = some s1 ∧
      ¬ CastsInRange (freshState 2 1 0 0 65535 TYPE_OVERLAY) ∧
      s1.bounds = ⟨0, 0, 1, 1⟩ ∧
      inMap (freshState 2 1 0 0 65535 TYPE_OVERLAY) 1 0 ∧
      euclidLt (freshState 2 1 0 0 65535 TYPE_OVERLAY) 1 0 = true ∧
      (delta (freshState 2 1 0 0 65535 TYPE_OVERLAY) 1 0).lt 65535 = true ∧
      getTile s1.layer 1 0 = some TILE_HIDDEN := by decide!
  obtain ⟨s1, g1, g2, g3, g4, g5, g6⟩ := g
  obtain ⟨s2, h1, h2, h3, h4, h5, h6, h7⟩ := h
  exact ⟨⟨s1, g1, g2, g3, (euclidLt_iff _ _ _).mp g4, g5, g6⟩,
    ⟨s2, h1, h2, h3, h4, (euclidLt_iff _ _ _).mp h5, h6, h7⟩⟩

theorem raisesFlag_iff (t v : Tile) :
    raisesFlag t v = true ↔ (t = TILE_HIDDEN ∨ t = TILE_HIDDEN_BOUNDARY) ∧ v ≠ t := by
  cases t <;> cases v <;> simp [raisesFlag]

/-- C7. Boundary derivation in `updateTiles`, on a well-formed state whose window lies in
the map, for either target state: both passes succeed, and a tile of the window that is
`TILE_HIDDEN` after the distance pass is `TILE_HIDDEN_BOUNDARY` at the end when the mode is
`TYPE_OVERLAY` and one of its eight neighbours inside the map is `TILE_SIGHT` or
`TILE_VISITED`; otherwise it is still `TILE_HIDDEN`. -/
theorem boundary_derivation (s : State) (hwf : WellFormed s) (hb : BoundsInMap s) (st : Tile) :
    ∃ s1 s2, distancePass st s = some s1 ∧ boundaryPass s1 = some s2 ∧
      updateTiles st s = some s2 ∧
      ∀ x y, inWindow s.bounds x y → getTile s1.layer x y = some TILE_HIDDEN →
        ((s.fogofwar = TYPE_OVERLAY ∧
            ∃ i j t, Adjacent x y i j ∧ (i, j) ≠ (x, y) ∧ inMap s i j ∧
              getTile s1.layer i j = some t ∧ (t = TILE_SIGHT ∨ t = TILE_VISITED)) →
          getTile s2.layer x y = some TILE_HIDDEN_BOUNDARY) ∧
        (¬ (s.fogofwar = TYPE_OVERLAY ∧
            ∃ i j t, Adjacent x y i j ∧ (i, j) ≠ (x, y) ∧ inMap s i j ∧
              getTile s1.layer i j = some t ∧ (t = TILE_SIGHT ∨ t = TILE_VISITED)) →
          getTile s2.layer x y = some TILE_HIDDEN) := by
  obtain ⟨s1, s2, h1, h2, h3, -, -, -, -, -, c2, -, -⟩ := updateTiles_spec hwf hb st
  refine ⟨s1, s2, h1, h2, h3, ?_⟩
  intro x y hw hhid
  have hnb : hasSeenNeighbour s s1.layer x y = true ↔
      ∃ i j t, Adjacent x y i j ∧ (i, j) ≠ (x, y) ∧ inMap s i j ∧
        getTile s1.layer i j = some t ∧ (t = TILE_SIGHT ∨ t = TILE_VISITED) := by
    rw [hasSeenNeighbour_iff]
    unfold SeenNeighbour
    constructor
    · rintro ⟨i, j, t, hadj, hin, ht, hs⟩
      refine ⟨i, j, t, hadj, ?_, hin, ht, (seen_iff t).mp hs⟩
      intro hij
      obtain ⟨rfl, rfl⟩ := Prod.mk.inj hij
      rw [hhid] at ht
      rw [← Option.some.inj ht] at hs
      exact absurd hs (by decide)
    · rintro ⟨i, j, t, hadj, -, hin, ht, hs⟩
      exact ⟨i, j, t, hadj, hin, ht, (seen_iff t).mpr hs⟩
  have e := c2 x y
  rw [hhid] at e
  simp only [Option.map_some', hw, and_true] at e
  rw [e]
  constructor
  · rintro ⟨hov, hex⟩
    rw [if_pos hov, hnb.mpr hex]
    rfl
  · intro hno
    by_cases hov : s.fogofwar = TYPE_OVERLAY
    · have : hasSeenNeighbour s s1.layer x y = false := by
        rw [← Bool.not_eq_true, hnb]
        exact fun hex => hno ⟨hov, hex⟩
      rw [if_pos hov, this]
      rfl
    · rw [if_neg hov]

/-- Witness of `boundary_derivation`: the fresh 10 x 10 map in overlay mode with the
window of an observer at (5, 5) with radius 3, target state `TILE_SIGHT`. -/
theorem boundary_derivation_witness :
    (WellFormed (calcBoundaries (freshState 10 10 5 5 3 TYPE_OVERLAY)) ∧
     BoundsInMap (calcBoundaries (freshState 10 10 5 5 3 TYPE_OVERLAY))) ∧
    ∃ s1 s2, distancePass TILE_SIGHT (calcBoundaries (freshState 10 10 5 5 3 TYPE_OVERLAY))
        = some s1 ∧ boundaryPass s1 = some s2 ∧
      updateTiles TILE_SIGHT (calcBoundaries (freshState 10 10 5 5 3 TYPE_OVERLAY)) = some s2 ∧
      ∀ x y, inWindow (calcBoundaries (freshState 10 10 5 5 3 TYPE_OVERLAY)).bounds x y →
        getTile s1.layer x y = some TILE_HIDDEN →
        (((calcBoundaries (freshState 10 10 5 5 3 TYPE_OVERLAY)).fogofwar = TYPE_OVERLAY ∧
            ∃ i j t, Adjacent x y i j ∧ (i, j) ≠ (x, y) ∧
              inMap (calcBoundaries (freshState 10 10 5 5 3 TYPE_OVERLAY)) i j ∧
              getTile s1.layer i j = some t ∧ (t = TILE_SIGHT ∨ t = TILE_VISITED)) →
          getTile s2.layer x y = some TILE_HIDDEN_BOUNDARY) ∧
        (¬ ((calcBoundaries (freshState 10 10 5 5 3 TYPE_OVERLAY)).fogofwar = TYPE_OVERLAY ∧
            ∃ i j t, Adjacent x y i j ∧ (i, j) ≠ (x, y) ∧
              inMap (calcBoundaries (freshState 10 10 5 5 3 TYPE_OVERLAY)) i j ∧
              getTile s1.layer i j = some t ∧ (t = TILE_SIGHT ∨ t = TILE_VISITED)) →
          getTile s2.layer x y = some TILE_HIDDEN) :=
  have h : WellFormed (calcBoundaries (freshState 10 10 5 5 3 TYPE_OVERLAY)) ∧
      BoundsInMap (calcBoundaries (freshState 10 10 5 5 3 TYPE_OVERLAY)) := by decide!
  ⟨h, boundary_derivation _ h.1 h.2 TILE_SIGHT⟩

/-- C9. Index safety: on a well-formed state, where a lookup `layers[layer_id][a][b]`
succeeds exactly when `0 <= a < w` and `0 <= b < h`, both passes of `updateTiles` after
`calcBoundaries` succeed for either target state, and so do `logic` and
`handleIntramapTeleport`: no read or write of the update, the reads of the eight
neighbours included, falls outside the layer. No assumption on the observer position or
on the radius is needed. -/
theorem update_index_safe (s : State) (hwf : WellFormed s) :
    (∀ a b, (getTile s.layer a b).isSome = true ↔ inMap s a b) ∧
    (∀ st, ∃ s1 s2, distancePass st (calcBoundaries s) = some s1 ∧
      boundaryPass s1 = some s2 ∧ updateTiles st (calcBoundaries s) = some s2) ∧
    (∃ s1, logic s = some s1) ∧ (∃ s1, handleIntramapTeleport s = some s1) := by
  refine ⟨fun a b => getTile_isSome_iff hwf a b, ?_, ?_, ?_⟩
  · intro st
    obtain ⟨s1, s2, h1, h2, h3, -⟩ := update_spec hwf st
    exact ⟨s1, s2, h1, h2, h3⟩
  · obtain ⟨s1, s2, -, -, h3, -⟩ := update_spec hwf TILE_SIGHT
    exact ⟨_, logic_eq h3⟩
  · obtain ⟨s1, s2, -, -, h3, -⟩ := update_spec hwf TILE_VISITED
    exact ⟨_, handleIntramapTeleport_eq h3⟩

/-- Witness of `update_index_safe`: an observer in the corner (9, 9) of the 10 x 10 map
with radius 3, whose neighbourhood reaches beyond the map. -/
theorem update_index_safe_witness :
    WellFormed (freshState 10 10 9 9 3 TYPE_OVERLAY) ∧
    ((∀ a b, (getTile (freshState 10 10 9 9 3 TYPE_OVERLAY).layer a b).isSome = true ↔
        inMap (freshState 10 10 9 9 3 TYPE_OVERLAY) a b) ∧
     (∀ st, ∃ s1 s2, distancePass st (calcBoundaries (freshState 10 10 9 9 3 TYPE_OVERLAY))
        = some s1 ∧ boundaryPass s1 = some s2 ∧
        updateTiles st (calcBoundaries (freshState 10 10 9 9 3 TYPE_OVERLAY)) = some s2) ∧
     (∃ s1, logic (freshState 10 10 9 9 3 TYPE_OVERLAY) = some s1) ∧
     (∃ s1, handleIntramapTeleport (freshState 10 10 9 9 3 TYPE_OVERLAY) = some s1)) :=
  ⟨by decide, update_index_safe _ (by decide)⟩

/-- C10. The dirty flag rule of `updateTiles`, on a well-formed state whose window lies
in the map, for either target state: at the end `update_minimap` is true if and only if
it was true on entry or some tile of the window was `TILE_HIDDEN` or
`TILE_HIDDEN_BOUNDARY` before the call and has another state after the distance pass. The
boundary pass leaves the flag as the distance pass left it, and the flag is never
cleared. -/
theorem dirty_flag_rule (s : State) (hwf : WellFormed s) (hb : BoundsInMap s) (st : Tile) :
    ∃ s1 s2, distancePass st s = some s1 ∧ boundaryPass s1 = some s2 ∧
      updateTiles st s = some s2 ∧
      (s2.update_minimap = true ↔ s.update_minimap = true ∨
        ∃ x y t t1, inWindow s.bounds x y ∧ getTile s.layer x y = some t ∧
          (t = TILE_HIDDEN ∨ t = TILE_HIDDEN_BOUNDARY) ∧
          getTile s1.layer x y = some t1 ∧ t1 ≠ t) ∧
      s2.update_minimap = s1.update_minimap ∧
      (s.update_minimap = true → s2.update_minimap = true) := by
  obtain ⟨s1, s2, h1, h2, h3, -, -, -, -, c1, -, g1, g2⟩ := updateTiles_spec hwf hb st
  have key : s2.update_minimap = true ↔ s.update_minimap = true ∨
      ∃ x y t t1, inWindow s.bounds x y ∧ getTile s.layer x y = some t ∧
        (t = TILE_HIDDEN ∨ t = TILE_HIDDEN_BOUNDARY) ∧
        getTile s1.layer x y = some t1 ∧ t1 ≠ t := by
    rw [g2, g1]
    constructor
    · rintro (h | ⟨a, b, t, hw, ht, hr⟩)
      · exact Or.inl h
      · rw [raisesFlag_iff] at hr
        refine Or.inr ⟨a, b, t, _, hw, ht, hr.1, ?_, hr.2⟩
        rw [c1, ht]
        simp [hw]
    · rintro (h | ⟨a, b, t, t1, hw, ht, hh, ht1, hne⟩)
      · exact Or.inl h
      · refine Or.inr ⟨a, b, t, hw, ht, ?_⟩
        rw [raisesFlag_iff]
        refine ⟨hh, ?_⟩
        have e := c1 a b
        rw [ht, ht1] at e
        simp only [Option.map_some', hw, if_true, Option.some_inj] at e
        rw [← e]
        exact hne
  exact ⟨s1, s2, h1, h2, h3, key, g2, fun h => key.mpr (Or.inl h)⟩

/-- Witness of `dirty_flag_rule`: the state after one update of the fresh 10 x 10 map
at (5, 5) with radius 3, flag down, with the window of an observer moved to (6, 5). -/
theorem dirty_flag_rule_witness :
    (WellFormed (calcBoundaries { afterLogic (freshState 10 10 5 5 3 TYPE_OVERLAY) with
        pos_x := 6 }) ∧
     BoundsInMap (calcBoundaries { afterLogic (freshState 10 10 5 5 3 TYPE_OVERLAY) with
        pos_x := 6 })) ∧
    ∃ s1 s2, distancePass TILE_SIGHT (calcBoundaries
          { afterLogic (freshState 10 10 5 5 3 TYPE_OVERLAY) with pos_x := 6 }) = some s1 ∧
      boundaryPass s1 = some s2 ∧
      updateTiles TILE_SIGHT (calcBoundaries
          { afterLogic (freshState 10 10 5 5 3 TYPE_OVERLAY) with pos_x := 6 }) = some s2 ∧
      (s2.update_minimap = true ↔
        (calcBoundaries { afterLogic (freshState 10 10 5 5 3 TYPE_OVERLAY) with
          pos_x := 6 }).update_minimap = true ∨
        ∃ x y t t1,
          inWindow (calcBoundaries { afterLogic (freshState 10 10 5 5 3 TYPE_OVERLAY) with
            pos_x := 6 }).bounds x y ∧
          getTile (calcBoundaries { afterLogic (freshState 10 10 5 5 3 TYPE_OVERLAY) with
            pos_x := 6 }).layer x y = some t ∧
          (t = TILE_HIDDEN ∨ t = TILE_HIDDEN_BOUNDARY) ∧
          getTile s1.layer x y = some t1 ∧ t1 ≠ t) ∧
      s2.update_minimap = s1.update_minimap ∧
      ((calcBoundaries { afterLogic (freshState 10 10 5 5 3 TYPE_OVERLAY) with
          pos_x := 6 }).update_minimap = true → s2.update_minimap = true) :=
  have h : WellFormed (calcBoundaries { afterLogic (freshState 10 10 5 5 3 TYPE_OVERLAY) with
        pos_x := 6 }) ∧
      BoundsInMap (calcBoundaries { afterLogic (freshState 10 10 5 5 3 TYPE_OVERLAY) with
        pos_x := 6 }) := by decide!
  ⟨h, dirty_flag_rule _ h.1 h.2 TILE_SIGHT⟩

/-! ## The colour query -/

/-- C17. The fog classification query: for every tile `(x, y)` of the map of a
well-formed state, `getTileColorMod` succeeds and returns `color_visited` when the tile is
`TILE_VISITED` or `TILE_HIDDEN_BOUNDARY`, `color_hidden` when it is `TILE_HIDDEN`, and
`color_sight` in the remaining case, `TILE_SIGHT`; two tiles of which one is
`TILE_VISITED` and the other `TILE_HIDDEN_BOUNDARY` get the same answer. -/
theorem getTileColorMod_classifies (c : FogColors) (s : State) (hwf : WellFormed s)
    (x y : Int) (hm : inMap s x y) :
    (∃ t, getTile s.layer x y = some t ∧
      getTileColorMod c s x y = some
        (if t = TILE_VISITED ∨ t = TILE_HIDDEN_BOUNDARY then c.color_visited
         else if t = TILE_HIDDEN then c.color_hidden else c.color_sight) ∧
      (t = TILE_SIGHT → getTileColorMod c s x y = some c.color_sight) ∧
      (t = TILE_VISITED → getTileColorMod c s x y = some c.color_visited) ∧
      (t = TILE_HIDDEN → getTileColorMod c s x y = some c.color_hidden) ∧
      (t = TILE_HIDDEN_BOUNDARY → getTileColorMod c s x y = some c.color_visited)) ∧
    (∀ i j, getTile s.layer x y = some TILE_VISITED →
      getTile s.layer i j = some TILE_HIDDEN_BOUNDARY →
      getTileColorMod c s x y = getTileColorMod c s i j) := by
  obtain ⟨t, ht⟩ := inMap_getTile hwf hm
  constructor
  · refine ⟨t, ht, ?_, ?_, ?_, ?_, ?_⟩
    · unfold getTileColorMod
      rw [ht]
      cases t <;> rfl
    all_goals
      intro h
      subst h
      unfold getTileColorMod
      rw [ht]
      rfl
  · intro i j h1 h2
    unfold getTileColorMod
    rw [h1, h2]
    rfl

/-- Witness of `getTileColorMod_classifies`: the tile (8, 5), `TILE_HIDDEN_BOUNDARY`
after one update of the fresh 10 x 10 map at (5, 5) with radius 3. -/
theorem getTileColorMod_classifies_witness :
    (WellFormed (afterLogic (freshState 10 10 5 5 3 TYPE_OVERLAY)) ∧
     inMap (afterLogic (freshState 10 10 5 5 3 TYPE_OVERLAY)) 8 5) ∧
    ((∃ t, getTile (afterLogic (freshState 10 10 5 5 3 TYPE_OVERLAY)).layer 8 5 = some t ∧
      getTileColorMod ⟨⟨255, 255, 255, 255⟩, ⟨128, 128, 128, 255⟩, ⟨0, 0, 0, 255⟩⟩
          (afterLogic (freshState 10 10 5 5 3 TYPE_OVERLAY)) 8 5 = some
        (if t = TILE_VISITED ∨ t = TILE_HIDDEN_BOUNDARY then
          (⟨⟨255, 255, 255, 255⟩, ⟨128, 128, 128, 255⟩, ⟨0, 0, 0, 255⟩⟩ : FogColors).color_visited
         else if t = TILE_HIDDEN then
          (⟨⟨255, 255, 255, 255⟩, ⟨128, 128, 128, 255⟩, ⟨0, 0, 0, 255⟩⟩ : FogColors).color_hidden
         else
          (⟨⟨255, 255, 255, 255⟩, ⟨128, 128, 128, 255⟩, ⟨0, 0, 0, 255⟩⟩ : FogColors).color_sight) ∧
      (t = TILE_SIGHT → getTileColorMod
          ⟨⟨255, 255, 255, 255⟩, ⟨128, 128, 128, 255⟩, ⟨0, 0, 0, 255⟩⟩
          (afterLogic (freshState 10 10 5 5 3 TYPE_OVERLAY)) 8 5 = some ⟨255, 255, 255, 255⟩) ∧
      (t = TILE_VISITED → getTileColorMod
          ⟨⟨255, 255, 255, 255⟩, ⟨128, 128, 128, 255⟩, ⟨0, 0, 0, 255⟩⟩
          (afterLogic (freshState 10 10 5 5 3 TYPE_OVERLAY)) 8 5 = some ⟨128, 128, 128, 255⟩) ∧
      (t = TILE_HIDDEN → getTileColorMod
          ⟨⟨255, 255, 255, 255⟩, ⟨128, 128, 128, 255⟩, ⟨0, 0, 0, 255⟩⟩
          (afterLogic (freshState 10 10 5 5 3 TYPE_OVERLAY)) 8 5 = some ⟨0, 0, 0, 255⟩) ∧
      (t = TILE_HIDDEN_BOUNDARY → getTileColorMod
          ⟨⟨255, 255, 255, 255⟩, ⟨128, 128, 128, 255⟩, ⟨0, 0, 0, 255⟩⟩
          (afterLogic (freshState 10 10 5 5 3 TYPE_OVERLAY)) 8 5 = some ⟨128, 128, 128, 255⟩)) ∧
    (∀ i j, getTile (afterLogic (freshState 10 10 5 5 3 TYPE_OVERLAY)).layer 8 5
        = some TILE_VISITED →
      getTile (afterLogic (freshState 10 10 5 5 3 TYPE_OVERLAY)).layer i j
        = some TILE_HIDDEN_BOUNDARY →
      getTileColorMod ⟨⟨255, 255, 255, 255⟩, ⟨128, 128, 128, 255⟩, ⟨0, 0, 0, 255⟩⟩
          (afterLogic (freshState 10 10 5 5 3 TYPE_OVERLAY)) 8 5
        = getTileColorMod ⟨⟨255, 255, 255, 255⟩, ⟨128, 128, 128, 255⟩, ⟨0, 0, 0, 255⟩⟩
          (afterLogic (freshState 10 10 5 5 3 TYPE_OVERLAY)) i j)) :=
  have h : WellFormed (afterLogic (freshState 10 10 5 5 3 TYPE_OVERLAY)) ∧
      inMap (afterLogic (freshState 10 10 5 5 3 TYPE_OVERLAY)) 8 5 := by decide!
  ⟨h, getTileColorMod_classifies _ _ h.1 8 5 h.2⟩

/-! ## Sequences of updates -/

/-- Either entry point on a well-formed state, with the target state `st`: the update
succeeds, keeps the map, the observer and the mode, and every tile is described from its
state `t` at entry; `m` is the layer after the distance pass. -/
theorem entry_spec {s : State} (hwf : WellFormed s) (st : Tile) :
    ∃ m s1, (updateTiles st (calcBoundaries s)).map flushMinimap = some s1 ∧
      WellFormed s1 ∧ s1.w = s.w ∧ s1.h = s.h ∧ s1.pos_x = s.pos_x ∧ s1.pos_y = s.pos_y ∧
      s1.sight = s.sight ∧ s1.fogofwar = s.fogofwar ∧ LayerDims m s.w s.h ∧
      ∀ x y t, getTile s.layer x y = some t →
        getTile m x y = some
          (if inWindow (calcBoundaries s).bounds x y then
            distanceTile (deltaLtSight s x y) st t else t) ∧
        getTile s1.layer x y = some
          (if s.fogofwar = TYPE_OVERLAY ∧ inWindow (calcBoundaries s).bounds x y then
            boundaryTile (hasSeenNeighbour s m x y)
              (if inWindow (calcBoundaries s).bounds x y then
                distanceTile (deltaLtSight s x y) st t else t)
          else
            (if inWindow (calcBoundaries s).bounds x y then
              distanceTile (deltaLtSight s x y) st t else t)) := by
  obtain ⟨s1, s2, -, -, h3, -, f2, d1, d2, hc, -, -⟩ := update_spec hwf st
  have hw : (flushMinimap s2).w = s.w := by
    unfold flushMinimap; split <;> exact f2.1
  have hh : (flushMinimap s2).h = s.h := by
    unfold flushMinimap; split <;> exact f2.2.1
  have hx : (flushMinimap s2).pos_x = s.pos_x := by
    unfold flushMinimap; split <;> exact f2.2.2.1
  have hy : (flushMinimap s2).pos_y = s.pos_y := by
    unfold flushMinimap; split <;> exact f2.2.2.2.1
  have hr : (flushMinimap s2).sight = s.sight := by
    unfold flushMinimap; split <;> exact f2.2.2.2.2.1
  have hf : (flushMinimap s2).fogofwar = s.fogofwar := by
    unfold flushMinimap; split <;> exact f2.2.2.2.2.2.1
  refine ⟨s1.layer, flushMinimap s2, by rw [h3]; rfl, ?_, hw, hh, hx, hy, hr, hf, d1, ?_⟩
  · unfold WellFormed
    rw [flushMinimap_layer, hw, hh]
    exact d2
  · intro x y t ht
    rw [flushMinimap_layer]
    exact hc x y t ht

/-- Window coverage after a move of at most one tile: a tile of the map that passes the
distance test at the position of `s` is a tile of the window computed at `p`. -/
theorem window_covers_near {s : State} {p : F32 × F32} (hc0 : CastsInRange s)
    (hc : CastsInRange (moveTo s p))
    (hn : Near (s.pos_x, s.pos_y) p) {x y : Int} (hd : deltaLtSight s x y = true)
    (hin : inMap s x y) : inWindow (calcBoundaries (moveTo s p)).bounds x y := by
  obtain ⟨-, h1, h2⟩ := deltaLtSight_axes hc0 hd
  obtain ⟨n1, n2⟩ := hn
  simp only at n1 n2
  rw [abs_le] at n1 n2
  rw [abs_lt] at h1 h2
  have hin1 : inMap (moveTo s p) x y := hin
  apply window_of_axes hc hin1 1 (by norm_num) le_rfl
  · rw [abs_lt]
    simp only [moveTo]
    constructor <;> linarith
  · rw [abs_lt]
    simp only [moveTo]
    constructor <;> linarith

/-- One ordinary update on a state all of whose `TILE_SIGHT` tiles lie in the new
window: afterwards the `TILE_SIGHT` tiles of the map are exactly the tiles in range. -/
theorem logic_tracks {s : State} (hwf : WellFormed s) (hc : CastsInRange s)
    (hI : ∀ x y, inMap s x y → getTile s.layer x y = some TILE_SIGHT →
      inWindow (calcBoundaries s).bounds x y) :
    ∃ s1, logic s = some s1 ∧ WellFormed s1 ∧ s1.w = s.w ∧ s1.h = s.h ∧
      s1.pos_x = s.pos_x ∧ s1.pos_y = s.pos_y ∧ s1.sight = s.sight ∧
      ∀ x y, inMap s x y →
        (getTile s1.layer x y = some TILE_SIGHT ↔ deltaLtSight s x y = true) := by
  obtain ⟨m, s1, h1, hwf1, hw, hh, hx, hy, hr, -, -, hcell⟩ := entry_spec hwf TILE_SIGHT
  refine ⟨s1, h1, hwf1, hw, hh, hx, hy, hr, ?_⟩
  intro x y hm
  obtain ⟨t, ht⟩ := inMap_getTile hwf hm
  rw [(hcell x y t ht).2]
  by_cases hwin : inWindow (calcBoundaries s).bounds x y
  · simp only [hwin, and_true, if_true]
    split
    · rw [Option.some_inj, boundaryTile_eq_sight_iff, distanceTile_sight_iff]
    · rw [Option.some_inj, distanceTile_sight_iff]
  · simp only [hwin, and_false, if_false, Option.some_inj]
    constructor
    · intro h
      rw [h] at ht
      exact absurd (hI x y hm ht) hwin
    · intro h
      exact absurd (window_covers hc h (adjacent_self x y) hm) hwin

theorem castsInRange_env {s s1 : State} (hx : s1.pos_x = s.pos_x) (hy : s1.pos_y = s.pos_y)
    (hr : s1.sight = s.sight) (h : CastsInRange s) : CastsInRange s1 := by
  unfold CastsInRange at h ⊢
  rw [hx, hy, hr]
  exact h

theorem inMap_env {s s1 : State} (hw : s1.w = s.w) (hh : s1.h = s.h) (x y : Int) :
    inMap s1 x y ↔ inMap s x y := by
  unfold inMap
  rw [hw, hh]

/-- The frame loop from a state whose `TILE_SIGHT` tiles are the tiles in range of its
observer: after a non-empty chain of moves of at most one tile, each followed by
`logic`, the `TILE_SIGHT` tiles are the tiles in range of the last position. -/
theorem track_chain (ps : List (F32 × F32)) :
    ∀ (s : State) (p : F32 × F32), WellFormed s →
      (∀ x y, inMap s x y → getTile s.layer x y = some TILE_SIGHT →
        inWindow (calcBoundaries (moveTo s p)).bounds x y) →
      List.Chain Near p ps → (∀ q ∈ p :: ps, CastsInRange (moveTo s q)) →
      ∃ s1, track s (p :: ps) = some s1 ∧
        ∀ x y, inMap s x y →
          (getTile s1.layer x y = some TILE_SIGHT ↔
            deltaLtSight (moveTo s ((p :: ps).getLast (List.cons_ne_nil p ps))) x y = true) := by
  induction ps with
  | nil =>
    intro s p hwf hI _ hc
    obtain ⟨s1, h1, -, -, -, -, -, -, hk⟩ :=
      logic_tracks (s := moveTo s p) hwf (hc p (List.mem_cons_self p [])) hI
    refine ⟨s1, ?_, hk⟩
    unfold track
    rw [List.foldlM_cons, h1]
    rfl
  | cons q ps ih =>
    intro s p hwf hI hch hc
    obtain ⟨s1, h1, hwf1, hw, hh, hx, hy, hr, hk⟩ :=
      logic_tracks (s := moveTo s p) hwf (hc p (List.mem_cons_self p _)) hI
    rw [List.chain_cons] at hch
    have hc1 : ∀ r ∈ q :: ps, CastsInRange (moveTo s1 r) := by
      intro r hr'
      exact castsInRange_env (s := moveTo s r) rfl rfl hr (hc r (List.mem_cons_of_mem p hr'))
    have hI1 : ∀ x y, inMap s1 x y → getTile s1.layer x y = some TILE_SIGHT →
        inWindow (calcBoundaries (moveTo s1 q)).bounds x y := by
      intro x y hm hs
      have hm0 : inMap (moveTo s p) x y := (inMap_env hw hh x y).mp hm
      have hd : deltaLtSight s1 x y = true := by
        rw [deltaLtSight_env hx hy hr]
        exact (hk x y hm0).mp hs
      have hnear : Near (s1.pos_x, s1.pos_y) q := by
        rw [hx, hy]
        exact hch.1
      have hc0 : CastsInRange s1 :=
        castsInRange_env (s := moveTo s p) hx hy hr (hc p (List.mem_cons_self p _))
      exact window_covers_near hc0 (hc1 q (List.mem_cons_self q ps)) hnear hd hm
    obtain ⟨s2, h2, hk2⟩ := ih s1 q hwf1 hI1 hch.2 hc1
    refine ⟨s2, ?_, ?_⟩
    · unfold track at h2 ⊢
      rw [List.foldlM_cons, h1]
      exact h2
    · intro x y hm
      have hm1 : inMap s1 x y := (inMap_env hw hh x y).mpr hm
      rw [hk2 x y hm1, List.getLast_cons (List.cons_ne_nil q ps)]
      have e : deltaLtSight (moveTo s1 ((q :: ps).getLast (List.cons_ne_nil q ps))) x y
          = deltaLtSight (moveTo s ((q :: ps).getLast (List.cons_ne_nil q ps))) x y :=
        @deltaLtSight_env (moveTo s ((q :: ps).getLast (List.cons_ne_nil q ps)))
          (moveTo s1 ((q :: ps).getLast (List.cons_ne_nil q ps))) rfl rfl hr x y
      rw [e]

/-- C19 (amended). Tracking under gradual movement: from a well-formed state whose tiles
are all `TILE_HIDDEN`, let `logic` be called once for each observer position of a list
`ps` in which consecutive positions differ by at most one tile along each axis, with one
sight radius and the conversions of `calcBoundaries` in the range of `short` at every
position. Then every call succeeds, and after the call at any position `p` of the list
(the positions `qs` before it already processed) a tile of the map is `TILE_SIGHT` if and
only if its distance to `p` as `updateTiles` computes it in single precision is below
the radius. -/
theorem gradual_tracking (s : State) (hwf : WellFormed s)
    (hfresh : ∀ x y t, getTile s.layer x y = some t → t = TILE_HIDDEN)
    (ps : List (F32 × F32)) (hnear : List.Chain' Near ps)
    (hcast : ∀ p ∈ ps, CastsInRange (moveTo s p)) :
    ∀ qs p rest, ps = qs ++ p :: rest →
      ∃ s1, track s (qs ++ [p]) = some s1 ∧
        ∀ x y, inMap s x y →
          (getTile s1.layer x y = some TILE_SIGHT ↔
            (delta (moveTo s p) x y).lt s.sight = true) := by
  intro qs p rest hps
  have hps' : ps = (qs ++ [p]) ++ rest := by rw [hps]; simp
  have hch : List.Chain' Near (qs ++ [p]) := by
    rw [hps'] at hnear
    exact hnear.left_of_append
  have hc : ∀ q ∈ qs ++ [p], CastsInRange (moveTo s q) := by
    intro q hq
    apply hcast
    rw [hps']
    exact List.mem_append_left rest hq
  have hI : ∀ (a : F32 × F32) x y, inMap s x y → getTile s.layer x y = some TILE_SIGHT →
      inWindow (calcBoundaries (moveTo s a)).bounds x y := by
    intro a x y _ ht
    exact absurd (hfresh x y _ ht) (by decide)
  have key : ∀ (a : F32 × F32) (l : List (F32 × F32)) (hl : a :: l = qs ++ [p]),
      ∃ s1, track s (qs ++ [p]) = some s1 ∧
        ∀ x y, inMap s x y →
          (getTile s1.layer x y = some TILE_SIGHT ↔
            deltaLtSight (moveTo s p) x y = true) := by
    intro a l hl
    rw [← hl] at hch hc
    obtain ⟨s1, h1, hk⟩ := track_chain l s a hwf (hI a) hch hc
    refine ⟨s1, by rw [← hl]; exact h1, ?_⟩
    intro x y hm
    have hlast : (a :: l).getLast (List.cons_ne_nil a l) = p := by
      simp only [hl]
      exact List.getLast_concat qs
    rw [hk x y hm, hlast]
  cases qs with
  | nil => exact key p [] rfl
  | cons a l => exact key a (l ++ [p]) rfl

/-- Witness of `gradual_tracking`: the fresh 10 x 10 map with radius 3 and the walk
(5, 5), (6, 5), (6, 6), observed after its second step. -/
theorem gradual_tracking_witness :
    (WellFormed (freshState 10 10 5 5 3 TYPE_OVERLAY) ∧
     (∀ x y t, getTile (freshState 10 10 5 5 3 TYPE_OVERLAY).layer x y = some t →
       t = TILE_HIDDEN) ∧
     List.Chain' Near [(5, 5), (6, 5), (6, 6)] ∧
     (∀ p ∈ [((5 : F32), (5 : F32)), (6, 5), (6, 6)],
       CastsInRange (moveTo (freshState 10 10 5 5 3 TYPE_OVERLAY) p)) ∧
     [((5 : F32), (5 : F32)), (6, 5), (6, 6)] = [(5, 5)] ++ (6, 5) :: [(6, 6)]) ∧
    ∃ s1, track (freshState 10 10 5 5 3 TYPE_OVERLAY) ([(5, 5)] ++ [(6, 5)]) = some s1 ∧
      ∀ x y, inMap (freshState 10 10 5 5 3 TYPE_OVERLAY) x y →
        (getTile s1.layer x y = some TILE_SIGHT ↔
          (delta (moveTo (freshState 10 10 5 5 3 TYPE_OVERLAY) (6, 5)) x y).lt
            (freshState 10 10 5 5 3 TYPE_OVERLAY).sight = true) :=
  have h1 : WellFormed (freshState 10 10 5 5 3 TYPE_OVERLAY) := by decide
  have h2 : ∀ x y t, getTile (freshState 10 10 5 5 3 TYPE_OVERLAY).layer x y = some t →
      t = TILE_HIDDEN := fun _ _ _ ht => getTile_fillLayer ht
  have h3 : List.Chain' Near [((5 : F32), (5 : F32)), (6, 5), (6, 6)] :=
    List.Chain'.cons (by decide!) (List.Chain'.cons (by decide!) (List.chain'_singleton _))
  have h4 : ∀ p ∈ [((5 : F32), (5 : F32)), (6, 5), (6, 6)],
      CastsInRange (moveTo (freshState 10 10 5 5 3 TYPE_OVERLAY) p) := by decide!
  ⟨⟨h1, h2, h3, h4, rfl⟩,
    gradual_tracking _ h1 h2 [(5, 5), (6, 5), (6, 6)] h3 h4 [(5, 5)] (6, 5) [(6, 6)] rfl⟩

/-- C19 (counterexample). Two walks of one step on which the claim fails. On a fresh map
of 10 x 10 tiles with radius 3, the walk to (2 ^ (-30), 2), the conversions in range:
the tile (3, 2) is at Euclidean distance 3 - 2 ^ (-30) from the observer, below the
radius, yet its computed distance is 3 and after the update it is
`TILE_HIDDEN_BOUNDARY`, not `TILE_SIGHT`. On a fresh map of 2 x 1 tiles with radius
65535, the walk to (0, 0): the sum 65537 leaves the range of `short`, the window is
[0, 1) x [0, 1), and the tile (1, 0), at distance 1, is still `TILE_HIDDEN`. -/
theorem walk_in_range_not_sighted :
    (∃ s1, track (freshState 10 10 0 0 3 TYPE_OVERLAY) [(F32.ofDyadic 1 30, 2)] = some s1 ∧
      CastsInRange (moveTo (freshState 10 10 0 0 3 TYPE_OVERLAY) (F32.ofDyadic 1 30, 2)) ∧
      inMap (freshState 10 10 0 0 3 TYPE_OVERLAY) 3 2 ∧
      EuclidLt (moveTo (freshState 10 10 0 0 3 TYPE_OVERLAY) (F32.ofDyadic 1 30, 2)) 3 2 ∧
      delta (moveTo (freshState 10 10 0 0 3 TYPE_OVERLAY) (F32.ofDyadic 1 30, 2)) 3 2 = 3 ∧
      getTile s1.layer 3 2 = some TILE_HIDDEN_BOUNDARY) ∧
    (∃ s1, track (freshState 2 1 0 0 65535 TYPE_OVERLAY) [(0, 0)] = some s1 ∧
      ¬ CastsInRange (moveTo (freshState 2 1 0 0 65535 TYPE_OVERLAY) (0, 0)) ∧
      s1.bounds = ⟨0, 0, 1, 1⟩ ∧
      inMap (freshState 2 1 0 0 65535 TYPE_OVERLAY) 1 0 ∧
      EuclidLt (moveTo (freshState 2 1 0 0 65535 TYPE_OVERLAY) (0, 0)) 1 0 ∧
      (delta (moveTo (freshState 2 1 0 0 65535 TYPE_OVERLAY) (0, 0)) 1 0).lt 65535 = true ∧
      getTile s1.layer 1 0 = some TILE_HIDDEN) := by
  have g : ∃ s1, track (freshState 10 10 0 0 3 TYPE_OVERLAY) [(F32.ofDyadic 1 30, 2)]
        = some s1 ∧
      CastsInRange (moveTo (freshState 10 10 0 0 3 TYPE_OVERLAY) (F32.ofDyadic 1 30, 2)) ∧
      inMap (freshState 10 10 0 0 3 TYPE_OVERLAY) 3 2 ∧
      euclidLt (moveTo (freshState 10 10 0 0 3 TYPE_OVERLAY) (F32.ofDyadic 1 30, 2)) 3 2
        = true ∧
      delta (moveTo (freshState 10 10 0 0 3 TYPE_OVERLAY) (F32.ofDyadic 1 30, 2)) 3 2 = 3 ∧
      getTile s1.layer 3 2 = some TILE_HIDDEN_BOUNDARY := by decide!
  have h : ∃ s1, track (freshState 2 1 0 0 65535 TYPE_OVERLAY) [(0, 0)] = some s1 ∧
      ¬ CastsInRange (moveTo (freshState 2 1 0 0 65535 TYPE_OVERLAY) (0, 0)) ∧
      s1.bounds = ⟨0, 0, 1, 1⟩ ∧
      inMap (freshState 2 1 0 0 65535 TYPE_OVERLAY) 1 0 ∧
      euclidLt (moveTo (freshState 2 1 0 0 65535 TYPE_OVERLAY) (0, 0)) 1 0 = true ∧
      (delta (moveTo (freshState 2 1 0 0 65535 TYPE_OVERLAY) (0, 0)) 1 0).lt 65535 = true ∧
      getTile s1.layer 1 0 = some TILE_HIDDEN := by decide!
  obtain ⟨s1, g1, g2, g3, g4, g5, g6⟩ := g
  obtain ⟨s2, h1, h2, h3, h4, h5, h6, h7⟩ := h
  exact ⟨⟨s1, g1, g2, g3, (euclidLt_iff _ _ _).mp g4, g5, g6⟩,
    ⟨s2, h1, h2, h3, h4, (euclidLt_iff _ _ _).mp h5, h6, h7⟩⟩

theorem adjacent_symm {x y i j : Int} (h : Adjacent x y i j) : Adjacent i j x y := by
  unfold Adjacent at h ⊢; omega

/-- On a well-formed state the layer has no exposed hidden tile exactly when no
`TILE_HIDDEN` tile passes `hasSeenNeighbour`. -/
theorem noExposedHidden_iff {s : State} (hwf : WellFormed s) :
    NoExposedHidden s ↔
      ∀ x y, getTile s.layer x y = some TILE_HIDDEN → hasSeenNeighbour s s.layer x y = false := by
  unfold NoExposedHidden Neighbour8
  constructor
  · intro h x y ht
    have hin := getTile_inside hwf ht
    have hm : inMap s x y := ⟨hin.1, hin.2.1, hin.2.2.1, hin.2.2.2⟩
    rw [← Bool.not_eq_true, hasSeenNeighbour_iff]
    rintro ⟨i, j, t, hadj, hmi, hti, hs⟩
    refine h x y hm ht ⟨i, j, t, ⟨hadj, ?_⟩, hmi, hti, (seen_iff t).mp hs⟩
    intro hij
    obtain ⟨rfl, rfl⟩ := Prod.mk.inj hij
    rw [ht] at hti
    rw [← Option.some.inj hti] at hs
    exact absurd hs (by decide)
  · intro h x y _ ht
    rintro ⟨i, j, t, ⟨hadj, -⟩, hmi, hti, hs⟩
    have := h x y ht
    rw [← Bool.not_eq_true, hasSeenNeighbour_iff] at this
    exact this ⟨i, j, t, hadj, hmi, hti, (seen_iff t).mpr hs⟩

/-- In overlay mode, with the conversions in range, an update through either entry point
keeps the layer free of exposed hidden tiles. -/
theorem entry_keeps_boundary {s : State} (hwf : WellFormed s) (hov : s.fogofwar = TYPE_OVERLAY)
    (hc : CastsInRange s)
    (hI : ∀ x y, getTile s.layer x y = some TILE_HIDDEN →
      hasSeenNeighbour s s.layer x y = false)
    (st : Tile) :
    ∃ s1, (updateTiles st (calcBoundaries s)).map flushMinimap = some s1 ∧ WellFormed s1 ∧
      s1.w = s.w ∧ s1.h = s.h ∧ s1.fogofwar = TYPE_OVERLAY ∧
      ∀ x y, getTile s1.layer x y = some TILE_HIDDEN →
        hasSeenNeighbour s1 s1.layer x y = false := by
  obtain ⟨m, s1, h1, hwf1, hw, hh, -, -, -, hf, dm, hcell⟩ := entry_spec hwf st
  refine ⟨s1, h1, hwf1, hw, hh, hf.trans hov, ?_⟩
  have hd1 : LayerDims s1.layer s.w s.h := by
    have := hwf1
    unfold WellFormed at this
    rw [hw, hh] at this
    exact this
  have hseen : ∀ a b, (getTile s1.layer a b).map Tile.seen = (getTile m a b).map Tile.seen := by
    intro a b
    cases ht : getTile s.layer a b with
    | none => rw [getTile_none_of_dims hwf dm ht, getTile_none_of_dims hwf hd1 ht]
    | some t =>
      rw [(hcell a b t ht).2, (hcell a b t ht).1]
      simp only [Option.map_some', Option.some_inj]
      split
      · rw [boundaryTile_seen]
      · rfl
  intro x y hfin
  rw [hasSeenNeighbour_env hw hh, hasSeenNeighbour_layer s hseen]
  have hin := getTile_inside hd1 hfin
  have hm : inMap s x y := ⟨hin.1, hin.2.1, hin.2.2.1, hin.2.2.2⟩
  obtain ⟨t, ht⟩ := inMap_getTile hwf hm
  have e := (hcell x y t ht).2
  rw [hfin] at e
  by_cases hwin : inWindow (calcBoundaries s).bounds x y
  · simp only [hwin, hov, and_self, if_true, Option.some_inj] at e
    cases hb : hasSeenNeighbour s m x y with
    | false => rfl
    | true =>
      rw [hb] at e
      unfold boundaryTile at e
      split at e
      · exact absurd e (by decide)
      · rename_i hne
        exact absurd ⟨e.symm, rfl⟩ hne
  · simp only [hwin, and_false, if_false, Option.some_inj] at e
    subst e
    rw [← Bool.not_eq_true, hasSeenNeighbour_iff]
    rintro ⟨i, j, u, hadj, hmi, hu, hs⟩
    obtain ⟨t0, ht0⟩ := inMap_getTile hwf hmi
    have e0 := (hcell i j t0 ht0).1
    rw [hu] at e0
    have hold : hasSeenNeighbour s s.layer x y = false := hI x y ht
    rw [← Bool.not_eq_true, hasSeenNeighbour_iff] at hold
    by_cases hwi : inWindow (calcBoundaries s).bounds i j
    · simp only [hwi, if_true, Option.some_inj] at e0
      cases hd : deltaLtSight s i j with
      | true => exact hwin (window_covers hc hd (adjacent_symm hadj) hm)
      | false =>
        rw [hd] at e0
        have : t0.seen = true := by
          rw [e0] at hs
          unfold distanceTile at hs
          cases t0 <;> simp_all [Tile.seen]
        exact hold ⟨i, j, t0, hadj, hmi, ht0, this⟩
    · simp only [hwi, if_false, Option.some_inj] at e0
      rw [e0] at hs
      exact hold ⟨i, j, t0, hadj, hmi, ht0, hs⟩

/-- C20 (amended). The boundary invariant: in overlay mode, from a well-formed state
whose tiles are all `TILE_HIDDEN`, every finite sequence of updates through either entry
point, at any observer positions and with any radii for which the four conversions to
`short` of `calcBoundaries` are in range, succeeds and ends in a state in which no
`TILE_HIDDEN` tile of the map has, among its eight neighbours inside the map, a tile
that is `TILE_SIGHT` or `TILE_VISITED`. No sign condition on the radius is needed. -/
theorem boundary_invariant (s : State) (hwf : WellFormed s)
    (hov : s.fogofwar = TYPE_OVERLAY)
    (hfresh : ∀ x y t, getTile s.layer x y = some t → t = TILE_HIDDEN)
    (us : List Update) (hcast : ∀ u ∈ us, CastsInRange (u.place s)) :
    ∃ s1, runUpdates s us = some s1 ∧ NoExposedHidden s1 := by
  suffices H : ∀ (us : List Update) (s : State), WellFormed s → s.fogofwar = TYPE_OVERLAY →
      (∀ x y, getTile s.layer x y = some TILE_HIDDEN →
        hasSeenNeighbour s s.layer x y = false) →
      (∀ u ∈ us, CastsInRange (u.place s)) →
      ∃ s1, runUpdates s us = some s1 ∧ WellFormed s1 ∧
        ∀ x y, getTile s1.layer x y = some TILE_HIDDEN →
          hasSeenNeighbour s1 s1.layer x y = false by
    have h0 : ∀ x y, getTile s.layer x y = some TILE_HIDDEN →
        hasSeenNeighbour s s.layer x y = false := by
      intro x y _
      rw [← Bool.not_eq_true, hasSeenNeighbour_iff]
      rintro ⟨i, j, t, -, -, ht, hs⟩
      rw [hfresh i j t ht] at hs
      exact absurd hs (by decide)
    obtain ⟨s1, h1, hwf1, hk⟩ := H us s hwf hov h0 hcast
    exact ⟨s1, h1, (noExposedHidden_iff hwf1).mpr hk⟩
  intro us
  induction us with
  | nil =>
    intro s hwf _ hI _
    exact ⟨s, rfl, hwf, hI⟩
  | cons u us ih =>
    intro s hwf hov hI hc
    have hcu : CastsInRange (u.place s) := hc u (List.mem_cons_self u us)
    have hIu : ∀ x y, getTile (u.place s).layer x y = some TILE_HIDDEN →
        hasSeenNeighbour (u.place s) (u.place s).layer x y = false := hI
    have hstep : ∃ s1, applyUpdate s u = some s1 ∧ WellFormed s1 ∧ s1.w = s.w ∧ s1.h = s.h ∧
        s1.fogofwar = TYPE_OVERLAY ∧
        ∀ x y, getTile s1.layer x y = some TILE_HIDDEN →
          hasSeenNeighbour s1 s1.layer x y = false := by
      unfold applyUpdate
      cases hu : u.teleport with
      | true =>
        simp only [if_true]
        exact entry_keeps_boundary (s := u.place s) hwf hov hcu hIu TILE_VISITED
      | false =>
        simp only [Bool.false_eq_true, if_false]
        exact entry_keeps_boundary (s := u.place s) hwf hov hcu hIu TILE_SIGHT
    obtain ⟨s1, h1, hwf1, -, -, hov1, hI1⟩ := hstep
    have hc1 : ∀ v ∈ us, CastsInRange (v.place s1) := by
      intro v hv
      exact castsInRange_env (s := v.place s) rfl rfl rfl (hc v (List.mem_cons_of_mem u hv))
    obtain ⟨s2, h2, hwf2, hI2⟩ := ih s1 hwf1 hov1 hI1 hc1
    refine ⟨s2, ?_, hwf2, hI2⟩
    unfold runUpdates at h2 ⊢
    rw [List.foldlM_cons, h1]
    exact h2

/-- Witness of `boundary_invariant`: on the fresh 10 x 10 map in overlay mode, an
ordinary update at (5, 5) with radius 3, a teleport update at (1, 8) with radius 2 and
an ordinary update at (2, 8) with radius 1. -/
theorem boundary_invariant_witness :
    (WellFormed (freshState 10 10 5 5 3 TYPE_OVERLAY) ∧
     (freshState 10 10 5 5 3 TYPE_OVERLAY).fogofwar = TYPE_OVERLAY ∧
     (∀ x y t, getTile (freshState 10 10 5 5 3 TYPE_OVERLAY).layer x y = some t →
       t = TILE_HIDDEN) ∧
     (∀ u ∈ [(⟨false, 5, 5, 3⟩ : Update), ⟨true, 1, 8, 2⟩, ⟨false, 2, 8, 1⟩],
       CastsInRange (u.place (freshState 10 10 5 5 3 TYPE_OVERLAY)))) ∧
    ∃ s1, runUpdates (freshState 10 10 5 5 3 TYPE_OVERLAY)
        [⟨false, 5, 5, 3⟩, ⟨true, 1, 8, 2⟩, ⟨false, 2, 8, 1⟩] = some s1 ∧
      NoExposedHidden s1 :=
  have h1 : WellFormed (freshState 10 10 5 5 3 TYPE_OVERLAY) := by decide
  have h2 : ∀ x y t, getTile (freshState 10 10 5 5 3 TYPE_OVERLAY).layer x y = some t →
      t = TILE_HIDDEN := fun _ _ _ ht => getTile_fillLayer ht
  have h3 : ∀ u ∈ [(⟨false, 5, 5, 3⟩ : Update), ⟨true, 1, 8, 2⟩, ⟨false, 2, 8, 1⟩],
      CastsInRange (u.place (freshState 10 10 5 5 3 TYPE_OVERLAY)) := by decide!
  ⟨⟨h1, rfl, h2, h3⟩, boundary_invariant _ h1 rfl h2 _ h3⟩

/-- C20 (counterexample). On a fresh map of 2 x 1 tiles in overlay mode, one ordinary
update with the observer at (0, 0) and radius 65535: the sums 0 - 65535 - 2 and
0 + 65535 + 2 leave the range of `short`, where the conversion is undefined in C++;
converted to 16 bits they are -1 and 1, the window is [0, 1) x [0, 1), and after the
update the tile (1, 0) is `TILE_HIDDEN` beside the tile (0, 0), which is `TILE_SIGHT`. -/
theorem hidden_beside_sighted_out_of_range :
    ∃ s1, runUpdates (freshState 2 1 0 0 0 TYPE_OVERLAY) [⟨false, 0, 0, 65535⟩] = some s1 ∧
      ¬ CastsInRange (Update.place ⟨false, 0, 0, 65535⟩ (freshState 2 1 0 0 0 TYPE_OVERLAY)) ∧
      (((0 : F32).sub 65535).sub (F32.ofInt 2)).trunc = -65537 ∧
      (((0 : F32).add 65535).add (F32.ofInt 2)).trunc = 65537 ∧
      s1.bounds = ⟨0, 0, 1, 1⟩ ∧
      getTile s1.layer 0 0 = some TILE_SIGHT ∧
      getTile s1.layer 1 0 = some TILE_HIDDEN ∧
      ¬ NoExposedHidden s1 := by
  have h : ∃ s1, runUpdates (freshState 2 1 0 0 0 TYPE_OVERLAY) [⟨false, 0, 0, 65535⟩]
        = some s1 ∧
      ¬ CastsInRange (Update.place ⟨false, 0, 0, 65535⟩ (freshState 2 1 0 0 0 TYPE_OVERLAY)) ∧
      (((0 : F32).sub 65535).sub (F32.ofInt 2)).trunc = -65537 ∧
      (((0 : F32).add 65535).add (F32.ofInt 2)).trunc = 65537 ∧
      s1.bounds = ⟨0, 0, 1, 1⟩ ∧
      getTile s1.layer 0 0 = some TILE_SIGHT ∧
      getTile s1.layer 1 0 = some TILE_HIDDEN ∧
      inMap s1 1 0 ∧ inMap s1 0 0 := by decide!
  obtain ⟨s1, h1, h2, h3, h4, h5, h6, h7, h8, h9⟩ := h
  refine ⟨s1, h1, h2, h3, h4, h5, h6, h7, ?_⟩
  intro hn
  refine hn 1 0 h8 h7 ⟨0, 0, TILE_SIGHT, ⟨?_, ?_⟩, h9, h6, Or.inl rfl⟩
  · unfold Adjacent; omega
  · decide

/-! ## The frame of the update -/

/-- C21. The frame of the update: on a well-formed state whose window lies in the map,
for either target state and in every fog mode, `updateTiles` succeeds and every tile
outside the window [bounds.x, bounds.w) x [bounds.y, bounds.h) has after the distance
pass, and when `updateTiles` returns, exactly the state it had before the call; the
lookup of a tile outside the layer fails before and after alike. The dimensions, the
observer, the mode, the window and the trace are unchanged as well. -/
theorem updateTiles_frame (s : State) (hwf : WellFormed s) (hb : BoundsInMap s) (st : Tile) :
    ∃ s1 s2, distancePass st s = some s1 ∧ boundaryPass s1 = some s2 ∧
      updateTiles st s = some s2 ∧
      (∀ x y, ¬ inWindow s.bounds x y →
        getTile s1.layer x y = getTile s.layer x y ∧
        getTile s2.layer x y = getTile s.layer x y) ∧
      Frame s s2 := by
  obtain ⟨s1, s2, h1, h2, h3, -, f2, -, -, c1, c2, -, -⟩ := updateTiles_spec hwf hb st
  refine ⟨s1, s2, h1, h2, h3, ?_, f2⟩
  intro x y hw
  have e1 : getTile s1.layer x y = getTile s.layer x y := by
    rw [c1]
    cases getTile s.layer x y with
    | none => rfl
    | some t => simp [hw]
  refine ⟨e1, ?_⟩
  rw [c2, e1]
  cases getTile s.layer x y with
  | none => rfl
  | some t => simp [hw]

/-- Witness of `updateTiles_frame`: the state after one update of the fresh 10 x 10 map
at (5, 5) with radius 3, with the window of an observer moved to (2, 2); the tile (7, 5),
`TILE_SIGHT` and outside the window [0, 7) x [0, 7), is among the tiles left as they
were. -/
theorem updateTiles_frame_witness :
    (WellFormed (calcBoundaries { afterLogic (freshState 10 10 5 5 3 TYPE_OVERLAY) with
        pos_x := 2, pos_y := 2 }) ∧
     BoundsInMap (calcBoundaries { afterLogic (freshState 10 10 5 5 3 TYPE_OVERLAY) with
        pos_x := 2, pos_y := 2 })) ∧
    ∃ s1 s2, distancePass TILE_SIGHT (calcBoundaries
          { afterLogic (freshState 10 10 5 5 3 TYPE_OVERLAY) with pos_x := 2, pos_y := 2 })
        = some s1 ∧
      boundaryPass s1 = some s2 ∧
      updateTiles TILE_SIGHT (calcBoundaries
          { afterLogic (freshState 10 10 5 5 3 TYPE_OVERLAY) with pos_x := 2, pos_y := 2 })
        = some s2 ∧
      (∀ x y, ¬ inWindow (calcBoundaries
            { afterLogic (freshState 10 10 5 5 3 TYPE_OVERLAY) with
              pos_x := 2, pos_y := 2 }).bounds x y →
        getTile s1.layer x y = getTile (calcBoundaries
            { afterLogic (freshState 10 10 5 5 3 TYPE_OVERLAY) with
              pos_x := 2, pos_y := 2 }).layer x y ∧
        getTile s2.layer x y = getTile (calcBoundaries
            { afterLogic (freshState 10 10 5 5 3 TYPE_OVERLAY) with
              pos_x := 2, pos_y := 2 }).layer x y) ∧
      Frame (calcBoundaries { afterLogic (freshState 10 10 5 5 3 TYPE_OVERLAY) with
          pos_x := 2, pos_y := 2 }) s2 :=
  have h : WellFormed (calcBoundaries { afterLogic (freshState 10 10 5 5 3 TYPE_OVERLAY) with
        pos_x := 2, pos_y := 2 }) ∧
      BoundsInMap (calcBoundaries { afterLogic (freshState 10 10 5 5 3 TYPE_OVERLAY) with
        pos_x := 2, pos_y := 2 }) := by decide!
  ⟨h, updateTiles_frame _ h.1 h.2 TILE_SIGHT⟩

-- END THMS FogOfWar
end FogOfWar

namespace MenuMiniMap

open FogOfWar FogOfWar.Tile FogOfWar.FogType MarkerColor ActivateType

/-! ## Terrain and entity pixels -/

/-- The predicate `DistLe` is decided by `distLe`. -/
theorem distLe_iff (a b : FPoint) (r : ℚ) : distLe a b r = true ↔ DistLe a b r := by
  unfold distLe DistLe
  rw [decide_eq_true_iff, Real.sqrt_le_iff]
  have h0 : (0 ≤ r) ↔ ((0 : ℝ) ≤ (r : ℝ)) := by
    constructor <;> intro h <;> exact_mod_cast h
  have h1 : ((b.x.toRat - a.x.toRat) * (b.x.toRat - a.x.toRat) +
        (b.y.toRat - a.y.toRat) * (b.y.toRat - a.y.toRat) ≤ r * r) ↔
      (((b.x.toRat : ℝ) - (a.x.toRat : ℝ)) ^ 2 + ((b.y.toRat : ℝ) - (a.y.toRat : ℝ)) ^ 2
        ≤ (r : ℝ) ^ 2) := by
    constructor
    · intro h
      have h' : (((b.x.toRat - a.x.toRat) * (b.x.toRat - a.x.toRat) +
          (b.y.toRat - a.y.toRat) * (b.y.toRat - a.y.toRat) : ℚ) : ℝ)
          ≤ ((r * r : ℚ) : ℝ) := by exact_mod_cast h
      push_cast at h'
      nlinarith [h']
    · intro h
      have h' : (((b.x.toRat - a.x.toRat) * (b.x.toRat - a.x.toRat) +
          (b.y.toRat - a.y.toRat) * (b.y.toRat - a.y.toRat) : ℚ) : ℝ)
          ≤ ((r * r : ℚ) : ℝ) := by
        push_cast
        nlinarith [h]
      exact_mod_cast h'
  rw [h0, h1]

theorem distLe_false_iff (a b : FPoint) (r : ℚ) : distLe a b r = false ↔ ¬ DistLe a b r := by
  rw [← distLe_iff, Bool.not_eq_true]

/-- For a distance that passes the test `calcDist <= visible_radius`, hence is a number,
the test `delta > mask_radius` fails exactly when `delta <= mask_radius` holds. -/
theorem calcDistGt_false_iff (a b : FPoint) (mask_radius : Int) (r : F32)
    (h : calcDistLe a b r = true) :
    calcDistGt a b mask_radius = false ↔ calcDistLe a b (F32.ofInt mask_radius) = true := by
  unfold calcDistLe at h ⊢
  unfold calcDistGt
  rw [F32.le_iff] at h
  have hm : (F32.ofInt mask_radius).isNaN = false := by
    unfold F32.ofInt
    exact F32.isNaN_round _ _ _
  rw [← Bool.not_eq_true, F32.lt_iff, F32.le_iff]
  constructor
  · intro hn
    refine ⟨h.1, hm, ?_⟩
    by_contra hc
    exact hn ⟨hm, h.1, not_le.mp hc⟩
  · rintro ⟨-, -, hle⟩ ⟨-, -, hlt⟩
    exact absurd hle (not_le.mpr hlt)

/-- The body of the entity loop appends to the vector the markers it would push on an
empty vector. -/
theorem entityStep_append (g : MiniMap) (acc : List PixelEntity) (e : Entity) :
    entityStep g acc e = acc ++ entityMarkers g e := by
  unfold entityMarkers entityStep
  split
  · split
    · simp
    · split
      · split <;> simp
      · split
        · split <;> simp
        · simp
  · simp

/-- The entity loop appends the markers of the entities, in the order of the list. -/
theorem entityLoop_eq (g : MiniMap) (es : List Entity) (acc : List PixelEntity) :
    es.foldl (entityStep g) acc = acc ++ es.flatMap (entityMarkers g) := by
  induction es generalizing acc with
  | nil => simp
  | cons e es ih =>
    rw [List.foldl_cons, ih, entityStep_append, List.flatMap_cons, List.append_assoc]

/-- What the entity loop pushes for one entity: one marker at the truncated position,
in the ally or the enemy colour, exactly under the conditions of lines 594 to 611. -/
theorem entityMarkers_eq (g : MiniMap) (e : Entity) :
    entityMarkers g e =
      if 0 < e.hp ∧ (g.map_fogofwar = false ∨
            calcDistLe g.hero_pos e.pos (F32.ofInt g.mask_radius) = true) ∧
          calcDistLe g.hero_pos e.pos g.visible_radius = true ∧
          (e.hero_ally = true ∨ e.in_combat = true) then
        [⟨toInt e.pos.x, toInt e.pos.y, if e.hero_ally then color_ally else color_enemy⟩]
      else [] := by
  unfold entityMarkers entityStep
  by_cases hhp : 0 < e.hp
  · have hhp' : e.hp > 0 := hhp
    simp only [hhp', if_true, hhp, true_and]
    cases hv : calcDistLe g.hero_pos e.pos g.visible_radius with
    | false =>
      cases hf : g.map_fogofwar <;> cases hm : calcDistGt g.hero_pos e.pos g.mask_radius <;>
        cases ha : e.hero_ally <;> cases hc : e.in_combat <;> simp
    | true =>
      have hiff := calcDistGt_false_iff g.hero_pos e.pos g.mask_radius g.visible_radius hv
      cases hm : calcDistGt g.hero_pos e.pos g.mask_radius with
      | false =>
        have hle := hiff.mp hm
        cases hf : g.map_fogofwar <;> cases ha : e.hero_ally <;> cases hc : e.in_combat <;>
          simp [hle]
      | true =>
        have hle : calcDistLe g.hero_pos e.pos (F32.ofInt g.mask_radius) = false := by
          rw [← Bool.not_eq_true]
          intro h
          rw [← hiff, hm] at h
          exact absurd h (by decide)
        cases hf : g.map_fogofwar <;> cases ha : e.hero_ally <;> cases hc : e.in_combat <;>
          simp [hle]
  · have hhp' : ¬ e.hp > 0 := hhp
    simp only [hhp', if_false, hhp, false_and]

theorem entityMarkers_color (g : MiniMap) (e : Entity) :
    ∀ m ∈ entityMarkers g e, m.color = color_ally ∨ m.color = color_enemy := by
  intro m hm
  rw [entityMarkers_eq] at hm
  split at hm
  · rw [List.mem_singleton] at hm
    rw [hm]
    cases e.hero_ally <;> simp
  · exact absurd hm (List.not_mem_nil m)

/-- The loop body of a teleport zone, when the fog test of the zone has an outcome. -/
theorem teleportTileStep_eq {g : MiniMap} {ev : Event} {b : Bool}
    (hb : originHidden g ev = some b) (j k : Int) (acc : List PixelEntity) :
    teleportTileStep g ev j k acc = some (acc ++
      (if b then []
       else if calcDistLe g.hero_pos (FPoint.ofInts j k) g.visible_radius then
         [⟨j, k, color_teleport⟩]
       else [])) := by
  unfold teleportTileStep
  rw [hb]
  cases b <;> simp
  split <;> simp

/-- The loops of a teleport zone push the markers of `teleportMarkers`. -/
theorem teleportLoops_eq {g : MiniMap} {ev : Event} {b : Bool}
    (hb : originHidden g ev = some b) (acc : List PixelEntity) :
    (loopRange ev.location.x (ev.location.x + ev.location.w)).foldlM
      (fun e1 j => (loopRange ev.location.y (ev.location.y + ev.location.h)).foldlM
        (fun e2 k => teleportTileStep g ev j k e2) e1) acc
      = some (acc ++ teleportMarkers g ev b) := by
  rw [foldlM_nested (fun j k e2 => teleportTileStep g ev j k e2)]
  unfold teleportMarkers loopCells
  generalize List.product (loopRange ev.location.x (ev.location.x + ev.location.w))
    (loopRange ev.location.y (ev.location.y + ev.location.h)) = cells
  induction cells generalizing acc with
  | nil => simp
  | cons p cells ih =>
    rw [List.foldlM_cons, teleportTileStep_eq hb]
    simp only [Option.bind_eq_bind, Option.some_bind]
    rw [ih, List.flatMap_cons, List.append_assoc]

/-- The markers of an event that reaches the loops of the teleport zones. -/
theorem eventMarkers_teleport {g : MiniMap} {ev : Event} {b : Bool}
    (h1 : ev.hiddenFromMinimap = false) (h2 : ¬ (ev.npc_hotspot = true ∧ ev.active = true))
    (h3 : ev.isTeleport = true) (hb : originHidden g ev = some b) :
    eventMarkers g ev = teleportMarkers g ev b := by
  unfold eventMarkers eventStep
  rw [h1, h3]
  simp only [Bool.false_eq_true, if_false, h2, if_true]
  rw [teleportLoops_eq hb]
  simp

/-- The body of the event loop appends to the vector the markers it would push on an
empty vector, provided the fog test of a teleport zone has an outcome. -/
theorem eventStep_append (g : MiniMap) (acc : List PixelEntity) (ev : Event)
    (hread : ev.hiddenFromMinimap = false → ¬ (ev.npc_hotspot = true ∧ ev.active = true) →
      ev.isTeleport = true → (originHidden g ev).isSome = true) :
    eventStep g acc ev = some (acc ++ eventMarkers g ev) := by
  by_cases h1 : ev.hiddenFromMinimap = true
  · unfold eventMarkers eventStep
    simp [h1]
  · have h1' : ev.hiddenFromMinimap = false := by simpa using h1
    by_cases h2 : ev.npc_hotspot = true ∧ ev.active = true
    · unfold eventMarkers eventStep
      rw [h1']
      simp only [Bool.false_eq_true, if_false, h2, and_self, if_true]
      split
      · simp
      · split <;> simp
    · by_cases h3 : ev.isTeleport = true
      · obtain ⟨b, hb⟩ := Option.isSome_iff_exists.mp (hread h1' h2 h3)
        rw [eventMarkers_teleport h1' h2 h3 hb]
        unfold eventStep
        rw [h1', h3]
        simp only [Bool.false_eq_true, if_false, h2, if_true]
        exact teleportLoops_eq hb acc
      · unfold eventMarkers eventStep
        rw [h1']
        simp [h2, h3]

/-- The markers of an event are NPC markers or teleport markers. -/
theorem eventMarkers_color (g : MiniMap) (ev : Event)
    (hread : ev.hiddenFromMinimap = false → ¬ (ev.npc_hotspot = true ∧ ev.active = true) →
      ev.isTeleport = true → (originHidden g ev).isSome = true) :
    ∀ m ∈ eventMarkers g ev, m.color = color_npc ∨ m.color = color_teleport := by
  intro m hm
  by_cases h1 : ev.hiddenFromMinimap = true
  · unfold eventMarkers eventStep at hm
    simp [h1] at hm
  · have h1' : ev.hiddenFromMinimap = false := by simpa using h1
    by_cases h2 : ev.npc_hotspot = true ∧ ev.active = true
    · unfold eventMarkers eventStep at hm
      rw [h1'] at hm
      simp only [Bool.false_eq_true, if_false, h2, and_self, if_true] at hm
      split at hm
      · simp at hm
      · split at hm
        · simp at hm
          rw [hm]
          exact Or.inl rfl
        · simp at hm
    · by_cases h3 : ev.isTeleport = true
      · obtain ⟨b, hb⟩ := Option.isSome_iff_exists.mp (hread h1' h2 h3)
        rw [eventMarkers_teleport h1' h2 h3 hb] at hm
        unfold teleportMarkers at hm
        rw [List.mem_flatMap] at hm
        obtain ⟨p, -, hp⟩ := hm
        split at hp
        · exact absurd hp (List.not_mem_nil m)
        · split at hp
          · rw [List.mem_singleton] at hp
            rw [hp]
            exact Or.inr rfl
          · exact absurd hp (List.not_mem_nil m)
      · unfold eventMarkers eventStep at hm
        rw [h1'] at hm
        simp [h2, h3] at hm

/-- The event loop appends the markers of the events, in the order of the list. -/
theorem eventLoop_eq (g : MiniMap) (evs : List Event) (acc : List PixelEntity)
    (hread : ∀ ev ∈ evs, ev.hiddenFromMinimap = false →
      ¬ (ev.npc_hotspot = true ∧ ev.active = true) →
      ev.isTeleport = true → (originHidden g ev).isSome = true) :
    evs.foldlM (eventStep g) acc = some (acc ++ evs.flatMap (eventMarkers g)) := by
  induction evs generalizing acc with
  | nil => simp
  | cons ev evs ih =>
    rw [List.foldlM_cons, eventStep_append g acc ev (hread ev (List.mem_cons_self ev evs))]
    simp only [Option.bind_eq_bind, Option.some_bind]
    rw [ih _ (fun e he => hread e (List.mem_cons_of_mem ev he)), List.flatMap_cons,
      List.append_assoc]

/-- The marker of the observer: present exactly when the tile of the observer is a tile
of the map. -/
theorem heroStep_eq (g : MiniMap) (acc : List PixelEntity) :
    heroStep g acc = acc ++ heroStep g [] ∧
    (HeroInMap g → heroStep g [] =
      [⟨(Point.ofFPoint g.hero_pos).x, (Point.ofFPoint g.hero_pos).y, color_hero⟩]) ∧
    (¬ HeroInMap g → heroStep g [] = []) := by
  unfold heroStep HeroInMap
  refine ⟨?_, ?_, ?_⟩
  · simp only
    split <;> simp
  · intro h
    simp only [h, and_self, if_true, List.nil_append]
  · intro h
    simp only [h, if_false]

/-- The decomposition of `fillEntities`: the marker of the observer, then the markers of
the events in the order of the event list, then the markers of the entities in the order
of the entity list. -/
theorem fillEntities_eq (g : MiniMap) (hread : EventsReadable g) (acc : List PixelEntity) :
    fillEntities g acc = some (acc ++ heroStep g [] ++ g.events.flatMap (eventMarkers g)
      ++ g.entities.flatMap (entityMarkers g)) := by
  unfold fillEntities
  simp only [Option.bind_eq_bind]
  rw [eventLoop_eq g g.events _ hread]
  simp only [Option.some_bind, Option.pure_def]
  rw [entityLoop_eq, (heroStep_eq g acc).1]

/-- C12 (amended). Entity markers: with the events readable, `fillEntities` on the
cleared vector returns the markers of the observer and of the events, none of them in
the ally or enemy colour, followed by the markers of the entities in the order of the
entity list; the entity `e` contributes exactly one marker, at its position converted to
integers, in the ally colour if `e` is a hero ally and in the enemy colour otherwise,
when `e.hp > 0`, the fog of war is off or the distance to the observer is at most
`mask_radius`, the distance is at most `visible_radius`, and `e` is a hero ally or in
combat, the distance being the value of `Utils::calcDist` in single precision and the
comparisons those of `float` values; in every other case it contributes no marker, in
particular when `e.hp <= 0`. -/
theorem entity_marker_rule (g : MiniMap) (hread : EventsReadable g) :
    fillEntities g clearEntities = some (heroStep g [] ++ g.events.flatMap (eventMarkers g)
      ++ g.entities.flatMap (entityMarkers g)) ∧
    (∀ m ∈ heroStep g [] ++ g.events.flatMap (eventMarkers g),
      m.color ≠ color_ally ∧ m.color ≠ color_enemy) ∧
    ∀ e : Entity,
      ((0 < e.hp ∧ (g.map_fogofwar = false ∨
            (Utils.calcDist g.hero_pos e.pos).le (F32.ofInt g.mask_radius) = true) ∧
          (Utils.calcDist g.hero_pos e.pos).le g.visible_radius = true ∧
          (e.hero_ally = true ∨ e.in_combat = true)) →
        entityMarkers g e =
          [⟨toInt e.pos.x, toInt e.pos.y, if e.hero_ally then color_ally else color_enemy⟩]) ∧
      (¬ (0 < e.hp ∧ (g.map_fogofwar = false ∨
            (Utils.calcDist g.hero_pos e.pos).le (F32.ofInt g.mask_radius) = true) ∧
          (Utils.calcDist g.hero_pos e.pos).le g.visible_radius = true ∧
          (e.hero_ally = true ∨ e.in_combat = true)) →
        entityMarkers g e = []) ∧
      (e.hp ≤ 0 → entityMarkers g e = []) := by
  refine ⟨?_, ?_, ?_⟩
  · have := fillEntities_eq g hread clearEntities
    simpa [clearEntities] using this
  · intro m hm
    rw [List.mem_append] at hm
    rcases hm with hm | hm
    · by_cases hh : HeroInMap g
      · rw [(heroStep_eq g []).2.1 hh, List.mem_singleton] at hm
        rw [hm]
        exact ⟨by simp, by simp⟩
      · rw [(heroStep_eq g []).2.2 hh] at hm
        exact absurd hm (List.not_mem_nil m)
    · rw [List.mem_flatMap] at hm
      obtain ⟨ev, hev, hmev⟩ := hm
      rcases eventMarkers_color g ev (hread ev hev) m hmev with h | h <;> rw [h] <;>
        exact ⟨by decide, by decide⟩
  · intro e
    rw [entityMarkers_eq]
    refine ⟨fun h => if_pos h, fun h => if_neg h, fun h => if_neg ?_⟩
    intro h1
    have := h1.1
    omega

/-- Witness of `entity_marker_rule`: the example state, where the ally at (6, 5) gets a
marker and the enemy at (9, 9), beyond the mask radius, gets none. -/
theorem entity_marker_rule_witness :
    EventsReadable sampleMiniMap ∧
    (fillEntities sampleMiniMap clearEntities = some (heroStep sampleMiniMap [] ++
        sampleMiniMap.events.flatMap (eventMarkers sampleMiniMap)
        ++ sampleMiniMap.entities.flatMap (entityMarkers sampleMiniMap)) ∧
     (∀ m ∈ heroStep sampleMiniMap [] ++
          sampleMiniMap.events.flatMap (eventMarkers sampleMiniMap),
        m.color ≠ color_ally ∧ m.color ≠ color_enemy) ∧
     ∀ e : Entity,
      ((0 < e.hp ∧ (sampleMiniMap.map_fogofwar = false ∨
            (Utils.calcDist sampleMiniMap.hero_pos e.pos).le
              (F32.ofInt sampleMiniMap.mask_radius) = true) ∧
          (Utils.calcDist sampleMiniMap.hero_pos e.pos).le sampleMiniMap.visible_radius
            = true ∧
          (e.hero_ally = true ∨ e.in_combat = true)) →
        entityMarkers sampleMiniMap e =
          [⟨toInt e.pos.x, toInt e.pos.y, if e.hero_ally then color_ally else color_enemy⟩]) ∧
      (¬ (0 < e.hp ∧ (sampleMiniMap.map_fogofwar = false ∨
            (Utils.calcDist sampleMiniMap.hero_pos e.pos).le
              (F32.ofInt sampleMiniMap.mask_radius) = true) ∧
          (Utils.calcDist sampleMiniMap.hero_pos e.pos).le sampleMiniMap.visible_radius
            = true ∧
          (e.hero_ally = true ∨ e.in_combat = true)) →
        entityMarkers sampleMiniMap e = []) ∧
      (e.hp ≤ 0 → entityMarkers sampleMiniMap e = [])) :=
  have h : EventsReadable sampleMiniMap := fun ev hev => absurd hev (List.not_mem_nil ev)
  ⟨h, entity_marker_rule sampleMiniMap h⟩

/-- C12 (counterexample). The example state with the observer at (1 - 2 ^ (-24), 0) and
one living enemy in combat at (4, 0), the fog of war on and mask radius 3: the Euclidean
distance of the enemy to the observer is 3 + 2 ^ (-24), above the mask radius, yet the
difference of the coordinates rounds to 3 in single precision, `delta` is 3, the test
`delta > mask_radius` fails and `fillEntities` emits the marker of the enemy. -/
theorem entity_beyond_mask_gets_marker :
    ¬ DistLe ⟨F32.ofDyadic 16777215 24, 0⟩ ⟨4, 0⟩ 3 ∧
    Utils.calcDist ⟨F32.ofDyadic 16777215 24, 0⟩ ⟨4, 0⟩ = 3 ∧
    ({ sampleMiniMap with
        hero_pos := ⟨F32.ofDyadic 16777215 24, 0⟩,
        entities := [⟨10, false, true, ⟨4, 0⟩⟩] } : MiniMap).map_fogofwar = true ∧
    ({ sampleMiniMap with
        hero_pos := ⟨F32.ofDyadic 16777215 24, 0⟩,
        entities := [⟨10, false, true, ⟨4, 0⟩⟩] } : MiniMap).mask_radius = 3 ∧
    fillEntities { sampleMiniMap with
        hero_pos := ⟨F32.ofDyadic 16777215 24, 0⟩,
        entities := [⟨10, false, true, ⟨4, 0⟩⟩] } clearEntities
      = some [⟨0, 0, color_hero⟩, ⟨4, 0, color_enemy⟩] := by
  refine ⟨(distLe_false_iff _ _ _).mp (by decide!), by decide!, rfl, rfl, by decide!⟩

/-- C13 (amended). Marker order: with the events readable, the sequence produced by
`fillEntities` on the cleared vector is the marker of the observer (present exactly when
the tile of the observer is a tile of the map), then the markers of the events in the
order of the event list, each of them an NPC marker or a teleport marker, then the
markers of the entities in the order of the entity list, each of them an ally marker or
an enemy marker. So every NPC or teleport marker precedes every ally or enemy marker. -/
theorem marker_order (g : MiniMap) (hread : EventsReadable g) :
    fillEntities g clearEntities = some (heroStep g [] ++ g.events.flatMap (eventMarkers g)
      ++ g.entities.flatMap (entityMarkers g)) ∧
    (HeroInMap g → heroStep g [] =
      [⟨(Point.ofFPoint g.hero_pos).x, (Point.ofFPoint g.hero_pos).y, color_hero⟩]) ∧
    (¬ HeroInMap g → heroStep g [] = []) ∧
    (∀ m ∈ g.events.flatMap (eventMarkers g),
      m.color = color_npc ∨ m.color = color_teleport) ∧
    (∀ m ∈ g.entities.flatMap (entityMarkers g),
      m.color = color_ally ∨ m.color = color_enemy) := by
  refine ⟨?_, (heroStep_eq g []).2.1, (heroStep_eq g []).2.2, ?_, ?_⟩
  · have := fillEntities_eq g hread clearEntities
    simpa [clearEntities] using this
  · intro m hm
    rw [List.mem_flatMap] at hm
    obtain ⟨ev, hev, hmev⟩ := hm
    exact eventMarkers_color g ev (hread ev hev) m hmev
  · intro m hm
    rw [List.mem_flatMap] at hm
    obtain ⟨e, -, hme⟩ := hm
    exact entityMarkers_color g e m hme

/-- Witness of `marker_order`: the example state. -/
theorem marker_order_witness :
    EventsReadable sampleMiniMap ∧
    (fillEntities sampleMiniMap clearEntities = some (heroStep sampleMiniMap [] ++
        sampleMiniMap.events.flatMap (eventMarkers sampleMiniMap)
        ++ sampleMiniMap.entities.flatMap (entityMarkers sampleMiniMap)) ∧
     (HeroInMap sampleMiniMap → heroStep sampleMiniMap [] =
       [⟨(Point.ofFPoint sampleMiniMap.hero_pos).x, (Point.ofFPoint sampleMiniMap.hero_pos).y,
         color_hero⟩]) ∧
     (¬ HeroInMap sampleMiniMap → heroStep sampleMiniMap [] = []) ∧
     (∀ m ∈ sampleMiniMap.events.flatMap (eventMarkers sampleMiniMap),
       m.color = color_npc ∨ m.color = color_teleport) ∧
     (∀ m ∈ sampleMiniMap.entities.flatMap (entityMarkers sampleMiniMap),
       m.color = color_ally ∨ m.color = color_enemy)) :=
  have h : EventsReadable sampleMiniMap := fun ev hev => absurd hev (List.not_mem_nil ev)
  ⟨h, marker_order sampleMiniMap h⟩

/-- C13 (counterexample). The example state with the event list holding a teleport zone
on (2, 2) and (3, 2) followed by an NPC hotspot at (5, 6), and the entity list holding an
enemy in combat at (5, 6) followed by an ally at (6, 5): in the sequence produced by
`fillEntities` the two teleport markers precede the NPC marker, and the enemy marker
precedes the ally marker. -/
theorem teleport_before_npc_enemy_before_ally :
    fillEntities { sampleMiniMap with
        events := [sampleZone 2 2 2 1, sampleNpc 5 6],
        entities := [⟨10, false, true, ⟨5, 6⟩⟩, ⟨10, true, false, ⟨6, 5⟩⟩] } clearEntities
      = some [⟨5, 5, color_hero⟩, ⟨2, 2, color_teleport⟩, ⟨3, 2, color_teleport⟩,
          ⟨5, 6, color_npc⟩, ⟨5, 6, color_enemy⟩, ⟨6, 5, color_ally⟩] := by
  decide!

/-- C15 (amended). The collector scenario: with the fog of war on, no map event, and an
entity list holding exactly one living ally within both the visible radius and the mask
radius and one living enemy in combat farther than the mask radius, in either order, the
distances being the values of `Utils::calcDist` in single precision and the comparisons
those of `float` values, `fillEntities` on the cleared vector yields the marker of the
ally and no marker of the enemy, after the marker of the observer when the tile of the
observer is a tile of the map: two markers in that case, one marker otherwise. -/
theorem collector_scenario (g : MiniMap) (a e : Entity) (hfog : g.map_fogofwar = true)
    (hev : g.events = []) (hents : g.entities = [a, e] ∨ g.entities = [e, a])
    (ha : 0 < a.hp ∧ a.hero_ally = true ∧
      (Utils.calcDist g.hero_pos a.pos).le g.visible_radius = true ∧
      (Utils.calcDist g.hero_pos a.pos).le (F32.ofInt g.mask_radius) = true)
    (he : 0 < e.hp ∧ e.hero_ally = false ∧ e.in_combat = true ∧
      (F32.ofInt g.mask_radius).lt (Utils.calcDist g.hero_pos e.pos) = true) :
    fillEntities g clearEntities
      = some (heroStep g [] ++ [⟨toInt a.pos.x, toInt a.pos.y, color_ally⟩]) ∧
    (HeroInMap g → fillEntities g clearEntities
      = some [⟨(Point.ofFPoint g.hero_pos).x, (Point.ofFPoint g.hero_pos).y, color_hero⟩,
          ⟨toInt a.pos.x, toInt a.pos.y, color_ally⟩]) ∧
    (¬ HeroInMap g → fillEntities g clearEntities
      = some [⟨toInt a.pos.x, toInt a.pos.y, color_ally⟩]) := by
  have hread : EventsReadable g := by
    intro ev hmem
    rw [hev] at hmem
    exact absurd hmem (List.not_mem_nil ev)
  have hma : entityMarkers g a = [⟨toInt a.pos.x, toInt a.pos.y, color_ally⟩] := by
    rw [entityMarkers_eq, if_pos]
    · rw [ha.2.1]; rfl
    · exact ⟨ha.1, Or.inr ha.2.2.2, ha.2.2.1, Or.inl ha.2.1⟩
  have hme : entityMarkers g e = [] := by
    unfold entityMarkers entityStep
    have h1 : g.map_fogofwar = true ∧ calcDistGt g.hero_pos e.pos g.mask_radius = true :=
      ⟨hfog, he.2.2.2⟩
    simp [h1]
  have key : fillEntities g clearEntities
      = some (heroStep g [] ++ [⟨toInt a.pos.x, toInt a.pos.y, color_ally⟩]) := by
    rw [fillEntities_eq g hread, hev]
    rcases hents with h | h <;> rw [h] <;> simp [clearEntities, hma, hme]
  refine ⟨key, ?_, ?_⟩
  · intro hh
    rw [key, (heroStep_eq g []).2.1 hh]
    rfl
  · intro hh
    rw [key, (heroStep_eq g []).2.2 hh]
    rfl

/-- Witness of `collector_scenario`: the example state, with the ally at (6, 5) and the
enemy at (9, 9), beyond the mask radius 3. -/
theorem collector_scenario_witness :
    (sampleMiniMap.map_fogofwar = true ∧ sampleMiniMap.events = [] ∧
     (sampleMiniMap.entities = [⟨10, true, false, ⟨6, 5⟩⟩, ⟨10, false, true, ⟨9, 9⟩⟩] ∨
      sampleMiniMap.entities = [⟨10, false, true, ⟨9, 9⟩⟩, ⟨10, true, false, ⟨6, 5⟩⟩]) ∧
     ((0 : Int) < 10 ∧ true = true ∧
       (Utils.calcDist sampleMiniMap.hero_pos ⟨6, 5⟩).le sampleMiniMap.visible_radius = true ∧
       (Utils.calcDist sampleMiniMap.hero_pos ⟨6, 5⟩).le
         (F32.ofInt sampleMiniMap.mask_radius) = true) ∧
     ((0 : Int) < 10 ∧ false = false ∧ true = true ∧
       (F32.ofInt sampleMiniMap.mask_radius).lt
         (Utils.calcDist sampleMiniMap.hero_pos ⟨9, 9⟩) = true)) ∧
    (fillEntities sampleMiniMap clearEntities
      = some (heroStep sampleMiniMap [] ++
          [⟨toInt (6 : F32), toInt (5 : F32), color_ally⟩]) ∧
    (HeroInMap sampleMiniMap → fillEntities sampleMiniMap clearEntities
      = some [⟨(Point.ofFPoint sampleMiniMap.hero_pos).x,
            (Point.ofFPoint sampleMiniMap.hero_pos).y, color_hero⟩,
          ⟨toInt (6 : F32), toInt (5 : F32), color_ally⟩]) ∧
    (¬ HeroInMap sampleMiniMap → fillEntities sampleMiniMap clearEntities
      = some [⟨toInt (6 : F32), toInt (5 : F32), color_ally⟩])) :=
  have h1 : (Utils.calcDist sampleMiniMap.hero_pos ⟨6, 5⟩).le sampleMiniMap.visible_radius
      = true := by decide!
  have h2 : (Utils.calcDist sampleMiniMap.hero_pos ⟨6, 5⟩).le
      (F32.ofInt sampleMiniMap.mask_radius) = true := by decide!
  have h3 : (F32.ofInt sampleMiniMap.mask_radius).lt
      (Utils.calcDist sampleMiniMap.hero_pos ⟨9, 9⟩) = true := by decide!
  ⟨⟨rfl, rfl, Or.inl rfl, ⟨by decide, rfl, h1, h2⟩, ⟨by decide, rfl, rfl, h3⟩⟩,
    collector_scenario sampleMiniMap ⟨10, true, false, ⟨6, 5⟩⟩ ⟨10, false, true, ⟨9, 9⟩⟩
      rfl rfl (Or.inl rfl) ⟨by decide, rfl, h1, h2⟩ ⟨by decide, rfl, rfl, h3⟩⟩

/-- C15 (counterexample). Two states that meet the scenario of the claim. The example
state (fog on, no event, one living ally at (6, 5) within both radii, one living enemy in
combat at (9, 9) beyond the mask radius 3): `fillEntities` yields two markers, the marker
of the observer at (5, 5) and the marker of the ally; the list does not have length one.
The example state with the observer at (1 - 2 ^ (-24), 0), the ally at (1, 0) and the
enemy at (4, 0): the Euclidean distance of the enemy is 3 + 2 ^ (-24), above the mask
radius 3, yet the distance computed in single precision is 3 and `fillEntities` yields
three markers, the marker of the enemy among them. -/
theorem collector_scenario_two_markers :
    (sampleMiniMap.map_fogofwar = true ∧ sampleMiniMap.events = [] ∧
      sampleMiniMap.entities = [⟨10, true, false, ⟨6, 5⟩⟩, ⟨10, false, true, ⟨9, 9⟩⟩] ∧
      DistLe sampleMiniMap.hero_pos ⟨6, 5⟩ sampleMiniMap.visible_radius.toRat ∧
      DistLe sampleMiniMap.hero_pos ⟨6, 5⟩ sampleMiniMap.mask_radius ∧
      ¬ DistLe sampleMiniMap.hero_pos ⟨9, 9⟩ sampleMiniMap.mask_radius ∧
      fillEntities sampleMiniMap clearEntities
        = some [⟨5, 5, color_hero⟩, ⟨6, 5, color_ally⟩] ∧
      (fillEntities sampleMiniMap clearEntities).map List.length = some 2) ∧
    (DistLe ⟨F32.ofDyadic 16777215 24, 0⟩ ⟨1, 0⟩ sampleMiniMap.visible_radius.toRat ∧
      DistLe ⟨F32.ofDyadic 16777215 24, 0⟩ ⟨1, 0⟩ 3 ∧
      ¬ DistLe ⟨F32.ofDyadic 16777215 24, 0⟩ ⟨4, 0⟩ 3 ∧
      Utils.calcDist ⟨F32.ofDyadic 16777215 24, 0⟩ ⟨4, 0⟩ = 3 ∧
      fillEntities { sampleMiniMap with
          hero_pos := ⟨F32.ofDyadic 16777215 24, 0⟩,
          entities := [⟨10, true, false, ⟨1, 0⟩⟩, ⟨10, false, true, ⟨4, 0⟩⟩] } clearEntities
        = some [⟨0, 0, color_hero⟩, ⟨1, 0, color_ally⟩, ⟨4, 0, color_enemy⟩]) := by
  refine ⟨⟨rfl, rfl, rfl, (distLe_iff _ _ _).mp (by decide!),
    (distLe_iff _ _ _).mp (by decide!), (distLe_false_iff _ _ _).mp (by decide!),
    by decide!, by decide!⟩,
    ⟨(distLe_iff _ _ _).mp (by decide!), (distLe_iff _ _ _).mp (by decide!),
      (distLe_false_iff _ _ _).mp (by decide!), by decide!, by decide!⟩⟩

/-- A teleport marker at `(j, k)` is among the markers of a zone exactly when the zone
covers the tile, the fog test of the zone fails and the tile is within the visible
radius. -/
theorem mem_teleportMarkers (g : MiniMap) (ev : Event) (b : Bool) (j k : Int) :
    (⟨j, k, color_teleport⟩ : PixelEntity) ∈ teleportMarkers g ev b ↔
      ev.covers j k ∧ b = false ∧
        calcDistLe g.hero_pos (FPoint.ofInts j k) g.visible_radius = true := by
  unfold teleportMarkers Event.covers
  rw [List.mem_flatMap]
  constructor
  · rintro ⟨p, hp, hm⟩
    rw [mem_loopCells] at hp
    cases b with
    | true => simp at hm
    | false =>
      simp only [Bool.false_eq_true, if_false] at hm
      split at hm
      · rename_i hd
        rw [List.mem_singleton] at hm
        have h1 : j = p.1 := congrArg PixelEntity.x hm
        have h2 : k = p.2 := congrArg PixelEntity.y hm
        subst h1 h2
        exact ⟨⟨hp.1.1, hp.1.2, hp.2.1, hp.2.2⟩, rfl, hd⟩
      · exact absurd hm (List.not_mem_nil _)
  · rintro ⟨hc, hb, hd⟩
    refine ⟨(j, k), ?_, ?_⟩
    · rw [mem_loopCells]
      exact ⟨⟨hc.1, hc.2.1⟩, hc.2.2.1, hc.2.2.2⟩
    · subst hb
      simp [hd]

/-- What the loops of lines 579 to 588 push for a teleport zone whose first tile can be
read, with the fog of war on: a marker at `(j, k)` exactly when the zone covers the
tile, the first tile of the zone is not `TILE_HIDDEN` and the tile passes the test
`calcDist <= visible_radius`. The state of the tile `(j, k)` itself plays no part. -/
theorem teleport_zone_markers (g : MiniMap) (ev : Event)
    (h1 : ev.hiddenFromMinimap = false)
    (h2 : ¬ (ev.npc_hotspot = true ∧ ev.active = true)) (h3 : ev.isTeleport = true)
    (hfog : g.map_fogofwar = true) (t0 : Tile)
    (ht0 : getTile g.dark ev.location.x ev.location.y = some t0) (j k : Int) :
    (⟨j, k, color_teleport⟩ : PixelEntity) ∈ eventMarkers g ev ↔
      ev.covers j k ∧ t0 ≠ TILE_HIDDEN ∧
        calcDistLe g.hero_pos (FPoint.ofInts j k) g.visible_radius = true := by
  have hb : originHidden g ev = some (decide (t0 = TILE_HIDDEN)) := by
    unfold originHidden
    rw [hfog, ht0]
    rfl
  rw [eventMarkers_teleport h1 h2 h3 hb, mem_teleportMarkers]
  simp

/-- C14 (code defect). The per-tile fog test of the teleport zones reads the first tile
of the rectangle (line 582 tests `[event_pos.x][event_pos.y]` inside the loops over `j`
and `k`), not the tile `(j, k)`. In the example state, fog of war on, observer at (5, 5),
visible radius 45, the tile (2, 8) is `TILE_HIDDEN_BOUNDARY` and the tile (2, 9) is
`TILE_HIDDEN`. An active intermap zone activated on trigger on (1, 2) and (2, 2), whose
first tile (1, 2) is `TILE_HIDDEN`, gets no marker, although (2, 2) is
`TILE_HIDDEN_BOUNDARY`, not `TILE_HIDDEN`, and passes the test of the visible radius;
`fillEntities` returns the markers of the observer and of the ally only. A zone on
(2, 8) and (2, 9) gets a marker on both tiles, the hidden tile (2, 9) included. -/
theorem teleport_zone_masked_by_first_tile :
    (sampleZone 1 2 2 1).isTeleport = true ∧
    (sampleZone 1 2 2 1).hiddenFromMinimap = false ∧
    (sampleZone 1 2 2 1).npc_hotspot = false ∧
    sampleMiniMap.map_fogofwar = true ∧
    (sampleZone 1 2 2 1).covers 2 2 ∧
    getTile sampleMiniMap.dark 1 2 = some TILE_HIDDEN ∧
    getTile sampleMiniMap.dark 2 2 = some TILE_HIDDEN_BOUNDARY ∧
    (Utils.calcDist sampleMiniMap.hero_pos (FPoint.ofInts 2 2)).le sampleMiniMap.visible_radius
      = true ∧
    DistLe sampleMiniMap.hero_pos (FPoint.ofInts 2 2) sampleMiniMap.visible_radius.toRat ∧
    eventMarkers sampleMiniMap (sampleZone 1 2 2 1) = [] ∧
    fillEntities { sampleMiniMap with events := [sampleZone 1 2 2 1] } clearEntities
      = some [⟨5, 5, color_hero⟩, ⟨6, 5, color_ally⟩] ∧
    (sampleZone 2 8 1 2).covers 2 9 ∧
    getTile sampleMiniMap.dark 2 8 = some TILE_HIDDEN_BOUNDARY ∧
    getTile sampleMiniMap.dark 2 9 = some TILE_HIDDEN ∧
    eventMarkers sampleMiniMap (sampleZone 2 8 1 2)
      = [⟨2, 8, color_teleport⟩, ⟨2, 9, color_teleport⟩] ∧
    fillEntities { sampleMiniMap with events := [sampleZone 2 8 1 2] } clearEntities
      = some [⟨5, 5, color_hero⟩, ⟨2, 8, color_teleport⟩, ⟨2, 9, color_teleport⟩,
          ⟨6, 5, color_ally⟩] := by
  refine ⟨by decide, rfl, rfl, rfl, by decide, by decide!, by decide!, by decide!,
    (distLe_iff _ _ _).mp (by decide!), by decide!, by decide!, by decide, by decide!,
    by decide!, by decide!, by decide!⟩

/-! ## The terrain rasteriser -/

/-- The outcome of the fog test of the rasterisers on a tile whose state can be read. -/
theorem fogAllows_eq {g : MiniMap} {i j : Int} {t : Tile}
    (ht : g.fogofwar ≠ TYPE_NONE → getTile g.dark i j = some t) :
    fogAllows g i j = some (decide (¬ (g.fogofwar ≠ TYPE_NONE ∧ g.tile_value t ≠ 0))) := by
  unfold fogAllows
  by_cases hf : g.fogofwar ≠ TYPE_NONE
  · rw [if_pos hf, ht hf]
    by_cases hv : g.tile_value t = 0 <;> simp [hf, hv]
  · rw [if_neg hf]
    simp [hf]

/-- Neither rasteriser writes a pixel for a tile that the fog of war hides, that is when
`eset->misc.fogofwar > 0` and the number stored for the state of the tile is not 0. -/
theorem cells_hidden_by_fog (g : MiniMap) (zoom i j c : Int) (t : Tile)
    (hc : getCol g.colmap i j = some c)
    (ht : g.fogofwar ≠ TYPE_NONE → getTile g.dark i j = some t)
    (h : g.fogofwar ≠ TYPE_NONE ∧ g.tile_value t ≠ 0) :
    isoCell g zoom i j = some [] ∧ orthoCell g zoom i j = some [] := by
  have hfog := fogAllows_eq ht
  unfold isoCell orthoCell
  simp only [hc, hfog, Option.bind_eq_bind, Option.some_bind, Option.pure_def]
  cases hd : drawColor g c with
  | none => exact ⟨rfl, rfl⟩
  | some col => simp [h]

/-- C16 (amended). The terrain draw rule, for a tile `(i, j)` of collision class `c`
whose fog state `t` is read when `eset->misc.fogofwar > 0`. The fog of war hides the tile
when it is enabled and the number stored for the state `t` is not 0. `updateIso` writes
the pixel block of the tile if and only if the class is wall (1 or 5) or obstacle (2 or 6)
and the fog does not hide the tile; `updateOrtho` writes it under the same condition
provided the alpha of the draw colour is not 0; the block is in the wall colour for the
classes 1 and 5 and in the obstacle colour for the classes 2 and 6. -/
theorem terrain_draw_rule (g : MiniMap) (zoom i j c : Int) (t : Tile)
    (hc : getCol g.colmap i j = some c)
    (ht : g.fogofwar ≠ TYPE_NONE → getTile g.dark i j = some t) :
    ((c = 1 ∨ c = 5) → ¬ (g.fogofwar ≠ TYPE_NONE ∧ g.tile_value t ≠ 0) →
      isoCell g zoom i j = some ((isoTileBlock g zoom i j).map fun p => (p, g.color_wall)) ∧
      (g.color_wall.a ≠ 0 → orthoCell g zoom i j
        = some ((orthoTileBlock zoom i j).map fun p => (p, g.color_wall))) ∧
      (g.color_wall.a = 0 → orthoCell g zoom i j = some [])) ∧
    ((c = 2 ∨ c = 6) → ¬ (g.fogofwar ≠ TYPE_NONE ∧ g.tile_value t ≠ 0) →
      isoCell g zoom i j = some ((isoTileBlock g zoom i j).map fun p => (p, g.color_obst)) ∧
      (g.color_obst.a ≠ 0 → orthoCell g zoom i j
        = some ((orthoTileBlock zoom i j).map fun p => (p, g.color_obst))) ∧
      (g.color_obst.a = 0 → orthoCell g zoom i j = some [])) ∧
    ((¬ (c = 1 ∨ c = 5 ∨ c = 2 ∨ c = 6) ∨ (g.fogofwar ≠ TYPE_NONE ∧ g.tile_value t ≠ 0)) →
      isoCell g zoom i j = some [] ∧ orthoCell g zoom i j = some []) := by
  have hfog := fogAllows_eq ht
  refine ⟨?_, ?_, ?_⟩
  · intro hcl hnf
    have hd : drawColor g c = some g.color_wall := by
      unfold drawColor; rw [if_pos hcl]
    unfold isoCell orthoCell
    simp only [hc, hfog, hd, Option.bind_eq_bind, Option.some_bind, hnf, not_false_eq_true,
      decide_True, true_and, if_true, Option.pure_def]
    refine ⟨fun ha => by rw [if_pos ha], fun ha => by rw [if_neg (by simp [ha])]⟩
  · intro hcl hnf
    have hd : drawColor g c = some g.color_obst := by
      unfold drawColor
      have : ¬ (c = 1 ∨ c = 5) := by omega
      rw [if_neg this, if_pos hcl]
    unfold isoCell orthoCell
    simp only [hc, hfog, hd, Option.bind_eq_bind, Option.some_bind, hnf, not_false_eq_true,
      decide_True, true_and, if_true, Option.pure_def]
    refine ⟨fun ha => by rw [if_pos ha], fun ha => by rw [if_neg (by simp [ha])]⟩
  · intro h
    rcases h with h | h
    · have hd : drawColor g c = none := by
        unfold drawColor
        rw [if_neg (by omega), if_neg (by omega)]
      unfold isoCell orthoCell
      simp only [hc, hfog, Option.bind_eq_bind, Option.some_bind, Option.pure_def, hd]
      exact ⟨trivial, trivial⟩
    · exact cells_hidden_by_fog g zoom i j c t hc ht h

/-- Witness of `terrain_draw_rule`: the wall tile (5, 5) of the example state, in sight,
at zoom 2. -/
theorem terrain_draw_rule_witness :
    (getCol sampleMiniMap.colmap 5 5 = some 1 ∧
     (sampleMiniMap.fogofwar ≠ TYPE_NONE → getTile sampleMiniMap.dark 5 5 = some TILE_SIGHT)) ∧
    (((1 : Int) = 1 ∨ (1 : Int) = 5) →
      ¬ (sampleMiniMap.fogofwar ≠ TYPE_NONE ∧ sampleMiniMap.tile_value TILE_SIGHT ≠ 0) →
      isoCell sampleMiniMap 2 5 5
        = some ((isoTileBlock sampleMiniMap 2 5 5).map fun p => (p, sampleMiniMap.color_wall)) ∧
      (sampleMiniMap.color_wall.a ≠ 0 → orthoCell sampleMiniMap 2 5 5
        = some ((orthoTileBlock 2 5 5).map fun p => (p, sampleMiniMap.color_wall))) ∧
      (sampleMiniMap.color_wall.a = 0 → orthoCell sampleMiniMap 2 5 5 = some [])) ∧
    (((1 : Int) = 2 ∨ (1 : Int) = 6) →
      ¬ (sampleMiniMap.fogofwar ≠ TYPE_NONE ∧ sampleMiniMap.tile_value TILE_SIGHT ≠ 0) →
      isoCell sampleMiniMap 2 5 5
        = some ((isoTileBlock sampleMiniMap 2 5 5).map fun p => (p, sampleMiniMap.color_obst)) ∧
      (sampleMiniMap.color_obst.a ≠ 0 → orthoCell sampleMiniMap 2 5 5
        = some ((orthoTileBlock 2 5 5).map fun p => (p, sampleMiniMap.color_obst))) ∧
      (sampleMiniMap.color_obst.a = 0 → orthoCell sampleMiniMap 2 5 5 = some [])) ∧
    ((¬ ((1 : Int) = 1 ∨ (1 : Int) = 5 ∨ (1 : Int) = 2 ∨ (1 : Int) = 6) ∨
        (sampleMiniMap.fogofwar ≠ TYPE_NONE ∧ sampleMiniMap.tile_value TILE_SIGHT ≠ 0)) →
      isoCell sampleMiniMap 2 5 5 = some [] ∧ orthoCell sampleMiniMap 2 5 5 = some []) :=
  have h1 : getCol sampleMiniMap.colmap 5 5 = some 1 := by decide
  have h2 : sampleMiniMap.fogofwar ≠ TYPE_NONE →
      getTile sampleMiniMap.dark 5 5 = some TILE_SIGHT := fun _ => by decide!
  ⟨⟨h1, h2⟩, terrain_draw_rule sampleMiniMap 2 5 5 1 TILE_SIGHT h1 h2⟩

/-- C16 (counterexample). In the example state, with the fog of war enabled and the tile
states numbered in order from 0, the wall tile (8, 5) is `TILE_HIDDEN_BOUNDARY`, not
`TILE_HIDDEN`, and neither rasteriser writes a pixel for it. Whatever the numbering of the
tile states, as long as `TILE_SIGHT` and `TILE_VISITED` are distinct numbers, one of the
two states makes both rasterisers write nothing for a wall tile. And with the fog of war
off, `updateOrtho` writes nothing for a wall tile when the alpha of the wall colour is 0,
while `updateIso` writes the block. -/
theorem terrain_hidden_unless_value_zero :
    (sampleMiniMap.fogofwar ≠ TYPE_NONE ∧ getCol sampleMiniMap.colmap 8 5 = some 1 ∧
      getTile sampleMiniMap.dark 8 5 = some TILE_HIDDEN_BOUNDARY ∧
      orthoCell sampleMiniMap 1 8 5 = some [] ∧ isoCell sampleMiniMap 1 8 5 = some []) ∧
    (∀ v : Tile → Nat, v TILE_SIGHT ≠ v TILE_VISITED →
      ∃ t, (t = TILE_SIGHT ∨ t = TILE_VISITED) ∧
        orthoCell { sampleMiniMap with tile_value := v, dark := fillLayer 10 10 t } 1 5 5
          = some [] ∧
        isoCell { sampleMiniMap with tile_value := v, dark := fillLayer 10 10 t } 1 5 5
          = some []) ∧
    (orthoCell { sampleMiniMap with fogofwar := TYPE_NONE, color_wall := ⟨128, 128, 128, 0⟩ }
        1 5 5 = some [] ∧
      isoCell { sampleMiniMap with fogofwar := TYPE_NONE, color_wall := ⟨128, 128, 128, 0⟩ }
        1 5 5 = some [((10, 9), ⟨128, 128, 128, 0⟩), ((9, 9), ⟨128, 128, 128, 0⟩)]) := by
  refine ⟨by decide!, ?_, by decide!⟩
  intro v hv
  have key : ∀ t : Tile, v t ≠ 0 →
      orthoCell { sampleMiniMap with tile_value := v, dark := fillLayer 10 10 t } 1 5 5
          = some [] ∧
        isoCell { sampleMiniMap with tile_value := v, dark := fillLayer 10 10 t } 1 5 5
          = some [] := by
    intro t hvt
    have hc : getCol sampleMiniMap.colmap 5 5 = some 1 := by decide
    have ht : getTile (fillLayer 10 10 t) 5 5 = some t := by cases t <;> decide
    have := cells_hidden_by_fog
      { sampleMiniMap with tile_value := v, dark := fillLayer 10 10 t } 1 5 5 1 t hc
      (fun _ => ht) ⟨(by decide : sampleMiniMap.fogofwar ≠ TYPE_NONE), hvt⟩
    exact ⟨this.2, this.1⟩
  by_cases h0 : v TILE_SIGHT = 0
  · exact ⟨TILE_VISITED, Or.inr rfl, key TILE_VISITED (fun h => hv (h0.trans h.symm))⟩
  · exact ⟨TILE_SIGHT, Or.inl rfl, key TILE_SIGHT h0⟩

theorem mem_orthoTileBlock (zoom i j : Int) (p : Int × Int) :
    p ∈ orthoTileBlock zoom i j ↔
      ∃ l k, 0 ≤ l ∧ l < zoom ∧ 0 ≤ k ∧ k < zoom ∧
        p = (zoom * i + k - 1, zoom * j + l - 1) := by
  unfold orthoTileBlock
  simp only [List.mem_flatMap, List.mem_map, mem_loopRange]
  constructor
  · rintro ⟨l, hl, k, hk, rfl⟩
    exact ⟨l, k, hl.1, hl.2, hk.1, hk.2, rfl⟩
  · rintro ⟨l, k, h1, h2, h3, h4, rfl⟩
    exact ⟨l, ⟨h1, h2⟩, k, ⟨h3, h4⟩, rfl⟩

theorem mem_isoTileBlock (g : MiniMap) (zoom i j : Int) (p : Int × Int) :
    p ∈ isoTileBlock g zoom i j ↔
      ∃ l k, 0 ≤ l ∧ l < zoom ∧ 0 ≤ k ∧ k < zoom ∧
        (p = (zoom * (i - j + max g.map_size.x g.map_size.y) + k, zoom * (i + j) - 1 + l) ∨
         p = (zoom * (i - j + max g.map_size.x g.map_size.y) + k - zoom,
              zoom * (i + j) - 1 + l)) := by
  unfold isoTileBlock
  simp only [List.mem_flatMap, mem_loopRange, List.mem_cons, List.mem_singleton,
    List.not_mem_nil, or_false]
  constructor
  · rintro ⟨l, hl, k, hk, h⟩
    exact ⟨l, k, hl.1, hl.2, hk.1, hk.2, h⟩
  · rintro ⟨l, k, h1, h2, h3, h4, h⟩
    exact ⟨l, ⟨h1, h2⟩, k, ⟨h3, h4⟩, h⟩

/-- C18 (amended). Surface extent, for a zoom of 1 or 2 and a tile `(i, j)` of the map:
every pixel coordinate `(px, py)` written for the tile by `updateOrtho` satisfies
`-1 <= px < S` and `-1 <= py < S` with `S = max(W + z, H + z) * z`, the side allocated by
`prerenderOrtho`, and `px = -1` only in the column `i = 0`, `py = -1` only in the row
`j = 0`; every pixel coordinate written for the tile by `updateIso` satisfies
`0 <= px < S` and `-1 <= py < S` with `S = max(W + z, H + z) * 2 * z`, the side allocated
by `prerenderIso`, and `py = -1` only for the tile (0, 0). -/
theorem surface_extent (g : MiniMap) (zoom i j : Int) (hz : zoom = 1 ∨ zoom = 2)
    (hi : 0 ≤ i ∧ i < g.map_size.x) (hj : 0 ≤ j ∧ j < g.map_size.y) :
    (∀ p ∈ orthoTileBlock zoom i j,
      -1 ≤ p.1 ∧ p.1 < orthoSurfaceSize g zoom ∧ -1 ≤ p.2 ∧ p.2 < orthoSurfaceSize g zoom ∧
      (p.1 = -1 → i = 0) ∧ (p.2 = -1 → j = 0)) ∧
    (∀ p ∈ isoTileBlock g zoom i j,
      0 ≤ p.1 ∧ p.1 < isoSurfaceSize g zoom ∧ -1 ≤ p.2 ∧ p.2 < isoSurfaceSize g zoom ∧
      (p.2 = -1 → i = 0 ∧ j = 0)) := by
  constructor
  · intro p hp
    rw [mem_orthoTileBlock] at hp
    obtain ⟨l, k, h1, h2, h3, h4, rfl⟩ := hp
    unfold orthoSurfaceSize
    rcases hz with rfl | rfl
    · simp only [one_mul, mul_one]
      omega
    · simp only
      omega
  · intro p hp
    rw [mem_isoTileBlock] at hp
    obtain ⟨l, k, h1, h2, h3, h4, hp⟩ := hp
    unfold isoSurfaceSize
    rcases hz with rfl | rfl
    · rcases hp with rfl | rfl
      · simp only [one_mul, mul_one]
        omega
      · simp only [one_mul, mul_one]
        omega
    · rcases hp with rfl | rfl
      · simp only
        omega
      · simp only
        omega

/-- Witness of `surface_extent`: the tile (0, 0) of the example map at zoom 2. -/
theorem surface_extent_witness :
    (((2 : Int) = 1 ∨ (2 : Int) = 2) ∧ ((0 : Int) ≤ 0 ∧ (0 : Int) < sampleMiniMap.map_size.x) ∧
     ((0 : Int) ≤ 0 ∧ (0 : Int) < sampleMiniMap.map_size.y)) ∧
    ((∀ p ∈ orthoTileBlock 2 0 0,
      -1 ≤ p.1 ∧ p.1 < orthoSurfaceSize sampleMiniMap 2 ∧ -1 ≤ p.2 ∧
      p.2 < orthoSurfaceSize sampleMiniMap 2 ∧
      (p.1 = -1 → (0 : Int) = 0) ∧ (p.2 = -1 → (0 : Int) = 0)) ∧
    (∀ p ∈ isoTileBlock sampleMiniMap 2 0 0,
      0 ≤ p.1 ∧ p.1 < isoSurfaceSize sampleMiniMap 2 ∧ -1 ≤ p.2 ∧
      p.2 < isoSurfaceSize sampleMiniMap 2 ∧
      (p.2 = -1 → (0 : Int) = 0 ∧ (0 : Int) = 0))) :=
  ⟨⟨Or.inr rfl, by decide, by decide⟩,
    surface_extent sampleMiniMap 2 0 0 (Or.inr rfl) (by decide) (by decide)⟩

/-- C18 (counterexample). On the example map of 10 x 10 wall tiles with the fog of war
off, at zoom 1, the full redraw of `prerenderOrtho` writes for the tile (0, 0) the pixel
(-1, -1), and the full redraw of `prerenderIso` writes for the tile (0, 0) the pixels
(10, -1) and (9, -1): a coordinate is below 0. -/
theorem redraw_writes_negative_coordinate :
    ((0 : Int) ≤ 0 ∧ (0 : Int) < sampleMiniMap.map_size.x ∧ (0 : Int) < sampleMiniMap.map_size.y) ∧
    orthoTileBlock 1 0 0 = [(-1, -1)] ∧
    isoTileBlock sampleMiniMap 1 0 0 = [(10, -1), (9, -1)] ∧
    orthoCell { sampleMiniMap with fogofwar := TYPE_NONE } 1 0 0
      = some [((-1, -1), ⟨128, 128, 128, 255⟩)] ∧
    isoCell { sampleMiniMap with fogofwar := TYPE_NONE } 1 0 0
      = some [((10, -1), ⟨128, 128, 128, 255⟩), ((9, -1), ⟨128, 128, 128, 255⟩)] ∧
    (∃ out, prerenderOrtho { sampleMiniMap with fogofwar := TYPE_NONE } 1 = some out ∧
      out.head? = some ((-1, -1), ⟨128, 128, 128, 255⟩)) ∧
    (∃ out, prerenderIso { sampleMiniMap with fogofwar := TYPE_NONE } 1 = some out ∧
      out.head? = some ((10, -1), ⟨128, 128, 128, 255⟩)) := by
  refine ⟨by decide, by decide, by decide, by decide, by decide, ?_, ?_⟩
  · refine ⟨(prerenderOrtho { sampleMiniMap with fogofwar := TYPE_NONE } 1).getD [], ?_, ?_⟩
    · decide!
    · decide!
  · refine ⟨(prerenderIso { sampleMiniMap with fogofwar := TYPE_NONE } 1).getD [], ?_, ?_⟩
    · decide!
    · decide!

/-- A loop that appends to its output what each iteration writes returns the
concatenation of the outputs, provided every iteration succeeds. -/
theorem foldlM_output {α β : Type} (f : α → Option (List β)) (l : List α)
    (h : ∀ a ∈ l, (f a).isSome = true) (acc : List β) :
    l.foldlM (fun acc1 a => (f a).map fun ps => acc1 ++ ps) acc
      = some (acc ++ l.flatMap fun a => (f a).getD []) := by
  induction l generalizing acc with
  | nil => simp
  | cons a l ih =>
    obtain ⟨ps, hps⟩ := Option.isSome_iff_exists.mp (h a (List.mem_cons_self a l))
    rw [List.foldlM_cons, hps]
    simp only [Option.map_some', Option.bind_eq_bind, Option.some_bind]
    rw [ih (fun b hb => h b (List.mem_cons_of_mem a hb)), List.flatMap_cons, hps]
    simp

/-- The loops of `updateOrtho` write, tile after tile of the window, the pixels of
`orthoCell`, provided the arrays can be read at every tile of the window. -/
theorem updateOrtho_eq (g : MiniMap) (zoom : Int) (bounds : Rect)
    (h : ∀ i j, inWindow bounds i j → (orthoCell g zoom i j).isSome = true) :
    updateOrtho g zoom bounds
      = some ((loopCells bounds.x bounds.w bounds.y bounds.h).flatMap
          fun p => (orthoCell g zoom p.1 p.2).getD []) := by
  unfold updateOrtho
  rw [foldlM_nested (fun i j acc1 => (orthoCell g zoom i j).map fun ps => acc1 ++ ps)]
  have := foldlM_output (fun p : Int × Int => orthoCell g zoom p.1 p.2)
    (List.product (loopRange bounds.x bounds.w) (loopRange bounds.y bounds.h))
    (by
      intro p hp
      have hm := (mem_loopCells bounds.x bounds.w bounds.y bounds.h p).mp hp
      exact h p.1 p.2 ⟨hm.1.1, hm.1.2, hm.2.1, hm.2.2⟩) []
  simpa [loopCells] using this

/-- The loops of `updateIso` write, tile after tile of the window, the pixels of
`isoCell`, provided the arrays can be read at every tile of the window. -/
theorem updateIso_eq (g : MiniMap) (zoom : Int) (bounds : Rect)
    (h : ∀ i j, inWindow bounds i j → (isoCell g zoom i j).isSome = true) :
    updateIso g zoom bounds
      = some ((loopCells bounds.x bounds.w bounds.y bounds.h).flatMap
          fun p => (isoCell g zoom p.1 p.2).getD []) := by
  unfold updateIso
  rw [foldlM_nested (fun i j acc1 => (isoCell g zoom i j).map fun ps => acc1 ++ ps)]
  have := foldlM_output (fun p : Int × Int => isoCell g zoom p.1 p.2)
    (List.product (loopRange bounds.x bounds.w) (loopRange bounds.y bounds.h))
    (by
      intro p hp
      have hm := (mem_loopCells bounds.x bounds.w bounds.y bounds.h p).mp hp
      exact h p.1 p.2 ⟨hm.1.1, hm.1.2, hm.2.1, hm.2.2⟩) []
  simpa [loopCells] using this

/-- The conversion to `int` is the truncation when the truncated value is in the range
of `int`. -/
theorem toInt_eq {f : F32} (h : -2147483648 ≤ f.trunc ∧ f.trunc ≤ 2147483647) :
    toInt f = f.trunc := by
  unfold toInt
  omega

-- END THMS MenuMiniMap
end MenuMiniMap
